import Mathlib

/-!
# Hex: connectivity detection and Monte Carlo move selection

A shallow embedding of `main.cpp` (terminal Hex game) and a verification of
its lattice construction, its colour-restricted reachability search, its win
detection and its Monte Carlo move selection.

Conventions of the embedding.

* `std::vector<T>` is a `List T`; reading index `i` is `List.getD` and writing
  index `i` is `List.set`.  Every theorem below works with indices in range,
  where these agree with `operator[]`.
* `int` values are `Nat` (sizes, indices, counters) or `Int` (the predecessor
  index, which may be `-1`); they are assumed to stay inside the `int` range.
* `double` distances only ever hold `0` and results of `+ 1`; they are `Int`.
* A `Node*` into `node_list` is the position of the node in `node_list`.
* `std::set<Node*, compare_ptr>` is the list of its elements in comparator
  order; iterators are positions in that list, `end()` is its length.
* A failing `assert`, a dereference or erase of `end()`, and running out of
  recursion fuel are the three errors of `Err`.
-/

namespace Hex

/-- Which set a node is in. -/
inductive set_t where
  | NONE
  | OPEN
  | CLOSED
  deriving DecidableEq, Repr

/-- The colour of a cell. -/
inductive cell where
  | EMPTY
  | RED
  | BLUE
  deriving DecidableEq, Repr

/-- Ways in which a run fails to return. -/
inductive Err where
  | assertion
  | undefined
  | fuel
  deriving DecidableEq, Repr

/-- A player: `Player(name, color)` sets `AI` to false. -/
structure Player where
  name : String
  color : cell
  AI : Bool
  deriving DecidableEq, Repr

/-- Node of the graph, with its search state. -/
structure Node where
  set_type : set_t
  node_index : Nat
  previous_node : Int
  distance : Int
  deriving DecidableEq, Repr

/-- Constructor `Node(int node_index)`: `previous_node` is left uninitialised by
the source, its value `garbage` is whatever the memory held. -/
def Node.new (node_index : Nat) (garbage : Int) : Node :=
  { set_type := set_t.NONE, node_index := node_index, previous_node := garbage, distance := 0 }

/-- Constructor `Node(int node_index, int distance)`. -/
def Node.new2 (node_index : Nat) (distance : Int) (garbage : Int) : Node :=
  { set_type := set_t.NONE, node_index := node_index, previous_node := garbage,
    distance := distance }

/-- Method `Node::set_distance`. -/
def Node.set_distance (n : Node) (dist : Int) (prev_node : Int) : Node :=
  { n with distance := dist, previous_node := prev_node }

/-- Method `Node::reset`: reinitialise to default values. -/
def Node.reset (n : Node) : Node :=
  { n with set_type := set_t.NONE, distance := 0 }

/-- The comparison `Node::operator<`. -/
def Node.lt (a b : Node) : Bool :=
  if a.distance = b.distance then decide (a.node_index < b.node_index)
  else decide (a.distance < b.distance)

/-- Maintains the list of nodes and the open set. -/
structure NodeList where
  num_nodes : Nat
  node_list : List Node
  open_set : List Nat
  deriving DecidableEq, Repr

/-- Constructor `NodeList(int num_nodes)`: pushes `Node(i)` for `i` from `0`. -/
def NodeList.new (num_nodes : Nat) (garbage : Nat → Int) : NodeList :=
  { num_nodes := num_nodes,
    node_list := (List.range num_nodes).foldl (fun l i => l ++ [Node.new i (garbage i)]) [],
    open_set := [] }

/-- The node `node_list[i]`. -/
def NodeList.nth (nl : NodeList) (i : Nat) : Node :=
  nl.node_list.getD i (Node.new 0 0)

/-- The assignment `node_list[i] = n`. -/
def NodeList.put (nl : NodeList) (i : Nat) (n : Node) : NodeList :=
  { nl with node_list := nl.node_list.set i n }

/-- Method `NodeList::set_type(i)`. -/
def NodeList.set_type (nl : NodeList) (i : Nat) : set_t := (nl.nth i).set_type

/-- Method `NodeList::get_distance(i)`. -/
def NodeList.get_distance (nl : NodeList) (i : Nat) : Int := (nl.nth i).distance

/-- The comparator `compare_ptr` on two node pointers. -/
def NodeList.compare_ptr (nl : NodeList) (p q : Nat) : Bool := Node.lt (nl.nth p) (nl.nth q)

/-- Method `NodeList::reset_node_list`. -/
def NodeList.reset_node_list (nl : NodeList) : NodeList :=
  (List.range nl.num_nodes).foldl (fun s j => s.put j (s.nth j).reset) nl

/-- The position `std::set::lower_bound(key)`: the first element not less than
`key`, where `less q` says that element `q` is less than the key. -/
def set_lower_bound (less : Nat → Bool) : List Nat → Nat
  | [] => 0
  | q :: rest => if less q then set_lower_bound less rest + 1 else 0

/-- The call `std::set::insert(p)`: the new sequence and whether `p` was inserted
(it is not when an equivalent element is present). -/
def set_insert (lt : Nat → Nat → Bool) (p : Nat) : List Nat → List Nat × Bool
  | [] => ([p], true)
  | q :: rest =>
    if lt q p then ((q :: (set_insert lt p rest).1), (set_insert lt p rest).2)
    else if lt p q then (p :: q :: rest, true)
    else (q :: rest, false)

/-- The position `std::set::find(p)`: `none` stands for `end()`. -/
def set_find (lt : Nat → Nat → Bool) (p : Nat) (s : List Nat) : Option Nat :=
  match s.get? (set_lower_bound (fun q => lt q p) s) with
  | none => none
  | some q => if lt p q then none else some (set_lower_bound (fun q => lt q p) s)

/-- Method `NodeList::init_open_set`: clear open set and init open set with node `i`. -/
def NodeList.init_open_set (nl : NodeList) (i : Nat) : NodeList :=
  let s0 : NodeList := { nl with open_set := [] }
  let s1 : NodeList := { s0 with open_set := (set_insert s0.compare_ptr i s0.open_set).1 }
  s1.put i { s1.nth i with set_type := set_t.OPEN }

/-- Method `NodeList::open_set_size`. -/
def NodeList.open_set_size (nl : NodeList) : Nat := nl.open_set.length

/-- Method `NodeList::open_set_delete`: remove `j` from open set. -/
def NodeList.open_set_delete (nl : NodeList) (j : Nat) : Except Err NodeList :=
  match set_find nl.compare_ptr j nl.open_set with
  | none => Except.error Err.undefined
  | some it => Except.ok { nl with open_set := nl.open_set.eraseIdx it }

/-- Method `NodeList::open_set_insert`: insert/update `j` in open set. -/
def NodeList.open_set_insert (nl : NodeList) (j : Nat) (_new_dist : Int) : Except Err NodeList :=
  if nl.set_type j ≠ set_t.OPEN then Except.error Err.assertion
  else if (set_insert nl.compare_ptr j nl.open_set).2 = true then
    Except.ok { nl with open_set := (set_insert nl.compare_ptr j nl.open_set).1 }
  else Except.error Err.assertion

/-- Method `NodeList::get_min_from_open_set`: moves node with min distance from open
set to closed set, and returns pointer to node. -/
def NodeList.get_min_from_open_set (nl : NodeList) : Except Err (Nat × NodeList) :=
  let tmp_min : Node := Node.new2 0 0 0
  let min_node_it := set_lower_bound (fun q => Node.lt (nl.nth q) tmp_min) nl.open_set
  match nl.open_set.get? min_node_it with
  | none => Except.error Err.undefined
  | some min_node =>
    let s1 := nl.put min_node { nl.nth min_node with set_type := set_t.CLOSED }
    Except.ok (min_node, { s1 with open_set := s1.open_set.eraseIdx min_node_it })

/-- Method `NodeList::add_node_to_open_set`: `j` is node to add, `i` is node leading
to `j`, `new_dist` is distance to node `j` from starting node. -/
def NodeList.add_node_to_open_set (nl : NodeList) (j i : Nat) (new_dist : Int) :
    Except Err NodeList :=
  if nl.set_type j ≠ set_t.OPEN then
    let s1 := nl.put j { nl.nth j with set_type := set_t.OPEN }
    let s2 := s1.put j ((s1.nth j).set_distance new_dist i)
    s2.open_set_insert j new_dist
  else if new_dist < (nl.nth j).distance then
    match nl.open_set_delete j with
    | Except.error e => Except.error e
    | Except.ok s1 =>
      let s2 := s1.put j ((s1.nth j).set_distance new_dist i)
      s2.open_set_insert j new_dist
  else Except.ok nl

/-- Undirected graph `Graph<bool>`: matrix of edges and adjacency list. -/
structure Graph where
  num_nodes : Nat
  val_for_no_edge : Bool
  graph : List (List Bool)
  neighbours : List (List Nat)
  deriving DecidableEq, Repr

/-- Constructor `Graph(num_nodes, val_for_no_edge = false)`. -/
def Graph.new (num_nodes : Nat) (val_for_no_edge : Bool) : Graph :=
  { num_nodes := num_nodes, val_for_no_edge := val_for_no_edge,
    graph := List.replicate num_nodes (List.replicate num_nodes val_for_no_edge),
    neighbours := List.replicate num_nodes [] }

/-- The entry `graph[node1][node2]`, as read by `edge_between_nodes`. -/
def Graph.edge_between_nodes (g : Graph) (node1 node2 : Nat) : Bool :=
  (g.graph.getD node1 []).getD node2 false

/-- The assignment `graph[node1][node2] = weight`. -/
def Graph.assign (g : Graph) (node1 node2 : Nat) (weight : Bool) : Graph :=
  { g with graph := g.graph.set node1 ((g.graph.getD node1 []).set node2 weight) }

/-- Method `Graph::set_edge`: `graph[node1][node2] = graph[node2][node1] = weight`. -/
def Graph.set_edge (g : Graph) (node1 node2 : Nat) (weight : Bool) : Graph :=
  (g.assign node2 node1 weight).assign node1 node2 weight

/-- The call `neighbours[mrow].push_back(mcol)`. -/
def Graph.push_neighbour (g : Graph) (mrow mcol : Nat) : Graph :=
  { g with neighbours := g.neighbours.set mrow (g.neighbours.getD mrow [] ++ [mcol]) }

/-- Method `Graph::collapse_matrix`: collapses each row of matrix into vector of
neighbours. -/
def Graph.collapse_matrix (g : Graph) : Graph :=
  (List.range g.num_nodes).foldl
    (fun g1 mrow =>
      (List.range g1.num_nodes).foldl
        (fun g2 mcol => if g2.edge_between_nodes mrow mcol then g2.push_neighbour mrow mcol else g2)
        g1)
    g

/-- The class `HexGraph`, a `Graph<bool>` with the board dimensions. -/
structure HexGraph where
  base : Graph
  num_cols : Nat
  num_rows : Nat
  deriving DecidableEq, Repr

/-- Constructor `HexGraph(num_cols, num_rows)`. -/
def HexGraph.new (num_cols num_rows : Nat) : HexGraph :=
  { base := Graph.new (num_cols * num_rows) false, num_cols := num_cols, num_rows := num_rows }

/-- Method `HexGraph::edge_between_cells`. -/
def HexGraph.edge_between_cells (h : HexGraph) (row1 col1 row2 col2 : Nat) : Bool :=
  h.base.edge_between_nodes (row1 * h.num_cols + col1) (row2 * h.num_cols + col2)

/-- Method `HexGraph::set_edge_hex`. -/
def HexGraph.set_edge_hex (h : HexGraph) (row1 col1 row2 col2 : Nat) : HexGraph :=
  { h with base := h.base.set_edge (row1 * h.num_cols + col1) (row2 * h.num_cols + col2) true }

/-- Body of the inner loop of `HexGraph::gen` for the cell `(row, col)`. -/
def HexGraph.gen_cell (h : HexGraph) (row col : Nat) : HexGraph :=
  let h1 := if col ≠ h.num_cols - 1 then h.set_edge_hex row col row (col + 1) else h
  let h2 := if row ≠ h1.num_rows - 1 then h1.set_edge_hex row col (row + 1) col else h1
  if col ≠ 0 ∧ row ≠ h2.num_rows - 1 then h2.set_edge_hex row col (row + 1) (col - 1) else h2

/-- The two loops of `HexGraph::gen`, before `collapse_matrix`. -/
def HexGraph.gen_edges (h : HexGraph) : HexGraph :=
  (List.range h.num_rows).foldl
    (fun h1 row => (List.range h1.num_cols).foldl (fun h2 col => h2.gen_cell row col) h1)
    h

/-- Method `HexGraph::gen`. -/
def HexGraph.gen (h : HexGraph) : HexGraph :=
  let h1 := h.gen_edges
  { h1 with base := h1.base.collapse_matrix }

/-- The loop `for (i = 0; i < n; ++i) body(i)` over a state, where the body may fail. -/
def for_loop {σ : Type} (n : Nat) (body : Nat → σ → Except Err σ) (s : σ) : Except Err σ :=
  (List.range n).foldlM (fun s i => body i s) s

/-- A search loop `for (i = 0; i < n; ++i) if (hit(i)) { found; break/return; }`,
started at `i` with `n` iterations left: whether some iteration hits. -/
def search_loop (hit : Nat → Bool) : Nat → Nat → Bool
  | 0, _ => false
  | n + 1, i => if hit i then true else search_loop hit n (i + 1)

/-- The class `Board`. -/
structure Board where
  board_size : Nat
  board : List (List cell)
  graph : HexGraph
  players : List Player
  node_list : NodeList
  current_player : Player
  deriving DecidableEq, Repr

/-- Constructor `Board(int s)`; `current_player` is default-constructed, so its
fields hold whatever `p0` the memory held, as do the predecessors of the nodes. -/
def Board.new (s : Nat) (garbage : Nat → Int) (p0 : Player) : Board :=
  { board_size := s,
    board := List.replicate s (List.replicate s cell.EMPTY),
    graph := (HexGraph.new s s).gen,
    players := [],
    node_list := NodeList.new (s * s) garbage,
    current_player := p0 }

/-- The cell `board[row][col]`. -/
def Board.cell_at (b : Board) (row col : Nat) : cell :=
  (b.board.getD row []).getD col cell.EMPTY

/-- The assignment `board[row][col] = c`. -/
def Board.set_cell (b : Board) (row col : Nat) (c : cell) : Board :=
  { b with board := b.board.set row ((b.board.getD row []).set col c) }

/-- Method `Board::update_board`: tries to take cell `(row, col)` and returns whether
successful. -/
def Board.update_board (b : Board) (row col : Nat) : Bool × Board :=
  if b.cell_at row col ≠ cell.EMPTY then (false, b)
  else (true, b.set_cell row col b.current_player.color)

/-- Method `Board::horizontal_path`: whether the closed set reaches both the
left-most and the right-most column. -/
def Board.horizontal_path (b : Board) : Bool :=
  let found_left :=
    search_loop (fun row => decide (b.node_list.set_type (row * b.board_size + 0) = set_t.CLOSED))
      b.board_size 0
  if ¬ found_left then false
  else
    search_loop
      (fun row =>
        decide (b.node_list.set_type (row * b.board_size + (b.board_size - 1)) = set_t.CLOSED))
      b.board_size 0

/-- Method `Board::vertical_path`: whether the closed set reaches both the top and
the bottom row. -/
def Board.vertical_path (b : Board) : Bool :=
  let found_top :=
    search_loop (fun col => decide (b.node_list.set_type (0 * b.board_size + col) = set_t.CLOSED))
      b.board_size 0
  if ¬ found_top then false
  else
    search_loop
      (fun col =>
        decide (b.node_list.set_type ((b.board_size - 1) * b.board_size + col) = set_t.CLOSED))
      b.board_size 0

/-- Body of the loop of `Board::add_neighbours_to_open_set` for the node `j`. -/
def Board.add_neighbour (i j : Nat) (b : Board) : Except Err Board :=
  let col1 := i % b.board_size
  let row1 := i / b.board_size
  let col2 := j % b.board_size
  let row2 := j / b.board_size
  if b.graph.edge_between_cells row1 col1 row2 col2 = true
      ∧ b.node_list.set_type j ≠ set_t.CLOSED
      ∧ b.cell_at row2 col2 = b.current_player.color then
    match b.node_list.add_node_to_open_set j i (b.node_list.get_distance i + 1) with
    | Except.error e => Except.error e
    | Except.ok nl => Except.ok { b with node_list := nl }
  else Except.ok b

/-- Method `Board::add_neighbours_to_open_set`: add neighbours of node `i` to the
open set. -/
def Board.add_neighbours_to_open_set (b : Board) (i : Nat) : Except Err Board :=
  for_loop (b.board_size * b.board_size) (Board.add_neighbour i) b

/-- Method `Board::find_path_to`; the recursion depth is bounded by `fuel`. -/
def Board.find_path_to : Nat → Board → Nat → Except Err Board
  | 0, _, _ => Except.error Err.fuel
  | fuel + 1, b, final_node =>
    if b.node_list.open_set_size = 0 then Except.ok b
    else
      match b.node_list.get_min_from_open_set with
      | Except.error e => Except.error e
      | Except.ok (next_node, nl) =>
        let index := (nl.nth next_node).node_index
        match Board.add_neighbours_to_open_set { b with node_list := nl } index with
        | Except.error e => Except.error e
        | Except.ok b2 =>
          if index = final_node then Except.ok b2 else Board.find_path_to fuel b2 final_node

/-- Method `Board::find_all_paths_from`: search from `initial` to all possible
nodes; `fuel` bounds the depth of each `find_path_to`. -/
def Board.find_all_paths_from (fuel : Nat) (b : Board) (initial : Nat) : Except Err Board :=
  let b1 : Board := { b with node_list := b.node_list.reset_node_list }
  let b2 : Board := { b1 with node_list := b1.node_list.init_open_set initial }
  for_loop (b2.board_size * b2.board_size)
    (fun i s => if s.node_list.set_type i ≠ set_t.CLOSED then Board.find_path_to fuel s i
      else Except.ok s)
    b2

/-- Method `Board::winning_move`: whether the move to node `(row, col)` by
`player_num` wins the game. -/
def Board.winning_move (fuel : Nat) (b : Board) (row col player_num : Nat) :
    Except Err (Bool × Board) :=
  let node := row * b.board_size + col
  match b.find_all_paths_from fuel node with
  | Except.error e => Except.error e
  | Except.ok b1 =>
    if player_num = 0 then Except.ok (b1.horizontal_path, b1)
    else Except.ok (b1.vertical_path, b1)

/-- The empty cells, as collected by the first loops of `Board::ai_move` into
`possible_moves_orig`. -/
def Board.possible_moves (b : Board) : List Nat :=
  (List.range b.board_size).foldl
    (fun l row =>
      (List.range b.board_size).foldl
        (fun l2 col =>
          if b.cell_at row col = cell.EMPTY then l2 ++ [row * b.board_size + col] else l2)
        l)
    []

/-- The undo loops of `Board::ai_move`: the first `cnt` moves are set back to `EMPTY`. -/
def Board.undo_moves (b : Board) (moves : List Nat) (cnt : Nat) : Board :=
  (List.range cnt).foldl
    (fun s j => s.set_cell (moves.getD j 0 / s.board_size) (moves.getD j 0 % s.board_size)
      cell.EMPTY)
    b

/-- The placement loop of one trial of `Board::ai_move`, at iteration `k` with `cnt`
iterations left: the flag `win`, the board and `num_wins` when the loop is left. -/
def Board.ai_place (fuel player_num : Nat) (moves : List Nat) (first_move : Nat) :
    Nat → Nat → Board → List Nat → Except Err (Bool × Board × List Nat)
  | 0, _, b, num_wins => Except.ok (false, b, num_wins)
  | cnt + 1, k, b, num_wins =>
    let row := moves.getD k 0 / b.board_size
    let col := moves.getD k 0 % b.board_size
    let b1 := b.set_cell row col b.current_player.color
    match b1.winning_move fuel row col player_num with
    | Except.error e => Except.error e
    | Except.ok (win, b2) =>
      if win = true then
        Except.ok (true, b2.undo_moves moves (k + 1),
          num_wins.set first_move (num_wins.getD first_move 0 + 1))
      else Board.ai_place fuel player_num moves first_move cnt (k + 1) b2 num_wins

/-- One iteration of the Monte Carlo loop of `Board::ai_move`; `shuffle i` is what
`random_shuffle` does to the moves in trial `i`. -/
def Board.ai_trial (fuel : Nat) (shuffle : Nat → List Nat → List Nat) (player_num : Nat)
    (possible_moves_orig : List Nat) (i : Nat) (s : Board × List Nat) :
    Except Err (Board × List Nat) :=
  let possible_moves_copy := shuffle i possible_moves_orig
  let first_move := possible_moves_copy.getD 0 0
  match Board.ai_place fuel player_num possible_moves_copy first_move
      ((possible_moves_copy.length + 1) / 2) 0 s.1 s.2 with
  | Except.error e => Except.error e
  | Except.ok (win, b1, num_wins) =>
    if win = false then
      Except.ok (b1.undo_moves possible_moves_copy ((possible_moves_copy.length + 1) / 2),
        num_wins)
    else Except.ok (b1, num_wins)

/-- The Monte Carlo loop of `Board::ai_move`: the board and `num_wins` after it. -/
def Board.ai_trials (fuel : Nat) (shuffle : Nat → List Nat → List Nat) (player_num : Nat)
    (b : Board) : Except Err (Board × List Nat) :=
  for_loop (1000 * b.possible_moves.length)
    (Board.ai_trial fuel shuffle player_num b.possible_moves)
    (b, List.replicate (b.board_size * b.board_size) 0)

/-- The position `std::max_element(begin, end) - begin`: the first largest element
(`0`, which is `end`, on an empty range). -/
def max_element : List Nat → Nat
  | [] => 0
  | x :: rest =>
    (rest.foldl
      (fun (st : Nat × Nat × Nat) y =>
        if st.2.1 < y then (st.2.2, y, st.2.2 + 1) else (st.1, st.2.1, st.2.2 + 1))
      (0, x, 1)).1

/-- Method `Board::ai_move`: the Monte Carlo move selection. -/
def Board.ai_move (fuel : Nat) (shuffle : Nat → List Nat → List Nat) (player_num : Nat)
    (b : Board) : Except Err (Nat × Board) :=
  match b.ai_trials fuel shuffle player_num with
  | Except.error e => Except.error e
  | Except.ok (b1, num_wins) => Except.ok (max_element num_wins, b1)

/-- The matrix of `g` is `k` by `k`. -/
def Graph.square (g : Graph) (k : Nat) : Prop :=
  g.graph.length = k ∧ ∀ x, x < k → (g.graph.getD x []).length = k

/-- The edges that `gen` creates while at the cell `(r, c)`, in either direction. -/
def cell_edge (n r c x y : Nat) : Prop :=
  (c ≠ n - 1 ∧ ((x = r * n + c ∧ y = r * n + (c + 1)) ∨ (x = r * n + (c + 1) ∧ y = r * n + c)))
  ∨ (r ≠ n - 1
      ∧ ((x = r * n + c ∧ y = (r + 1) * n + c) ∨ (x = (r + 1) * n + c ∧ y = r * n + c)))
  ∨ ((c ≠ 0 ∧ r ≠ n - 1)
      ∧ ((x = r * n + c ∧ y = (r + 1) * n + (c - 1))
        ∨ (x = (r + 1) * n + (c - 1) ∧ y = r * n + c)))

/-- State of the lattice under construction: dimensions `n`, an `n*n` square matrix
whose edges are exactly `E`, and no neighbour list yet. -/
structure GenInv (n : Nat) (E : Nat → Nat → Prop) (h : HexGraph) : Prop where
  cols : h.num_cols = n
  rows : h.num_rows = n
  nodes : h.base.num_nodes = n * n
  sq : h.base.square (n * n)
  nb : h.base.neighbours = List.replicate (n * n) []
  edge : ∀ x y, h.base.edge_between_nodes x y = true ↔ E x y

/-- State of `collapse_matrix` on the matrix of `g0`: rows below `R` are collapsed,
row `R` is collapsed up to column `C`. -/
structure CollapseInv (g0 : Graph) (k R C : Nat) (g : Graph) : Prop where
  graph : g.graph = g0.graph
  nodes : g.num_nodes = k
  len : g.neighbours.length = k
  nb : ∀ a, a < k → g.neighbours.getD a [] =
    if a < R then (List.range k).filter (fun b => g0.edge_between_nodes a b)
    else if a = R then (List.range C).filter (fun b => g0.edge_between_nodes a b)
    else []

/-- What `gen` builds for an `n` by `n` board. -/
structure Lattice (n : Nat) (h : HexGraph) : Prop where
  cols : h.num_cols = n
  rows : h.num_rows = n
  nodes : h.base.num_nodes = n * n
  sq : h.base.square (n * n)
  edge : ∀ x y, h.base.edge_between_nodes x y = true
    ↔ ∃ r, r < n ∧ ∃ c, c < n ∧ cell_edge n r c x y
  nb : ∀ a, a < n * n → h.base.neighbours.getD a []
    = (List.range (n * n)).filter (fun b => h.base.edge_between_nodes a b)

/-- The six offsets `(row2 - row1, col2 - col1)` between neighbouring cells of the
hex lattice: right, left, down, up, down-left, up-right. -/
def hex_offset (dr dc : Int) : Prop :=
  (dr = 0 ∧ dc = 1) ∨ (dr = 0 ∧ dc = -1) ∨ (dr = 1 ∧ dc = 0) ∨ (dr = -1 ∧ dc = 0)
    ∨ (dr = 1 ∧ dc = -1) ∨ (dr = -1 ∧ dc = 1)

instance (dr dc : Int) : Decidable (hex_offset dr dc) := by
  unfold hex_offset
  infer_instance

/-- The (at most six) places where a neighbour of node `a` can be on an `n` wide
board. -/
def neighbour_candidates (n a : Nat) : List Nat :=
  [a + 1, a - 1, a + n, a - n, a + n - 1, a + 1 - n]

/-- The node list has `k` nodes and node `i` carries the index `i`, as the
constructor leaves it and every method keeps it. -/
structure NLwf (k : Nat) (nl : NodeList) : Prop where
  nodes : nl.num_nodes = k
  len : nl.node_list.length = k
  idx : ∀ i, i < k → (nl.nth i).node_index = i

/-- Invariant of the open set during a pass: it holds exactly the nodes tagged
`OPEN`, in comparator order, and their distances are `D` or `D + 1`. -/
structure SInv (k : Nat) (D : Int) (nl : NodeList) : Prop where
  wf : NLwf k nl
  mem : ∀ j, j ∈ nl.open_set ↔ (j < k ∧ nl.set_type j = set_t.OPEN)
  sorted : nl.open_set.Pairwise (fun p q => nl.compare_ptr p q = true)
  band : ∀ j, j ∈ nl.open_set → D ≤ nl.get_distance j ∧ nl.get_distance j ≤ D + 1
  nonneg : 0 ≤ D

/-- The state that `get_min_from_open_set` leaves when the open set is `m :: rest`. -/
def NodeList.after_min (nl : NodeList) (m : Nat) (rest : List Nat) : NodeList :=
  { num_nodes := nl.num_nodes,
    node_list := nl.node_list.set m { nl.nth m with set_type := set_t.CLOSED },
    open_set := rest }

/-- The test that `add_neighbours_to_open_set` makes on a node `j` next to `i`, apart
from `j` not being closed: an edge joins them and `j` has the current player's colour. -/
def Board.nbr (b : Board) (i j : Nat) : Prop :=
  b.graph.edge_between_cells (i / b.board_size) (i % b.board_size) (j / b.board_size)
      (j % b.board_size) = true
    ∧ b.cell_at (j / b.board_size) (j % b.board_size) = b.current_player.color

instance (b : Board) (i j : Nat) : Decidable (b.nbr i j) := by
  unfold Board.nbr
  infer_instance

/-- One step of the search: from `x` to a node `y` of the board that passes the test. -/
def Board.step (b : Board) (x y : Nat) : Prop :=
  y < b.board_size * b.board_size ∧ b.nbr x y

/-- Everything but the search state of `b` is as in `b0`. -/
structure Frame (b0 b : Board) : Prop where
  size : b.board_size = b0.board_size
  board : b.board = b0.board
  graph : b.graph = b0.graph
  players : b.players = b0.players
  current : b.current_player = b0.current_player

/-- Reachability invariant of a pass from `start` on the board `b0`: tagged nodes
are reachable, and the neighbours of closed nodes are tagged, for the node `cur`
under expansion only those below `J`. -/
structure RInv (b0 : Board) (start cur J : Nat) (nl : NodeList) : Prop where
  start_lt : start < b0.board_size * b0.board_size
  start_tag : nl.set_type start ≠ set_t.NONE
  sound : ∀ j, j < b0.board_size * b0.board_size → nl.set_type j ≠ set_t.NONE →
    Relation.ReflTransGen b0.step start j
  closed : ∀ i j, i < b0.board_size * b0.board_size → j < b0.board_size * b0.board_size →
    nl.set_type i = set_t.CLOSED → b0.nbr i j → (i = cur → j < J) →
    nl.set_type j ≠ set_t.NONE

/-- Invariant of the loop of `add_neighbours_to_open_set` for the node `i`, taken
from the open set at distance `D` in the state `ref`, before iteration `J`. -/
structure AInv (b0 : Board) (start i : Nat) (D : Int) (ref : NodeList) (J : Nat) (b : Board) :
    Prop where
  frame : Frame b0 b
  sinv : SInv (b0.board_size * b0.board_size) D b.node_list
  itag : b.node_list.set_type i = set_t.CLOSED
  idist : b.node_list.get_distance i = D
  rinv : RInv b0 start i J b.node_list
  same : ∀ x, b.node_list.set_type x = set_t.CLOSED ↔ ref.set_type x = set_t.CLOSED

/-- Invariant of a pass between two extractions from the open set. -/
structure PInv (b0 : Board) (start : Nat) (b : Board) : Prop where
  frame : Frame b0 b
  sinv : ∃ D, SInv (b0.board_size * b0.board_size) D b.node_list
  rinv : RInv b0 start 0 (b0.board_size * b0.board_size) b.node_list

/-- The number of nodes that are not closed. -/
def open_measure (k : Nat) (nl : NodeList) : Nat :=
  ((Finset.range k).filter (fun j => nl.set_type j ≠ set_t.CLOSED)).card

/-- What a finished pass from `start` on the board `b` leaves in `b'`. -/
structure PassDone (b : Board) (start : Nat) (b' : Board) : Prop where
  frame : Frame b b'
  wf : NLwf (b.board_size * b.board_size) b'.node_list
  empty : b'.node_list.open_set = []
  no_open : ∀ j, j < b.board_size * b.board_size → b'.node_list.set_type j ≠ set_t.OPEN
  closed_iff : ∀ j, j < b.board_size * b.board_size →
    (b'.node_list.set_type j = set_t.CLOSED ↔ Relation.ReflTransGen b.step start j)

/-- Two nodes of the `n` by `n` board are neighbours in the hex lattice. -/
def lattice_adjacent (n a b : Nat) : Prop :=
  a < n * n ∧ b < n * n
    ∧ hex_offset (((b / n : Nat) : Int) - ((a / n : Nat) : Int))
        (((b % n : Nat) : Int) - ((a % n : Nat) : Int))

instance (n a b : Nat) : Decidable (lattice_adjacent n a b) := by
  unfold lattice_adjacent
  infer_instance

/-- The colour of the cell of node `j`, which is `board[j / board_size][j % board_size]`. -/
def Board.colour_of (b : Board) (j : Nat) : cell :=
  b.cell_at (j / b.board_size) (j % b.board_size)

/-- Node `j` can be reached from `start` by a path of lattice-adjacent cells that are
all owned by the colour `c`. -/
inductive colour_reachable (n : Nat) (owner : Nat → cell) (c : cell) (start : Nat) : Nat → Prop
  | start : owner start = c → colour_reachable n owner c start start
  | step {x y : Nat} : colour_reachable n owner c start x → lattice_adjacent n x y →
      owner y = c → colour_reachable n owner c start y

/-- A board as the constructor `Board(N)` builds it and as the methods keep it: size
`N`, the lattice of `gen`, an `N` by `N` grid of cells and a list of `N * N` nodes.
The cells and the search state of the nodes are arbitrary. -/
structure Board.wf (N : Nat) (b : Board) : Prop where
  size : b.board_size = N
  graph : b.graph = (HexGraph.new N N).gen
  nodes : NLwf (N * N) b.node_list
  rows : b.board.length = N
  cols : ∀ r, r < N → (b.board.getD r []).length = N

/-- The assignment `current_player = players[player_num]` of `Board::turn`, for the
player `p` found there. -/
def Board.turn_of (b : Board) (p : Player) : Board :=
  { b with current_player := p }

/-- The board after the cells `stones` (row, column) are given the colour `c`. -/
def Board.place (b : Board) (c : cell) (stones : List (Nat × Nat)) : Board :=
  stones.foldl (fun s rc => s.set_cell rc.1 rc.2 c) b

/-- The first player of `Board::play`: colour `BLUE`. -/
def player_one : Player := { name := "one", color := cell.BLUE, AI := false }

/-- The second player of `Board::play`: colour `RED`. -/
def player_two : Player := { name := "two", color := cell.RED, AI := false }

/-- The result of `winning_move`, when it returns. -/
def verdict (r : Except Err (Bool × Board)) : Option Bool :=
  match r with
  | Except.error _ => none
  | Except.ok (win, _) => some win

/-- The 3 by 3 board on which `BLUE`, whose turn it is, owns the row 0. -/
def row_board : Board :=
  ((Board.new 3 (fun _ => -1) player_two).turn_of player_one).place cell.BLUE
    [(0, 0), (0, 1), (0, 2)]

/-- The 3 by 3 board on which `BLUE`, whose turn it is, owns the centre and `RED` owns
every other cell. -/
def isolated_board : Board :=
  (((Board.new 3 (fun _ => -1) player_two).turn_of player_one).place cell.RED
    [(0, 0), (0, 1), (0, 2), (1, 0), (1, 2), (2, 0), (2, 1), (2, 2)]).place cell.BLUE [(1, 1)]

/-- The 4 by 4 board on which `RED`, whose turn it is, owns exactly the diagonal
`(0,0)`, `(1,1)`, `(2,2)`, `(3,3)`. -/
def diagonal_board : Board :=
  ((Board.new 4 (fun _ => -1) player_one).turn_of player_two).place cell.RED
    [(0, 0), (1, 1), (2, 2), (3, 3)]

/-- The board `b` is the board `b0` with the cells of the first `k` moves set to `v`. -/
structure Placed (N : Nat) (b0 : Board) (moves : List Nat) (k : Nat) (v : cell) (b : Board) :
    Prop where
  wf : b.wf N
  current : b.current_player = b0.current_player
  cells : ∀ r, r < N → ∀ c, c < N →
    b.cell_at r c = if ∃ j, j < k ∧ moves.getD j 0 = r * N + c then v else b0.cell_at r c

/-- Invariant of the Monte Carlo loop of `ai_move` on the board `b`: the board is back
to that of `b` and only candidate moves have wins. -/
structure TInv (N : Nat) (b : Board) (s : Board × List Nat) : Prop where
  wf : s.1.wf N
  board : s.1.board = b.board
  current : s.1.current_player = b.current_player
  len : s.2.length = N * N
  wins : ∀ i, s.2.getD i 0 ≠ 0 → i ∈ b.possible_moves

/-- The 2 by 2 board after `BLUE` took `(0,0)` and `RED` took `(0,1)`; it is the turn
of `BLUE`, the first player. -/
def taken_board : Board :=
  (((Board.new 2 (fun _ => -1) player_two).turn_of player_one).place cell.BLUE [(0, 0)]).place
    cell.RED [(0, 1)]

/-- The move chosen by `ai_move`, when it returns. -/
def chosen (r : Except Err (Nat × Board)) : Option Nat :=
  match r with
  | Except.error _ => none
  | Except.ok (mv, _) => some mv

/-- The state of the Monte Carlo loop on `taken_board` after its first trial, when the
shuffle leaves the moves in place. -/
def taken_board_after : Board × List Nat :=
  match Board.ai_trial 5 (fun _ l => l) 0 taken_board.possible_moves 0
      (taken_board, List.replicate 4 0) with
  | Except.error _ => (taken_board, List.replicate 4 0)
  | Except.ok s => s

/-- The 4 by 4 board on which `RED`, whose turn it is, owns exactly the column 1, the
cells `(0,1)`, `(1,1)`, `(2,1)`, `(3,1)`; drawn by `render` it runs from the top left to
the bottom right. -/
def column_board : Board :=
  ((Board.new 4 (fun _ => -1) player_one).turn_of player_two).place cell.RED
    [(0, 1), (1, 1), (2, 1), (3, 1)]

/-- The 2 by 2 board with every cell empty, at the turn of the first player. -/
def empty_board : Board :=
  (Board.new 2 (fun _ => -1) player_two).turn_of player_one

/-- The board after the first `k` placements of a trial of `ai_move`: the assignments
`board[row][col] = current_player.color` for `moves[0]`, ..., `moves[k-1]`. -/
def Board.place_moves (b : Board) (moves : List Nat) (k : Nat) : Board :=
  (List.range k).foldl
    (fun s j => s.set_cell (moves.getD j 0 / s.board_size) (moves.getD j 0 % s.board_size)
      s.current_player.color)
    b

/-- Whether placement `k` of a trial wins: `winning_move` returns true for `moves[k]` on
the board that carries the stones `moves[0]`, ..., `moves[k]`. -/
def Board.placement_wins (b : Board) (fuel player_num : Nat) (moves : List Nat) (k : Nat) :
    Prop :=
  verdict ((b.place_moves moves (k + 1)).winning_move fuel (moves.getD k 0 / b.board_size)
    (moves.getD k 0 % b.board_size) player_num) = some true

instance (b : Board) (fuel player_num : Nat) (moves : List Nat) (k : Nat) :
    Decidable (b.placement_wins fuel player_num moves k) := by
  unfold Board.placement_wins
  infer_instance

/-- The node number `u` of the first edge that the player has to reach: column 0 for
the first player, row 0 for the second. -/
def first_edge (N player_num u : Nat) : Nat :=
  if player_num = 0 then u * N + 0 else 0 * N + u

/-- The node number `v` of the second edge that the player has to reach: column `N - 1`
for the first player, row `N - 1` for the second. -/
def second_edge (N player_num v : Nat) : Nat :=
  if player_num = 0 then v * N + (N - 1) else (N - 1) * N + v

/-- Some connected group of cells of the colour `c` touches both edges that the player
has to join: a path of cells of that colour leads from a node of the first edge to a
node of the second. -/
def sides_connected (N : Nat) (owner : Nat → cell) (c : cell) (player_num : Nat) : Prop :=
  ∃ u v, u < N ∧ v < N
    ∧ colour_reachable N owner c (first_edge N player_num u) (second_edge N player_num v)

/-- A search state with three nodes: node 0 is closed, the nodes 1 and 2 are in the
frontier at distance 1. -/
def frontier_example : NodeList :=
  { num_nodes := 3,
    node_list := [Node.mk set_t.CLOSED 0 (-1) 0, Node.mk set_t.OPEN 1 0 1,
      Node.mk set_t.OPEN 2 0 1],
    open_set := [1, 2] }

/-- What a pass does to the frontier, in the order in which it does it. -/
inductive Event where
  | extract (node : Nat)
  | insert (j i : Nat) (new_dist : Int)
  | revisit (j i : Nat) (new_dist recorded : Int)
  deriving DecidableEq, Repr

/-- The event of a call `add_node_to_open_set(j, i, new_dist)` in the state `nl`:
`insert` when `j` is not in the open set (first branch), `revisit` with the recorded
distance of `j` when it is; the second branch, the update, is taken exactly when
`new_dist < recorded`. -/
def NodeList.add_event (nl : NodeList) (j i : Nat) (new_dist : Int) : Event :=
  if nl.set_type j ≠ set_t.OPEN then Event.insert j i new_dist
  else Event.revisit j i new_dist (nl.nth j).distance

/-- Body of the loop of `add_neighbours_to_open_set`, as `Board.add_neighbour`, with a
log of the calls of `add_node_to_open_set`. -/
def Board.add_neighbour_log (i j : Nat) (s : Board × List Event) :
    Except Err (Board × List Event) :=
  let col1 := i % s.1.board_size
  let row1 := i / s.1.board_size
  let col2 := j % s.1.board_size
  let row2 := j / s.1.board_size
  if s.1.graph.edge_between_cells row1 col1 row2 col2 = true
      ∧ s.1.node_list.set_type j ≠ set_t.CLOSED
      ∧ s.1.cell_at row2 col2 = s.1.current_player.color then
    match s.1.node_list.add_node_to_open_set j i (s.1.node_list.get_distance i + 1) with
    | Except.error e => Except.error e
    | Except.ok nl =>
      Except.ok ({ s.1 with node_list := nl },
        s.2 ++ [s.1.node_list.add_event j i (s.1.node_list.get_distance i + 1)])
  else Except.ok s

/-- Method `Board::add_neighbours_to_open_set`, with the log. -/
def Board.add_neighbours_log (s : Board × List Event) (i : Nat) :
    Except Err (Board × List Event) :=
  for_loop (s.1.board_size * s.1.board_size) (Board.add_neighbour_log i) s

/-- Method `Board::find_path_to`, with a log of the nodes taken from the open set and
of the calls of `add_node_to_open_set`. -/
def Board.find_path_to_log : Nat → Board × List Event → Nat → Except Err (Board × List Event)
  | 0, _, _ => Except.error Err.fuel
  | fuel + 1, s, final_node =>
    if s.1.node_list.open_set_size = 0 then Except.ok s
    else
      match s.1.node_list.get_min_from_open_set with
      | Except.error e => Except.error e
      | Except.ok (next_node, nl) =>
        let index := (nl.nth next_node).node_index
        match Board.add_neighbours_log
            ({ s.1 with node_list := nl }, s.2 ++ [Event.extract index]) index with
        | Except.error e => Except.error e
        | Except.ok s2 =>
          if index = final_node then Except.ok s2 else Board.find_path_to_log fuel s2 final_node

/-- Method `Board::find_all_paths_from`, with the log of the pass. -/
def Board.find_all_paths_from_log (fuel : Nat) (b : Board) (initial : Nat) :
    Except Err (Board × List Event) :=
  let b1 : Board := { b with node_list := b.node_list.reset_node_list }
  let b2 : Board := { b1 with node_list := b1.node_list.init_open_set initial }
  for_loop (b2.board_size * b2.board_size)
    (fun i s =>
      if s.1.node_list.set_type i ≠ set_t.CLOSED then Board.find_path_to_log fuel s i
      else Except.ok s)
    (b2, [])

/-- The nodes taken from the open set, in order. -/
def extracted : List Event → List Nat
  | [] => []
  | Event.extract m :: rest => m :: extracted rest
  | _ :: rest => extracted rest

/-- The nodes put into the open set by `add_node_to_open_set`, in order. -/
def inserted : List Event → List Nat
  | [] => []
  | Event.insert j _ _ :: rest => j :: inserted rest
  | _ :: rest => inserted rest

/-- A walk of `n` steps of the search leads from `start` to the node. -/
inductive Board.walk (b : Board) (start : Nat) : Nat → Nat → Prop
  | zero : Board.walk b start start 0
  | succ {x y n : Nat} : Board.walk b start x n → b.step x y → Board.walk b start y (n + 1)

/-- Distance invariant of a pass from `start` on the board `b0`, the last node taken
from the open set having the distance `D`: the distance of a tagged node is the length of
a shortest walk to it, and every node within less than `D` steps is closed. -/
structure DInv (b0 : Board) (start : Nat) (D : Int) (nl : NodeList) : Prop where
  walk : ∀ j, j < b0.board_size * b0.board_size → nl.set_type j ≠ set_t.NONE →
    ∃ n : Nat, (nl.nth j).distance = (n : Int) ∧ b0.walk start j n
  least : ∀ j, j < b0.board_size * b0.board_size → nl.set_type j ≠ set_t.NONE →
    ∀ n : Nat, b0.walk start j n → (nl.nth j).distance ≤ (n : Int)
  near : ∀ x (n : Nat), b0.walk start x n → (n : Int) < D → nl.set_type x = set_t.CLOSED

/-- Invariant of the log of a pass that began with the node list `ref`: the extracted
nodes are the closed nodes, each once; each inserted node was inserted once and still
has the distance and predecessor of its insertion, and every tagged node but the start
was inserted; a node that was not inserted has the predecessor it had in `ref`; the
distance offered to a node of the frontier is never smaller than the recorded one. -/
structure LInv (k start : Nat) (ref nl : NodeList) (log : List Event) : Prop where
  ext_nodup : (extracted log).Nodup
  ext_mem : ∀ m, m ∈ extracted log ↔ (m < k ∧ nl.set_type m = set_t.CLOSED)
  ins_nodup : (inserted log).Nodup
  ins_mem : ∀ j, j ∈ inserted log → nl.set_type j ≠ set_t.NONE
  ins : ∀ j i d, Event.insert j i d ∈ log →
    j < k ∧ (nl.nth j).distance = d ∧ (nl.nth j).previous_node = (i : Int)
  rev : ∀ j i d r, Event.revisit j i d r ∈ log → r ≤ d
  ins_all : ∀ j, j < k → nl.set_type j ≠ set_t.NONE → j = start ∨ j ∈ inserted log
  ins_start : start ∉ inserted log
  keep : ∀ x, x < k → x ∉ inserted log →
    (nl.nth x).previous_node = (ref.nth x).previous_node

/-- Invariant of the logged pass between two extractions from the open set. -/
structure QInv (b0 : Board) (start : Nat) (s : Board × List Event) : Prop where
  pinv : PInv b0 start s.1
  dist : ∃ D, SInv (b0.board_size * b0.board_size) D s.1.node_list
    ∧ DInv b0 start D s.1.node_list
  log : LInv (b0.board_size * b0.board_size) start b0.node_list s.1.node_list s.2

/-- A path of `len` edges leads from `start` to the node through lattice-adjacent cells
that are all owned by the colour `c`. -/
inductive colour_path (n : Nat) (owner : Nat → cell) (c : cell) (start : Nat) :
    Nat → Nat → Prop
  | start : owner start = c → colour_path n owner c start start 0
  | step {x y len : Nat} : colour_path n owner c start x len → lattice_adjacent n x y →
      owner y = c → colour_path n owner c start y (len + 1)

/-- What is seen of the open set during a pass: the state of the node list after a call
of one of its methods, or the state and the node at a call of `open_set_insert`, where
the two assertions are made. -/
inductive Obs where
  | state (nl : NodeList)
  | insert_call (nl : NodeList) (j : Nat)
  deriving DecidableEq

/-- The calls of `open_set_insert` that `add_node_to_open_set(j, i, new_dist)` makes in
the state `nl`, each with the state in which it is made. -/
def NodeList.insert_calls (nl : NodeList) (j i : Nat) (new_dist : Int) : List Obs :=
  if nl.set_type j ≠ set_t.OPEN then
    let s1 := nl.put j { nl.nth j with set_type := set_t.OPEN }
    let s2 := s1.put j ((s1.nth j).set_distance new_dist i)
    [Obs.insert_call s2 j]
  else if new_dist < (nl.nth j).distance then
    match nl.open_set_delete j with
    | Except.error _ => []
    | Except.ok s1 =>
      let s2 := s1.put j ((s1.nth j).set_distance new_dist i)
      [Obs.insert_call s2 j]
  else []

/-- Body of the loop of `add_neighbours_to_open_set`, as `Board.add_neighbour`, with the
record of the calls of `open_set_insert` and of the state after `add_node_to_open_set`. -/
def Board.add_neighbour_obs (i j : Nat) (s : Board × List Obs) :
    Except Err (Board × List Obs) :=
  let col1 := i % s.1.board_size
  let row1 := i / s.1.board_size
  let col2 := j % s.1.board_size
  let row2 := j / s.1.board_size
  if s.1.graph.edge_between_cells row1 col1 row2 col2 = true
      ∧ s.1.node_list.set_type j ≠ set_t.CLOSED
      ∧ s.1.cell_at row2 col2 = s.1.current_player.color then
    match s.1.node_list.add_node_to_open_set j i (s.1.node_list.get_distance i + 1) with
    | Except.error e => Except.error e
    | Except.ok nl =>
      Except.ok ({ s.1 with node_list := nl },
        s.2 ++ s.1.node_list.insert_calls j i (s.1.node_list.get_distance i + 1)
          ++ [Obs.state nl])
  else Except.ok s

/-- Method `Board::add_neighbours_to_open_set`, with the record. -/
def Board.add_neighbours_obs (s : Board × List Obs) (i : Nat) :
    Except Err (Board × List Obs) :=
  for_loop (s.1.board_size * s.1.board_size) (Board.add_neighbour_obs i) s

/-- Method `Board::find_path_to`, with the record of the state after
`get_min_from_open_set` and of what `add_neighbours_to_open_set` does. -/
def Board.find_path_to_obs : Nat → Board × List Obs → Nat → Except Err (Board × List Obs)
  | 0, _, _ => Except.error Err.fuel
  | fuel + 1, s, final_node =>
    if s.1.node_list.open_set_size = 0 then Except.ok s
    else
      match s.1.node_list.get_min_from_open_set with
      | Except.error e => Except.error e
      | Except.ok (next_node, nl) =>
        let index := (nl.nth next_node).node_index
        match Board.add_neighbours_obs
            ({ s.1 with node_list := nl }, s.2 ++ [Obs.state nl]) index with
        | Except.error e => Except.error e
        | Except.ok s2 =>
          if index = final_node then Except.ok s2 else Board.find_path_to_obs fuel s2 final_node

/-- Method `Board::find_all_paths_from`, with the record of the pass; it starts with the
state after `init_open_set`. -/
def Board.find_all_paths_from_obs (fuel : Nat) (b : Board) (initial : Nat) :
    Except Err (Board × List Obs) :=
  let b1 : Board := { b with node_list := b.node_list.reset_node_list }
  let b2 : Board := { b1 with node_list := b1.node_list.init_open_set initial }
  for_loop (b2.board_size * b2.board_size)
    (fun i s =>
      if s.1.node_list.set_type i ≠ set_t.CLOSED then Board.find_path_to_obs fuel s i
      else Except.ok s)
    (b2, [Obs.state b2.node_list])

/-- The open set of `nl` holds exactly the nodes that are tagged `OPEN`, each once, and
they are nodes of the list of `k` nodes. -/
def NodeList.open_set_exact (k : Nat) (nl : NodeList) : Prop :=
  (∀ j, j ∈ nl.open_set ↔ nl.set_type j = set_t.OPEN)
    ∧ (∀ j, j ∈ nl.open_set → j < k)
    ∧ nl.open_set.Nodup

/-- What C21 says of an observation of a pass on `k` nodes: a state has the open set
exact; at a call of `open_set_insert` the two assertions hold, the node is tagged `OPEN`
and `std::set::insert` reports an insertion. -/
def Obs.holds (k : Nat) : Obs → Prop
  | Obs.state nl => nl.open_set_exact k
  | Obs.insert_call nl j =>
    nl.set_type j = set_t.OPEN ∧ (set_insert nl.compare_ptr j nl.open_set).2 = true

/-- Invariant of the recorded pass between two extractions: the invariant of the pass,
every observation made so far holds, and the current state is among them. -/
structure OInv (b0 : Board) (start : Nat) (s : Board × List Obs) : Prop where
  pinv : PInv b0 start s.1
  all : ∀ o, o ∈ s.2 → o.holds (b0.board_size * b0.board_size)
  cur : Obs.state s.1.node_list ∈ s.2

/-- The 3 by 3 board on which `BLUE`, whose turn it is, owns the cells `(0,0)`, `(0,1)`
and `(1,0)`, which are neighbours of one another. -/
def corner_board : Board :=
  ((Board.new 3 (fun _ => -1) player_two).turn_of player_one).place cell.BLUE
    [(0, 0), (0, 1), (1, 0)]

/-- The logged pass from node 1 on `row_board`, run after a pass from node 2: the final
board and the log, when both passes return. -/
def second_pass_log : Option (Board × List Event) :=
  match row_board.find_all_paths_from 10 2 with
  | Except.error _ => none
  | Except.ok b =>
    match b.find_all_paths_from_log 10 1 with
    | Except.error _ => none
    | Except.ok s => some s

theorem getD_set_eq {α : Type} (l : List α) (a x : Nat) (v d : α) :
    (l.set a v).getD x d = if x = a ∧ a < l.length then v else l.getD x d := by
  simp only [List.getD_eq_getElem?_getD, List.getElem?_set]
  by_cases h : a = x
  · subst h
    by_cases h2 : a < l.length
    · simp [h2]
    · rw [List.getElem?_eq_none (Nat.le_of_not_lt h2)]
      simp [h2]
  · have : ¬ x = a := fun e => h e.symm
    simp [h, this]

theorem foldl_range_inv {σ : Type} (f : σ → Nat → σ) (I : Nat → σ → Prop) (n : Nat) (s : σ)
    (h0 : I 0 s) (hs : ∀ k t, k < n → I k t → I (k + 1) (f t k)) :
    I n ((List.range n).foldl f s) := by
  induction n with
  | zero => simpa using h0
  | succ m ih =>
    rw [List.range_succ, List.foldl_append]
    simp only [List.foldl_cons, List.foldl_nil]
    exact hs m _ (Nat.lt_succ_self m) (ih (fun k t hk => hs k t (Nat.lt_succ_of_lt hk)))

theorem idx_lt {n r c : Nat} (hr : r < n) (hc : c < n) : r * n + c < n * n := by
  have h1 : (r + 1) * n ≤ n * n := Nat.mul_le_mul_right n hr
  have h2 : (r + 1) * n = r * n + n := by ring
  omega

theorem pair_inj {n r c r' c' : Nat} (hc : c < n) (hc' : c' < n)
    (h : r * n + c = r' * n + c') : r = r' ∧ c = c' := by
  have hn : 0 < n := by omega
  have e1 : (r * n + c) / n = r := by
    rw [Nat.add_comm, Nat.add_mul_div_right _ _ hn, Nat.div_eq_of_lt hc, Nat.zero_add]
  have e2 : (r' * n + c') / n = r' := by
    rw [Nat.add_comm, Nat.add_mul_div_right _ _ hn, Nat.div_eq_of_lt hc', Nat.zero_add]
  have hr : r = r' := by rw [← e1, ← e2, h]
  subst hr
  exact ⟨rfl, by omega⟩

theorem Graph.assign_square {g : Graph} {k : Nat} (hg : g.square k) (a b : Nat) (w : Bool) :
    (g.assign a b w).square k := by
  refine ⟨by simp [Graph.assign, hg.1], fun x hx => ?_⟩
  simp only [Graph.assign, getD_set_eq]
  split
  · rename_i h
    rw [List.length_set, ← h.1]
    exact hg.2 x hx
  · exact hg.2 x hx

theorem Graph.assign_edge {g : Graph} {k : Nat} (hg : g.square k) {a b : Nat} (ha : a < k)
    (hb : b < k) (w : Bool) (x y : Nat) :
    (g.assign a b w).edge_between_nodes x y
      = if x = a ∧ y = b then w else g.edge_between_nodes x y := by
  simp only [Graph.edge_between_nodes, Graph.assign, getD_set_eq]
  by_cases hx : x = a
  · subst hx
    have hl : (g.graph.getD x []).length = k := hg.2 x ha
    rw [if_pos ⟨rfl, by rw [hg.1]; exact ha⟩, getD_set_eq, hl]
    simp only [true_and, hb, and_true]
  · rw [if_neg (fun h => hx h.1), if_neg (fun h => hx h.1)]

theorem Graph.set_edge_square {g : Graph} {k : Nat} (hg : g.square k) (a b : Nat) (w : Bool) :
    (g.set_edge a b w).square k :=
  Graph.assign_square (Graph.assign_square hg b a w) a b w

theorem Graph.set_edge_edge {g : Graph} {k : Nat} (hg : g.square k) {a b : Nat} (ha : a < k)
    (hb : b < k) (x y : Nat) :
    (g.set_edge a b true).edge_between_nodes x y = true
      ↔ (g.edge_between_nodes x y = true ∨ (x = a ∧ y = b) ∨ (x = b ∧ y = a)) := by
  unfold Graph.set_edge
  rw [Graph.assign_edge (Graph.assign_square hg b a true) ha hb, Graph.assign_edge hg hb ha]
  by_cases h1 : x = a ∧ y = b
  · simp [h1]
  · by_cases h2 : x = b ∧ y = a
    · simp [h1, h2]
    · simp [h1, h2]

theorem GenInv.congr {n : Nat} {E E' : Nat → Nat → Prop} {h : HexGraph}
    (hi : GenInv n E h) (he : ∀ x y, E x y ↔ E' x y) : GenInv n E' h :=
  ⟨hi.cols, hi.rows, hi.nodes, hi.sq, hi.nb, fun x y => (hi.edge x y).trans (he x y)⟩

theorem GenInv.init_graph (n : Nat) : GenInv n (fun _ _ => False) (HexGraph.new n n) := by
  refine ⟨rfl, rfl, rfl, ⟨by simp [HexGraph.new, Graph.new], fun x hx => ?_⟩, rfl, fun x y => ?_⟩
  · simp [HexGraph.new, Graph.new, List.getD_eq_getElem?_getD, List.getElem?_replicate, hx]
  · simp only [HexGraph.new, Graph.new, Graph.edge_between_nodes, iff_false]
    simp only [List.getD_eq_getElem?_getD, List.getElem?_replicate]
    by_cases hx : x < n * n
    · by_cases hy : y < n * n
      · simp [hx, hy]
      · simp [hx, hy]
    · simp [hx]

theorem GenInv.set_edge_hex {n : Nat} {E : Nat → Nat → Prop} {h : HexGraph}
    (hi : GenInv n E h) {r1 c1 r2 c2 : Nat} (h1 : r1 * n + c1 < n * n)
    (h2 : r2 * n + c2 < n * n) :
    GenInv n
      (fun x y => E x y ∨ (x = r1 * n + c1 ∧ y = r2 * n + c2)
        ∨ (x = r2 * n + c2 ∧ y = r1 * n + c1))
      (h.set_edge_hex r1 c1 r2 c2) := by
  refine ⟨hi.cols, hi.rows, hi.nodes, ?_, hi.nb, fun x y => ?_⟩
  · exact Graph.set_edge_square hi.sq _ _ _
  · simp only [HexGraph.set_edge_hex, hi.cols]
    rw [Graph.set_edge_edge hi.sq h1 h2, hi.edge]

theorem GenInv.cond_set {n : Nat} {E : Nat → Nat → Prop} {h : HexGraph}
    (hi : GenInv n E h) (P : Prop) [Decidable P] (r1 c1 r2 c2 : Nat)
    (h1 : P → r1 * n + c1 < n * n) (h2 : P → r2 * n + c2 < n * n) :
    GenInv n
      (fun x y => E x y ∨ (P ∧ ((x = r1 * n + c1 ∧ y = r2 * n + c2)
        ∨ (x = r2 * n + c2 ∧ y = r1 * n + c1))))
      (if P then h.set_edge_hex r1 c1 r2 c2 else h) := by
  by_cases hp : P
  · rw [if_pos hp]
    exact (hi.set_edge_hex (h1 hp) (h2 hp)).congr (fun x y => by simp [hp])
  · rw [if_neg hp]
    exact hi.congr (fun x y => by simp [hp])

theorem HexGraph.gen_cell_eq (h : HexGraph) (row col : Nat) :
    h.gen_cell row col =
      (if col ≠ 0 ∧ row ≠ h.num_rows - 1 then
        HexGraph.set_edge_hex
          (if row ≠ h.num_rows - 1 then
            HexGraph.set_edge_hex
              (if col ≠ h.num_cols - 1 then h.set_edge_hex row col row (col + 1) else h)
              row col (row + 1) col
          else (if col ≠ h.num_cols - 1 then h.set_edge_hex row col row (col + 1) else h))
          row col (row + 1) (col - 1)
      else
        (if row ≠ h.num_rows - 1 then
            HexGraph.set_edge_hex
              (if col ≠ h.num_cols - 1 then h.set_edge_hex row col row (col + 1) else h)
              row col (row + 1) col
          else (if col ≠ h.num_cols - 1 then h.set_edge_hex row col row (col + 1) else h))) := by
  have e1 : (if col ≠ h.num_cols - 1 then h.set_edge_hex row col row (col + 1) else h).num_rows
      = h.num_rows := by
    split <;> rfl
  have e2 : (if row ≠ h.num_rows - 1 then
            HexGraph.set_edge_hex
              (if col ≠ h.num_cols - 1 then h.set_edge_hex row col row (col + 1) else h)
              row col (row + 1) col
          else (if col ≠ h.num_cols - 1 then h.set_edge_hex row col row (col + 1)
            else h)).num_rows = h.num_rows := by
    split
    · exact e1
    · exact e1
  unfold HexGraph.gen_cell
  simp only [e1, e2]

theorem GenInv.gen_cell {n : Nat} {E : Nat → Nat → Prop} {h : HexGraph}
    (hi : GenInv n E h) {r c : Nat} (hr : r < n) (hc : c < n) :
    GenInv n (fun x y => E x y ∨ cell_edge n r c x y) (h.gen_cell r c) := by
  have hrc : r * n + c < n * n := idx_lt hr hc
  have i1 := hi.cond_set (c ≠ n - 1) r c r (c + 1)
    (fun _ => hrc) (fun hp => idx_lt hr (by omega))
  have i2 := i1.cond_set (r ≠ n - 1) r c (r + 1) c
    (fun _ => hrc) (fun hp => idx_lt (by omega) hc)
  have i3 := i2.cond_set (c ≠ 0 ∧ r ≠ n - 1) r c (r + 1) (c - 1)
    (fun _ => hrc) (fun hp => idx_lt (by omega) (by omega))
  rw [HexGraph.gen_cell_eq, hi.cols, hi.rows]
  refine i3.congr (fun x y => ?_)
  unfold cell_edge
  simp only [or_assoc]

theorem GenInv.gen_edges (n : Nat) :
    GenInv n (fun x y => ∃ r, r < n ∧ ∃ c, c < n ∧ cell_edge n r c x y)
      (HexGraph.new n n).gen_edges := by
  unfold HexGraph.gen_edges
  have key := foldl_range_inv
    (fun h1 row => (List.range h1.num_cols).foldl (fun h2 col => HexGraph.gen_cell h2 row col) h1)
    (fun R h => GenInv n (fun x y => ∃ r, r < R ∧ ∃ c, c < n ∧ cell_edge n r c x y) h)
    n (HexGraph.new n n) ((GenInv.init_graph n).congr (fun x y => by simp)) ?_
  · exact key
  · intro R t hR hI
    simp only [hI.cols]
    have inner := foldl_range_inv (fun h2 col => HexGraph.gen_cell h2 R col)
      (fun C h => GenInv n (fun x y => (∃ r, r < R ∧ ∃ c, c < n ∧ cell_edge n r c x y)
        ∨ ∃ c, c < C ∧ cell_edge n R c x y) h)
      n t (hI.congr (fun x y => by simp)) ?_
    · refine inner.congr (fun x y => ?_)
      constructor
      · rintro (⟨r, hr, c, hc, he⟩ | ⟨c, hc, he⟩)
        · exact ⟨r, by omega, c, hc, he⟩
        · exact ⟨R, by omega, c, hc, he⟩
      · rintro ⟨r, hr, c, hc, he⟩
        by_cases h : r = R
        · subst h
          exact Or.inr ⟨c, hc, he⟩
        · exact Or.inl ⟨r, by omega, c, hc, he⟩
    · intro C u hC hJ
      refine (hJ.gen_cell hR hC).congr (fun x y => ?_)
      constructor
      · rintro ((h | ⟨c, hc, he⟩) | he)
        · exact Or.inl h
        · exact Or.inr ⟨c, by omega, he⟩
        · exact Or.inr ⟨C, by omega, he⟩
      · rintro (h | ⟨c, hc, he⟩)
        · exact Or.inl (Or.inl h)
        · by_cases h : c = C
          · subst h
            exact Or.inr he
          · exact Or.inl (Or.inr ⟨c, by omega, he⟩)

theorem CollapseInv.column_step {g0 g : Graph} {k R C : Nat} (hi : CollapseInv g0 k R C g)
    (hR : R < k) :
    CollapseInv g0 k R (C + 1)
      (if g.edge_between_nodes R C then g.push_neighbour R C else g) := by
  have he : g.edge_between_nodes R C = g0.edge_between_nodes R C := by
    simp only [Graph.edge_between_nodes, hi.graph]
  by_cases hp : g0.edge_between_nodes R C = true
  · rw [he, if_pos hp]
    refine ⟨hi.graph, hi.nodes, by simp [Graph.push_neighbour, hi.len], fun a ha => ?_⟩
    simp only [Graph.push_neighbour, getD_set_eq, hi.len]
    by_cases haR : a = R
    · subst haR
      rw [if_pos ⟨rfl, ha⟩, hi.nb a ha]
      simp [List.range_succ, List.filter_append, hp]
    · rw [if_neg (fun h => haR h.1), hi.nb a ha]
      simp [haR]
  · rw [he, if_neg hp]
    refine ⟨hi.graph, hi.nodes, hi.len, fun a ha => ?_⟩
    rw [hi.nb a ha]
    by_cases haR : a = R
    · subst haR
      simp [List.range_succ, List.filter_append, hp]
    · simp [haR]

theorem CollapseInv.collapse (g0 : Graph) (k : Nat) (hk : g0.num_nodes = k)
    (hn : g0.neighbours = List.replicate k []) :
    CollapseInv g0 k k 0 g0.collapse_matrix := by
  unfold Graph.collapse_matrix
  rw [hk]
  refine foldl_range_inv _ (fun R g => CollapseInv g0 k R 0 g) k g0 ?_ ?_
  · refine ⟨rfl, hk, by simp [hn], fun a ha => ?_⟩
    simp [hn, List.getD_eq_getElem?_getD, List.getElem?_replicate, ha]
  · intro R t hR hI
    simp only [hI.nodes]
    have inner := foldl_range_inv
      (fun g2 mcol => if g2.edge_between_nodes R mcol then g2.push_neighbour R mcol else g2)
      (fun C g => CollapseInv g0 k R C g) k t hI (fun C u _ hJ => hJ.column_step hR)
    refine ⟨inner.graph, inner.nodes, inner.len, fun a ha => ?_⟩
    rw [inner.nb a ha]
    by_cases h1 : a < R
    · simp [h1, Nat.lt_succ_of_lt h1]
    · by_cases h2 : a = R
      · simp [h2]
      · have h3 : ¬ a < R + 1 := by omega
        simp only [h1, h2, h3, if_false]
        split <;> simp

theorem Lattice.gen (n : Nat) : Lattice n (HexGraph.new n n).gen := by
  have hg := GenInv.gen_edges n
  have hc := CollapseInv.collapse (HexGraph.new n n).gen_edges.base (n * n) hg.nodes hg.nb
  have he : ∀ x y, (HexGraph.new n n).gen.base.edge_between_nodes x y
      = (HexGraph.new n n).gen_edges.base.edge_between_nodes x y := by
    intro x y
    simp only [HexGraph.gen, Graph.edge_between_nodes, hc.graph]
  refine ⟨hg.cols, hg.rows, hc.nodes, ?_, fun x y => ?_, fun a ha => ?_⟩
  · have hs := hg.sq
    unfold Graph.square at hs ⊢
    simp only [HexGraph.gen, hc.graph]
    exact hs
  · rw [he, hg.edge]
  · have := hc.nb a ha
    simp only [HexGraph.gen]
    rw [this, if_pos ha]
    congr 1
    funext b
    exact (he a b).symm

theorem cell_edge_iff_offset {n r1 c1 r2 c2 : Nat} (hr1 : r1 < n) (hc1 : c1 < n)
    (hr2 : r2 < n) (hc2 : c2 < n) :
    (∃ r, r < n ∧ ∃ c, c < n ∧ cell_edge n r c (r1 * n + c1) (r2 * n + c2))
      ↔ hex_offset ((r2 : Int) - r1) ((c2 : Int) - c1) := by
  constructor
  · rintro ⟨r, hr, c, hc, he⟩
    unfold hex_offset
    rcases he with ⟨hne, ⟨e1, e2⟩ | ⟨e1, e2⟩⟩ | ⟨hne, ⟨e1, e2⟩ | ⟨e1, e2⟩⟩
      | ⟨⟨hne0, hne⟩, ⟨e1, e2⟩ | ⟨e1, e2⟩⟩
    · have a1 := pair_inj hc1 hc e1
      have a2 := pair_inj hc2 (by omega) e2
      omega
    · have a1 := pair_inj hc1 (by omega) e1
      have a2 := pair_inj hc2 hc e2
      omega
    · have a1 := pair_inj hc1 hc e1
      have a2 := pair_inj hc2 hc e2
      omega
    · have a1 := pair_inj hc1 hc e1
      have a2 := pair_inj hc2 hc e2
      omega
    · have a1 := pair_inj hc1 hc e1
      have a2 := pair_inj hc2 (by omega) e2
      omega
    · have a1 := pair_inj hc1 (by omega) e1
      have a2 := pair_inj hc2 hc e2
      omega
  · unfold hex_offset cell_edge
    rintro (⟨e1, e2⟩ | ⟨e1, e2⟩ | ⟨e1, e2⟩ | ⟨e1, e2⟩ | ⟨e1, e2⟩ | ⟨e1, e2⟩)
    · have hr : r2 = r1 := by omega
      have hc : c2 = c1 + 1 := by omega
      subst hr hc
      exact ⟨r2, hr1, c1, hc1, Or.inl ⟨by omega, Or.inl ⟨rfl, rfl⟩⟩⟩
    · have hr : r2 = r1 := by omega
      have hc : c1 = c2 + 1 := by omega
      subst hr hc
      exact ⟨r2, hr1, c2, hc2, Or.inl ⟨by omega, Or.inr ⟨rfl, rfl⟩⟩⟩
    · have hr : r2 = r1 + 1 := by omega
      have hc : c2 = c1 := by omega
      subst hr hc
      exact ⟨r1, hr1, c2, hc1, Or.inr (Or.inl ⟨by omega, Or.inl ⟨rfl, rfl⟩⟩)⟩
    · have hr : r1 = r2 + 1 := by omega
      have hc : c2 = c1 := by omega
      subst hr hc
      exact ⟨r2, hr2, c2, hc1, Or.inr (Or.inl ⟨by omega, Or.inr ⟨rfl, rfl⟩⟩)⟩
    · have hr : r2 = r1 + 1 := by omega
      have hc : c2 = c1 - 1 := by omega
      have hc0 : c1 ≠ 0 := by omega
      subst hr hc
      exact ⟨r1, hr1, c1, hc1, Or.inr (Or.inr ⟨⟨hc0, by omega⟩, Or.inl ⟨rfl, rfl⟩⟩)⟩
    · have hr : r1 = r2 + 1 := by omega
      have hc : c1 = c2 - 1 := by omega
      have hc0 : c2 ≠ 0 := by omega
      subst hr hc
      exact ⟨r2, hr2, c2, hc2, Or.inr (Or.inr ⟨⟨hc0, by omega⟩, Or.inr ⟨rfl, rfl⟩⟩)⟩

theorem Lattice.edge_cells {n : Nat} {h : HexGraph} (hl : Lattice n h) {r1 c1 r2 c2 : Nat}
    (hr1 : r1 < n) (hc1 : c1 < n) (hr2 : r2 < n) (hc2 : c2 < n) :
    h.edge_between_cells r1 c1 r2 c2 = true ↔ hex_offset ((r2 : Int) - r1) ((c2 : Int) - c1) := by
  unfold HexGraph.edge_between_cells
  rw [hl.cols, hl.edge]
  exact cell_edge_iff_offset hr1 hc1 hr2 hc2

theorem cell_edge_symm {n r c x y : Nat} (h : cell_edge n r c x y) : cell_edge n r c y x := by
  unfold cell_edge at *
  rcases h with ⟨hne, ⟨e1, e2⟩ | ⟨e1, e2⟩⟩ | ⟨hne, ⟨e1, e2⟩ | ⟨e1, e2⟩⟩
    | ⟨hne, ⟨e1, e2⟩ | ⟨e1, e2⟩⟩
  · exact Or.inl ⟨hne, Or.inr ⟨e2, e1⟩⟩
  · exact Or.inl ⟨hne, Or.inl ⟨e2, e1⟩⟩
  · exact Or.inr (Or.inl ⟨hne, Or.inr ⟨e2, e1⟩⟩)
  · exact Or.inr (Or.inl ⟨hne, Or.inl ⟨e2, e1⟩⟩)
  · exact Or.inr (Or.inr ⟨hne, Or.inr ⟨e2, e1⟩⟩)
  · exact Or.inr (Or.inr ⟨hne, Or.inl ⟨e2, e1⟩⟩)

theorem Lattice.edge_symm {n : Nat} {h : HexGraph} (hl : Lattice n h) (x y : Nat) :
    h.base.edge_between_nodes x y = h.base.edge_between_nodes y x := by
  have key : ∀ u v, h.base.edge_between_nodes u v = true → h.base.edge_between_nodes v u = true := by
    intro u v huv
    obtain ⟨r, hr, c, hc, he⟩ := (hl.edge u v).1 huv
    exact (hl.edge v u).2 ⟨r, hr, c, hc, cell_edge_symm he⟩
  cases hxy : h.base.edge_between_nodes x y
  · cases hyx : h.base.edge_between_nodes y x
    · rfl
    · rw [key y x hyx] at hxy
      exact absurd hxy (by decide)
  · exact (key x y hxy).symm

theorem cell_edge_lt {n r c x y : Nat} (hr : r < n) (hc : c < n) (h : cell_edge n r c x y) :
    x < n * n ∧ y < n * n := by
  unfold cell_edge at h
  rcases h with ⟨hne, ⟨e1, e2⟩ | ⟨e1, e2⟩⟩ | ⟨hne, ⟨e1, e2⟩ | ⟨e1, e2⟩⟩
    | ⟨⟨hne0, hne⟩, ⟨e1, e2⟩ | ⟨e1, e2⟩⟩
  all_goals subst e1 e2
  · exact ⟨idx_lt hr hc, idx_lt hr (by omega)⟩
  · exact ⟨idx_lt hr (by omega), idx_lt hr hc⟩
  · exact ⟨idx_lt hr hc, idx_lt (by omega) hc⟩
  · exact ⟨idx_lt (by omega) hc, idx_lt hr hc⟩
  · exact ⟨idx_lt hr hc, idx_lt (by omega) (by omega)⟩
  · exact ⟨idx_lt (by omega) (by omega), idx_lt hr hc⟩

theorem cell_edge_candidate {n r c x y : Nat} (h : cell_edge n r c x y) :
    y ∈ neighbour_candidates n x := by
  have e : (r + 1) * n = r * n + n := by ring
  unfold cell_edge at h
  unfold neighbour_candidates
  simp only [List.mem_cons, List.mem_singleton, List.not_mem_nil, or_false]
  rcases h with ⟨hne, ⟨e1, e2⟩ | ⟨e1, e2⟩⟩ | ⟨hne, ⟨e1, e2⟩ | ⟨e1, e2⟩⟩
    | ⟨⟨hne0, hne⟩, ⟨e1, e2⟩ | ⟨e1, e2⟩⟩
  all_goals rw [e] at *
  all_goals omega

theorem count_true_eq (l : List Bool) :
    l.count true = ((List.range l.length).filter (fun i => l.getD i false)).length := by
  induction l using List.reverseRecOn with
  | nil => simp
  | append_singleton l x ih =>
    rw [List.count_append, List.length_append, List.length_singleton, List.range_succ,
      List.filter_append, List.length_append, ih]
    have e1 : (List.range l.length).filter (fun i => (l ++ [x]).getD i false)
        = (List.range l.length).filter (fun i => l.getD i false) := by
      apply List.filter_congr
      intro i hi
      rw [List.mem_range] at hi
      simp [List.getD_eq_getElem?_getD, List.getElem?_append_left hi]
    rw [e1]
    cases x <;> simp [List.getD_eq_getElem?_getD]

theorem Lattice.degree {n : Nat} {h : HexGraph} (hl : Lattice n h) (a : Nat) :
    ((List.range (n * n)).filter (fun b => h.base.edge_between_nodes a b)).length ≤ 6 := by
  have hnd : ((List.range (n * n)).filter (fun b => h.base.edge_between_nodes a b)).Nodup :=
    (List.nodup_range _).filter _
  have hsub : (List.range (n * n)).filter (fun b => h.base.edge_between_nodes a b)
      ⊆ neighbour_candidates n a := by
    intro b hb
    rw [List.mem_filter] at hb
    obtain ⟨r, _, c, _, he⟩ := (hl.edge a b).1 hb.2
    exact cell_edge_candidate he
  exact (List.subperm_of_subset hnd hsub).length_le

theorem Node.lt_trans {a b c : Node} (h1 : Node.lt a b = true) (h2 : Node.lt b c = true) :
    Node.lt a c = true := by
  unfold Node.lt at *
  split at h1 <;> split at h2 <;> split <;> simp only [decide_eq_true_eq] at * <;> omega

theorem Node.lt_irrefl (a : Node) : Node.lt a a = false := by
  simp [Node.lt]

theorem Node.lt_total {a b : Node} (h : a.node_index ≠ b.node_index) :
    Node.lt a b = true ∨ Node.lt b a = true := by
  unfold Node.lt
  by_cases hd : a.distance = b.distance
  · rw [if_pos hd, if_pos hd.symm]
    simp only [decide_eq_true_eq]
    omega
  · rw [if_neg hd, if_neg (fun e => hd e.symm)]
    simp only [decide_eq_true_eq]
    omega

theorem Node.lt_distance_le {a b : Node} (h : Node.lt a b = true) : a.distance ≤ b.distance := by
  unfold Node.lt at h
  split at h
  · omega
  · simp only [decide_eq_true_eq] at h
    omega

theorem set_insert_snd {lt : Nat → Nat → Bool} {p : Nat} {l : List Nat}
    (h : ∀ q, q ∈ l → lt q p = true ∨ lt p q = true) : (set_insert lt p l).2 = true := by
  induction l with
  | nil => rfl
  | cons q rest ih =>
    unfold set_insert
    by_cases h1 : lt q p = true
    · rw [if_pos h1]
      exact ih (fun x hx => h x (List.mem_cons_of_mem _ hx))
    · rw [if_neg h1]
      have h2 : lt p q = true := (h q (List.mem_cons_self _ _)).resolve_left h1
      rw [if_pos h2]

theorem set_insert_mem {lt : Nat → Nat → Bool} {p : Nat} {l : List Nat}
    (h : ∀ q, q ∈ l → lt q p = true ∨ lt p q = true) (x : Nat) :
    x ∈ (set_insert lt p l).1 ↔ x = p ∨ x ∈ l := by
  induction l with
  | nil => simp [set_insert]
  | cons q rest ih =>
    unfold set_insert
    by_cases h1 : lt q p = true
    · rw [if_pos h1]
      simp only [List.mem_cons]
      rw [ih (fun x hx => h x (List.mem_cons_of_mem _ hx))]
      tauto
    · rw [if_neg h1]
      have h2 : lt p q = true := (h q (List.mem_cons_self _ _)).resolve_left h1
      rw [if_pos h2]
      simp only [List.mem_cons]

theorem set_insert_sorted {lt : Nat → Nat → Bool} {p : Nat} {l : List Nat}
    (htrans : ∀ a b c, lt a b = true → lt b c = true → lt a c = true)
    (h : ∀ q, q ∈ l → lt q p = true ∨ lt p q = true)
    (hs : l.Pairwise (fun a b => lt a b = true)) :
    (set_insert lt p l).1.Pairwise (fun a b => lt a b = true) := by
  induction l with
  | nil => simp [set_insert]
  | cons q rest ih =>
    have hrest : ∀ x, x ∈ rest → lt x p = true ∨ lt p x = true :=
      fun x hx => h x (List.mem_cons_of_mem _ hx)
    rw [List.pairwise_cons] at hs
    unfold set_insert
    by_cases h1 : lt q p = true
    · rw [if_pos h1]
      simp only
      rw [List.pairwise_cons]
      refine ⟨fun x hx => ?_, ih hrest hs.2⟩
      rcases (set_insert_mem hrest x).1 hx with e | hx'
      · rw [e]
        exact h1
      · exact hs.1 x hx'
    · rw [if_neg h1]
      have h2 : lt p q = true := (h q (List.mem_cons_self _ _)).resolve_left h1
      rw [if_pos h2]
      simp only
      rw [List.pairwise_cons, List.pairwise_cons]
      refine ⟨fun x hx => ?_, hs.1, hs.2⟩
      rcases List.mem_cons.1 hx with e | hx'
      · rw [e]
        exact h2
      · exact htrans _ _ _ h2 (hs.1 x hx')

theorem NodeList.nth_put (nl : NodeList) (i x : Nat) (n : Node) :
    (nl.put i n).nth x = if x = i ∧ i < nl.node_list.length then n else nl.nth x := by
  simp only [NodeList.nth, NodeList.put, getD_set_eq]

theorem NLwf.put {k : Nat} {nl : NodeList} (h : NLwf k nl) {i : Nat} {n : Node}
    (hn : n.node_index = i) : NLwf k (nl.put i n) := by
  refine ⟨h.nodes, by simp [NodeList.put, h.len], fun x hx => ?_⟩
  rw [NodeList.nth_put]
  split
  · rename_i hh
    rw [hn, hh.1]
  · exact h.idx x hx

theorem NLwf.compare_total {k : Nat} {nl : NodeList} (h : NLwf k nl) {p q : Nat} (hp : p < k)
    (hq : q < k) (hne : q ≠ p) : nl.compare_ptr q p = true ∨ nl.compare_ptr p q = true := by
  unfold NodeList.compare_ptr
  apply Node.lt_total
  rw [h.idx p hp, h.idx q hq]
  exact hne

theorem NodeList.compare_trans (nl : NodeList) (a b c : Nat) (h1 : nl.compare_ptr a b = true)
    (h2 : nl.compare_ptr b c = true) : nl.compare_ptr a c = true :=
  Node.lt_trans h1 h2

theorem SInv.not_mem_of_head {k : Nat} {D : Int} {nl : NodeList} (h : SInv k D nl) {m : Nat}
    {rest : List Nat} (ho : nl.open_set = m :: rest) : m ∉ rest := by
  intro hm
  have hs := h.sorted
  rw [ho, List.pairwise_cons] at hs
  have := hs.1 m hm
  unfold NodeList.compare_ptr at this
  rw [Node.lt_irrefl] at this
  exact absurd this (by decide)

theorem NodeList.get_min_eq {k : Nat} {D : Int} {nl : NodeList} (h : SInv k D nl) {m : Nat}
    {rest : List Nat} (ho : nl.open_set = m :: rest) :
    nl.get_min_from_open_set = Except.ok (m, nl.after_min m rest) := by
  have hm : m ∈ nl.open_set := by rw [ho]; exact List.mem_cons_self _ _
  have hd := (h.band m hm).1
  have h0 := h.nonneg
  have hlt : Node.lt (nl.nth m) (Node.new2 0 0 0) = false := by
    unfold Node.lt Node.new2
    unfold NodeList.get_distance at hd
    simp only
    split
    · simp
    · simp only [decide_eq_false_iff_not, not_lt]
      omega
  unfold NodeList.get_min_from_open_set
  simp only [ho, set_lower_bound, hlt]
  simp [NodeList.after_min, NodeList.put, ho]

theorem NodeList.nth_after_min (nl : NodeList) (m : Nat) (rest : List Nat) (x : Nat) :
    (nl.after_min m rest).nth x
      = if x = m ∧ m < nl.node_list.length then { nl.nth m with set_type := set_t.CLOSED }
        else nl.nth x := by
  simp only [NodeList.nth, NodeList.after_min, getD_set_eq]

theorem SInv.after_min_inv {k : Nat} {D : Int} {nl : NodeList} (h : SInv k D nl) {m : Nat}
    {rest : List Nat} (ho : nl.open_set = m :: rest) :
    SInv k (nl.get_distance m) (nl.after_min m rest) := by
  have hm : m ∈ nl.open_set := by rw [ho]; exact List.mem_cons_self _ _
  have hmk := ((h.mem m).1 hm).1
  have hml : m < nl.node_list.length := by rw [h.wf.len]; exact hmk
  have hcmp : ∀ p q, (nl.after_min m rest).compare_ptr p q = nl.compare_ptr p q := by
    intro p q
    unfold NodeList.compare_ptr
    rw [NodeList.nth_after_min, NodeList.nth_after_min]
    unfold Node.lt
    split <;> split <;> simp_all
  have hdist : ∀ x, (nl.after_min m rest).get_distance x = nl.get_distance x := by
    intro x
    unfold NodeList.get_distance
    rw [NodeList.nth_after_min]
    split
    · rename_i hh
      rw [hh.1]
    · rfl
  have hs := h.sorted
  rw [ho, List.pairwise_cons] at hs
  refine ⟨⟨h.wf.nodes, by simp [NodeList.after_min, h.wf.len], fun x hx => ?_⟩, fun j => ?_, ?_,
    fun j hj => ?_, (h.band m hm).1.trans' h.nonneg⟩
  · rw [NodeList.nth_after_min]
    split
    · rename_i hh
      simp only
      rw [h.wf.idx m hmk, hh.1]
    · exact h.wf.idx x hx
  · show j ∈ rest ↔ _
    unfold NodeList.set_type
    rw [NodeList.nth_after_min]
    constructor
    · intro hj
      have hjm : j ≠ m := fun e => h.not_mem_of_head ho (e ▸ hj)
      have := (h.mem j).1 (by rw [ho]; exact List.mem_cons_of_mem _ hj)
      rw [if_neg (fun hh => hjm hh.1)]
      exact this
    · rintro ⟨hjk, ht⟩
      by_cases hjm : j = m
      · rw [if_pos ⟨hjm, hml⟩] at ht
        exact absurd ht (by simp)
      · rw [if_neg (fun hh => hjm hh.1)] at ht
        have := (h.mem j).2 ⟨hjk, ht⟩
        rw [ho] at this
        exact (List.mem_cons.1 this).resolve_left hjm
  · show rest.Pairwise _
    exact hs.2.imp (fun {a b} hab => by rw [hcmp]; exact hab)
  · rw [hdist]
    have hj' : j ∈ nl.open_set := by rw [ho]; exact List.mem_cons_of_mem _ hj
    have h1 := Node.lt_distance_le (hs.1 j hj)
    have h2 := h.band j hj'
    have h3 := h.band m hm
    unfold NodeList.get_distance at *
    exact ⟨h1, by omega⟩

theorem NodeList.add_node_new {k : Nat} {D : Int} {nl : NodeList} (h : SInv k D nl) {j : Nat}
    (hj : j < k) (ht : nl.set_type j = set_t.NONE) (i : Nat) :
    ∃ nl', nl.add_node_to_open_set j i (D + 1) = Except.ok nl'
      ∧ SInv k D nl'
      ∧ nl'.nth j = Node.mk set_t.OPEN j i (D + 1)
      ∧ ∀ x, x ≠ j → nl'.nth x = nl.nth x := by
  have hjl : j < nl.node_list.length := by rw [h.wf.len]; exact hj
  have hne : nl.set_type j ≠ set_t.OPEN := by rw [ht]; decide
  have hnot : j ∉ nl.open_set := fun hm => hne ((h.mem j).1 hm).2
  -- the two assignments to node `j`
  let s1 := nl.put j { nl.nth j with set_type := set_t.OPEN }
  let s2 := s1.put j ((s1.nth j).set_distance (D + 1) i)
  have hs1l : j < s1.node_list.length := by simp [s1, NodeList.put, hjl]
  have hs2j : s2.nth j = Node.mk set_t.OPEN j i (D + 1) := by
    simp only [s2, s1, NodeList.nth_put, hjl, hs1l, and_self, if_true, Node.set_distance]
    rw [h.wf.idx j hj]
  have hs2x : ∀ x, x ≠ j → s2.nth x = nl.nth x := by
    intro x hx
    simp only [s2, s1, NodeList.nth_put, hx, false_and, if_false]
  have hs2o : s2.open_set = nl.open_set := rfl
  have hwf1 : NLwf k s1 := h.wf.put (by simp [h.wf.idx j hj])
  have hwf2 : NLwf k s2 := hwf1.put (by
    simp only [s1, NodeList.nth_put, hjl, and_self, if_true, Node.set_distance]
    exact h.wf.idx j hj)
  have hs2t : s2.set_type j = set_t.OPEN := by
    unfold NodeList.set_type
    rw [hs2j]
  have htot : ∀ q, q ∈ nl.open_set → s2.compare_ptr q j = true ∨ s2.compare_ptr j q = true := by
    intro q hq
    have hq' := (h.mem q).1 hq
    exact hwf2.compare_total hj hq'.1 (fun e => hnot (e ▸ hq))
  have hins := set_insert_snd htot
  refine ⟨{ s2 with open_set := (set_insert s2.compare_ptr j s2.open_set).1 }, ?_, ?_, hs2j, hs2x⟩
  · unfold NodeList.add_node_to_open_set
    rw [if_pos hne]
    show s2.open_set_insert j (D + 1) = _
    unfold NodeList.open_set_insert
    rw [if_neg (by rw [hs2t]; simp), hs2o, if_pos hins]
  · refine ⟨⟨hwf2.nodes, hwf2.len, hwf2.idx⟩, fun x => ?_, ?_, fun x hx => ?_, h.nonneg⟩
    · show x ∈ (set_insert s2.compare_ptr j nl.open_set).1 ↔ x < k ∧ s2.set_type x = set_t.OPEN
      rw [set_insert_mem htot]
      constructor
      · rintro (e | hx)
        · rw [e]
          exact ⟨hj, hs2t⟩
        · have hx' := (h.mem x).1 hx
          have hxj : x ≠ j := fun e => hnot (e ▸ hx)
          refine ⟨hx'.1, ?_⟩
          unfold NodeList.set_type at *
          rw [hs2x x hxj]
          exact hx'.2
      · rintro ⟨hxk, hxt⟩
        by_cases hxj : x = j
        · exact Or.inl hxj
        · unfold NodeList.set_type at hxt
          rw [hs2x x hxj] at hxt
          exact Or.inr ((h.mem x).2 ⟨hxk, hxt⟩)
    · show (set_insert s2.compare_ptr j nl.open_set).1.Pairwise
        (fun p q => s2.compare_ptr p q = true)
      refine set_insert_sorted s2.compare_trans htot ?_
      refine h.sorted.imp_of_mem ?_
      intro p q hp hq hpq
      have hpj : p ≠ j := fun e => hnot (e ▸ hp)
      have hqj : q ≠ j := fun e => hnot (e ▸ hq)
      unfold NodeList.compare_ptr at *
      rw [hs2x p hpj, hs2x q hqj]
      exact hpq
    · have hx' : x ∈ (set_insert s2.compare_ptr j nl.open_set).1 := hx
      rw [set_insert_mem htot] at hx'
      show D ≤ (s2.nth x).distance ∧ (s2.nth x).distance ≤ D + 1
      rcases hx' with e | hx'
      · rw [e, hs2j]
        simp
      · have hxj : x ≠ j := fun e => hnot (e ▸ hx')
        rw [hs2x x hxj]
        exact h.band x hx'

theorem NodeList.add_node_open {k : Nat} {D : Int} {nl : NodeList} (h : SInv k D nl) {j : Nat}
    (hj : j < k) (ht : nl.set_type j = set_t.OPEN) (i : Nat) :
    nl.add_node_to_open_set j i (D + 1) = Except.ok nl := by
  have hb := (h.band j ((h.mem j).2 ⟨hj, ht⟩)).2
  unfold NodeList.get_distance at hb
  unfold NodeList.add_node_to_open_set
  rw [if_neg (by rw [ht]; simp), if_neg (by omega)]

theorem for_loop_inv {σ : Type} (body : Nat → σ → Except Err σ) (I : Nat → σ → Prop) (n : Nat)
    (s : σ) (h0 : I 0 s)
    (hs : ∀ k t, k < n → I k t → ∃ t', body k t = Except.ok t' ∧ I (k + 1) t') :
    ∃ t', for_loop n body s = Except.ok t' ∧ I n t' := by
  unfold for_loop
  induction n with
  | zero => exact ⟨s, rfl, h0⟩
  | succ m ih =>
    obtain ⟨t, ht, hI⟩ := ih (fun k t hk => hs k t (Nat.lt_succ_of_lt hk))
    obtain ⟨t', ht', hI'⟩ := hs m t (Nat.lt_succ_self m) hI
    refine ⟨t', ?_, hI'⟩
    rw [List.range_succ, List.foldlM_append, ht]
    simp only [List.foldlM_cons, List.foldlM_nil]
    show (body m t >>= fun s' => pure s') = _
    rw [ht']
    rfl

theorem Frame.nbr {b0 b : Board} (h : Frame b0 b) (i j : Nat) : b.nbr i j ↔ b0.nbr i j := by
  unfold Board.nbr Board.cell_at
  rw [h.size, h.graph, h.board, h.current]

theorem Frame.refl (b : Board) : Frame b b := ⟨rfl, rfl, rfl, rfl, rfl⟩

theorem Frame.node_list {b0 b : Board} (h : Frame b0 b) (nl : NodeList) :
    Frame b0 { b with node_list := nl } := ⟨h.size, h.board, h.graph, h.players, h.current⟩

theorem AInv.neighbour_step {b0 : Board} {start i : Nat} {D : Int} {ref : NodeList} {J : Nat} {b : Board}
    (h : AInv b0 start i D ref J b) (hi : i < b0.board_size * b0.board_size)
    (hJ : J < b0.board_size * b0.board_size) :
    ∃ b', Board.add_neighbour i J b = Except.ok b' ∧ AInv b0 start i D ref (J + 1) b' := by
  have hnbr := h.frame.nbr i J
  by_cases hc : b.nbr i J ∧ b.node_list.set_type J ≠ set_t.CLOSED
  · -- the node passes the test
    have hif : b.graph.edge_between_cells (i / b.board_size) (i % b.board_size)
        (J / b.board_size) (J % b.board_size) = true
        ∧ b.node_list.set_type J ≠ set_t.CLOSED
        ∧ b.cell_at (J / b.board_size) (J % b.board_size) = b.current_player.color :=
      ⟨hc.1.1, hc.2, hc.1.2⟩
    have hJi : J ≠ i := fun e => hc.2 (e ▸ h.itag)
    cases ht : b.node_list.set_type J with
    | CLOSED => exact absurd ht hc.2
    | OPEN =>
      refine ⟨b, ?_, h.frame, h.sinv, h.itag, h.idist, ?_, h.same⟩
      · unfold Board.add_neighbour
        simp only [if_pos hif, h.idist, NodeList.add_node_open h.sinv hJ ht i]
      · refine ⟨h.rinv.start_lt, h.rinv.start_tag, h.rinv.sound, fun x y hx hy hxt hxy hcur => ?_⟩
        by_cases hy' : x = i ∧ y = J
        · rw [hy'.2, ht]
          decide
        · refine h.rinv.closed x y hx hy hxt hxy (fun e => ?_)
          have := hcur e
          have : y ≠ J := fun e' => hy' ⟨e, e'⟩
          omega
    | NONE =>
      obtain ⟨nl', hadd, hs', hnJ, hnx⟩ := NodeList.add_node_new h.sinv hJ ht i
      have htag : ∀ x, x ≠ J → nl'.set_type x = b.node_list.set_type x := by
        intro x hx
        unfold NodeList.set_type
        rw [hnx x hx]
      have htJ : nl'.set_type J = set_t.OPEN := by
        unfold NodeList.set_type
        rw [hnJ]
      have hmono : ∀ x, b.node_list.set_type x ≠ set_t.NONE → nl'.set_type x ≠ set_t.NONE := by
        intro x hx
        by_cases hxJ : x = J
        · rw [hxJ, htJ]
          decide
        · rw [htag x hxJ]
          exact hx
      refine ⟨{ b with node_list := nl' }, ?_, h.frame.node_list nl', hs', ?_, ?_, ?_, ?_⟩
      · unfold Board.add_neighbour
        simp only [if_pos hif, h.idist, hadd]
      · show nl'.set_type i = _
        rw [htag i hJi.symm]
        exact h.itag
      · show nl'.get_distance i = _
        unfold NodeList.get_distance
        rw [hnx i hJi.symm]
        exact h.idist
      · refine ⟨h.rinv.start_lt, hmono _ h.rinv.start_tag, fun x hx hxt => ?_,
          fun x y hx hy hxt hxy hcur => ?_⟩
        · show Relation.ReflTransGen b0.step start x
          by_cases hxJ : x = J
          · have hri : Relation.ReflTransGen b0.step start i :=
              h.rinv.sound i hi (by rw [h.itag]; decide)
            rw [hxJ]
            exact hri.tail ⟨hJ, hnbr.1 hc.1⟩
          · have : nl'.set_type x ≠ set_t.NONE := hxt
            rw [htag x hxJ] at this
            exact h.rinv.sound x hx this
        · show nl'.set_type y ≠ set_t.NONE
          have hxJ : x ≠ J := by
            intro e
            have : nl'.set_type x = set_t.CLOSED := hxt
            rw [e, htJ] at this
            exact absurd this (by decide)
          have hxt' : b.node_list.set_type x = set_t.CLOSED := by
            rw [← htag x hxJ]
            exact hxt
          by_cases hyJ : y = J
          · rw [hyJ, htJ]
            decide
          · refine hmono y (h.rinv.closed x y hx hy hxt' hxy (fun e => ?_))
            have := hcur e
            omega
      · intro x
        show nl'.set_type x = set_t.CLOSED ↔ _
        by_cases hxJ : x = J
        · rw [← h.same, hxJ, htJ, ht]
          simp
        · rw [htag x hxJ]
          exact h.same x
  · -- the node is skipped
    refine ⟨b, ?_, h.frame, h.sinv, h.itag, h.idist, ?_, h.same⟩
    · unfold Board.add_neighbour
      rw [if_neg]
      rintro ⟨h1, h2, h3⟩
      exact hc ⟨⟨h1, h3⟩, h2⟩
    · refine ⟨h.rinv.start_lt, h.rinv.start_tag, h.rinv.sound, fun x y hx hy hxt hxy hcur => ?_⟩
      by_cases hy' : x = i ∧ y = J
      · rw [hy'.1, hy'.2] at hxy
        have : b.node_list.set_type J = set_t.CLOSED := by
          by_contra hne
          exact hc ⟨hnbr.2 hxy, hne⟩
        rw [hy'.2, this]
        decide
      · refine h.rinv.closed x y hx hy hxt hxy (fun e => ?_)
        have := hcur e
        have : y ≠ J := fun e' => hy' ⟨e, e'⟩
        omega

theorem AInv.add_neighbours {b0 : Board} {start i : Nat} {D : Int} {ref : NodeList} {b : Board}
    (h : AInv b0 start i D ref 0 b) (hi : i < b0.board_size * b0.board_size) :
    ∃ b', b.add_neighbours_to_open_set i = Except.ok b'
      ∧ AInv b0 start i D ref (b0.board_size * b0.board_size) b' := by
  unfold Board.add_neighbours_to_open_set
  rw [h.frame.size]
  exact for_loop_inv (Board.add_neighbour i) (fun J t => AInv b0 start i D ref J t) _ b h
    (fun J t hJ hI => hI.neighbour_step hi hJ)

theorem NodeList.set_type_after_min {k : Nat} {nl : NodeList} (hwf : NLwf k nl) {m : Nat}
    (hm : m < k) (rest : List Nat) (x : Nat) :
    (nl.after_min m rest).set_type x = if x = m then set_t.CLOSED else nl.set_type x := by
  unfold NodeList.set_type
  rw [NodeList.nth_after_min, hwf.len]
  by_cases hx : x = m
  · rw [if_pos ⟨hx, hm⟩, if_pos hx]
  · rw [if_neg (fun hh => hx hh.1), if_neg hx]

theorem PInv.extract {b0 : Board} {start : Nat} {b : Board} (h : PInv b0 start b) {D : Int}
    (hs : SInv (b0.board_size * b0.board_size) D b.node_list) {m : Nat} {rest : List Nat}
    (ho : b.node_list.open_set = m :: rest) :
    AInv b0 start m (b.node_list.get_distance m) (b.node_list.after_min m rest) 0
      { b with node_list := b.node_list.after_min m rest } := by
  have hm : m ∈ b.node_list.open_set := by rw [ho]; exact List.mem_cons_self _ _
  have hmk := ((hs.mem m).1 hm).1
  have hmt := ((hs.mem m).1 hm).2
  have htag := NodeList.set_type_after_min hs.wf hmk rest
  have hmono : ∀ x, b.node_list.set_type x ≠ set_t.NONE →
      (b.node_list.after_min m rest).set_type x ≠ set_t.NONE := by
    intro x hx
    rw [htag]
    split
    · decide
    · exact hx
  refine ⟨h.frame.node_list _, hs.after_min_inv ho, ?_, ?_, ?_, fun x => Iff.rfl⟩
  · show (b.node_list.after_min m rest).set_type m = _
    rw [htag, if_pos rfl]
  · show (b.node_list.after_min m rest).get_distance m = _
    unfold NodeList.get_distance
    rw [NodeList.nth_after_min]
    split <;> rfl
  · refine ⟨h.rinv.start_lt, hmono _ h.rinv.start_tag, fun x hx hxt => ?_,
      fun x y hx hy hxt hxy hcur => ?_⟩
    · refine h.rinv.sound x hx ?_
      have : (b.node_list.after_min m rest).set_type x ≠ set_t.NONE := hxt
      rw [htag] at this
      by_cases hxm : x = m
      · rw [hxm, hmt]
        decide
      · rw [if_neg hxm] at this
        exact this
    · show (b.node_list.after_min m rest).set_type y ≠ set_t.NONE
      by_cases hxm : x = m
      · have := hcur hxm
        omega
      · have hxt' : (b.node_list.after_min m rest).set_type x = set_t.CLOSED := hxt
        rw [htag, if_neg hxm] at hxt'
        exact hmono y (h.rinv.closed x y hx hy hxt' hxy (fun _ => hy))

theorem AInv.toPInv {b0 : Board} {start i : Nat} {D : Int} {ref : NodeList} {b : Board}
    (h : AInv b0 start i D ref (b0.board_size * b0.board_size) b) : PInv b0 start b :=
  ⟨h.frame, ⟨D, h.sinv⟩, h.rinv.start_lt, h.rinv.start_tag, h.rinv.sound,
    fun x y hx hy hxt hxy _ => h.rinv.closed x y hx hy hxt hxy (fun _ => hy)⟩

theorem open_measure_after {k : Nat} {nl nl' : NodeList} {m : Nat} (hm : m < k)
    (hmt : nl.set_type m ≠ set_t.CLOSED) (hmt' : nl'.set_type m = set_t.CLOSED)
    (hmono : ∀ x, nl.set_type x = set_t.CLOSED → nl'.set_type x = set_t.CLOSED) :
    open_measure k nl' < open_measure k nl := by
  unfold open_measure
  apply Finset.card_lt_card
  rw [Finset.ssubset_iff_of_subset]
  · refine ⟨m, ?_, ?_⟩
    · simp [hm, hmt]
    · simp [hmt']
  · intro x hx
    simp only [Finset.mem_filter, Finset.mem_range] at hx ⊢
    exact ⟨hx.1, fun hc => hx.2 (hmono x hc)⟩

theorem PInv.find_path_to {b0 : Board} {start : Nat} (final : Nat) :
    ∀ (fuel : Nat) (b : Board), PInv b0 start b →
      open_measure (b0.board_size * b0.board_size) b.node_list < fuel →
      ∃ b', Board.find_path_to fuel b final = Except.ok b' ∧ PInv b0 start b'
        ∧ (b'.node_list.open_set = [] ∨ b'.node_list.set_type final = set_t.CLOSED)
        ∧ (∀ x, b.node_list.set_type x = set_t.CLOSED → b'.node_list.set_type x = set_t.CLOSED)
        ∧ (b.node_list.open_set = [] → b'.node_list.open_set = []) := by
  intro fuel
  induction fuel with
  | zero => intro b _ hlt; omega
  | succ fuel ih =>
    intro b hP hlt
    obtain ⟨D, hs⟩ := hP.sinv
    cases ho : b.node_list.open_set with
    | nil =>
      refine ⟨b, ?_, hP, Or.inl ho, fun x hx => hx, fun _ => ho⟩
      unfold Board.find_path_to
      rw [if_pos (by simp [NodeList.open_set_size, ho])]
    | cons m rest =>
      have hm : m ∈ b.node_list.open_set := by rw [ho]; exact List.mem_cons_self _ _
      have hmk := ((hs.mem m).1 hm).1
      have hmt := ((hs.mem m).1 hm).2
      have hA := hP.extract hs ho
      obtain ⟨b2, hadd, hA2⟩ := hA.add_neighbours hmk
      have hidx : ((b.node_list.after_min m rest).nth m).node_index = m :=
        (hs.after_min_inv ho).wf.idx m hmk
      have hmono : ∀ x, b.node_list.set_type x = set_t.CLOSED →
          b2.node_list.set_type x = set_t.CLOSED := by
        intro x hx
        rw [hA2.same, NodeList.set_type_after_min hs.wf hmk]
        split
        · rfl
        · exact hx
      have hstep : Board.find_path_to (fuel + 1) b final
          = if m = final then Except.ok b2 else Board.find_path_to fuel b2 final := by
        rw [Board.find_path_to]
        rw [if_neg (by simp [NodeList.open_set_size, ho]), NodeList.get_min_eq hs ho]
        simp only [hidx, hadd]
      by_cases hmf : m = final
      · refine ⟨b2, ?_, hA2.toPInv, Or.inr ?_, hmono, fun e => ?_⟩
        · rw [hstep, if_pos hmf]
        · rw [← hmf]
          exact hA2.itag
        · exact absurd e (by simp)
      · have hlt2 : open_measure (b0.board_size * b0.board_size) b2.node_list < fuel := by
          have := @open_measure_after _ b.node_list b2.node_list m hmk
            (by rw [hmt]; decide) hA2.itag hmono
          omega
        obtain ⟨b3, hf, hP3, hend, hmono3, _⟩ := ih b2 hA2.toPInv hlt2
        refine ⟨b3, ?_, hP3, hend, fun x hx => hmono3 x (hmono x hx), fun e => ?_⟩
        · rw [hstep, if_neg hmf]
          exact hf
        · exact absurd e (by simp)

theorem NodeList.reset_node_list_spec {k : Nat} {nl : NodeList} (h : NLwf k nl) :
    nl.reset_node_list.num_nodes = k ∧ nl.reset_node_list.open_set = nl.open_set
      ∧ nl.reset_node_list.node_list.length = k
      ∧ ∀ i, i < k → nl.reset_node_list.nth i = (nl.nth i).reset := by
  have key := foldl_range_inv (fun (s : NodeList) j => s.put j (s.nth j).reset)
    (fun J s => s.num_nodes = k ∧ s.open_set = nl.open_set ∧ s.node_list.length = k
      ∧ ∀ i, i < k → s.nth i = if i < J then (nl.nth i).reset else nl.nth i)
    k nl ⟨h.nodes, rfl, h.len, fun i _ => by simp⟩ ?_
  · unfold NodeList.reset_node_list
    rw [h.nodes]
    refine ⟨key.1, key.2.1, key.2.2.1, fun i hi => ?_⟩
    rw [key.2.2.2 i hi, if_pos hi]
  · intro J t hJ hI
    refine ⟨hI.1, hI.2.1, by simp [NodeList.put, hI.2.2.1], fun i hi => ?_⟩
    rw [NodeList.nth_put, hI.2.2.1]
    by_cases hiJ : i = J
    · rw [if_pos ⟨hiJ, hJ⟩, if_pos (by omega), hI.2.2.2 J hJ, if_neg (by omega), hiJ]
    · rw [if_neg (fun hh => hiJ hh.1), hI.2.2.2 i hi]
      by_cases h1 : i < J
      · rw [if_pos h1, if_pos (by omega)]
      · rw [if_neg h1, if_neg (by omega)]

theorem open_measure_le (k : Nat) (nl : NodeList) : open_measure k nl ≤ k := by
  unfold open_measure
  calc ((Finset.range k).filter (fun j => nl.set_type j ≠ set_t.CLOSED)).card
      ≤ (Finset.range k).card := Finset.card_filter_le _ _
    _ = k := Finset.card_range k

theorem PInv.init {b : Board} {start : Nat} (hwf : NLwf (b.board_size * b.board_size) b.node_list)
    (hstart : start < b.board_size * b.board_size) :
    PInv b start
      { b with node_list := (b.node_list.reset_node_list).init_open_set start } := by
  obtain ⟨hn, _, hl, hnth⟩ := NodeList.reset_node_list_spec hwf
  have hsl : start < b.node_list.reset_node_list.node_list.length := by rw [hl]; exact hstart
  have hnth2 : ∀ x, ((b.node_list.reset_node_list).init_open_set start).nth x
      = if x = start then { (b.node_list.nth start).reset with set_type := set_t.OPEN }
        else b.node_list.reset_node_list.nth x := by
    intro x
    unfold NodeList.init_open_set
    simp only [NodeList.nth_put]
    by_cases hx : x = start
    · rw [if_pos hx]
      simp only [NodeList.nth, hx, true_and, hsl, if_true]
      have := hnth start hstart
      simp only [NodeList.nth] at this
      rw [this]
    · rw [if_neg hx, if_neg (fun hh => hx hh.1)]
      rfl
  have hopen : ((b.node_list.reset_node_list).init_open_set start).open_set = [start] := by
    simp [NodeList.init_open_set, NodeList.put, set_insert]
  have htag : ∀ x, x < b.board_size * b.board_size →
      ((b.node_list.reset_node_list).init_open_set start).set_type x
        = if x = start then set_t.OPEN else set_t.NONE := by
    intro x hx
    unfold NodeList.set_type
    rw [hnth2]
    split
    · rfl
    · rw [hnth x hx]
      rfl
  have hdist : ((b.node_list.reset_node_list).init_open_set start).get_distance start = 0 := by
    unfold NodeList.get_distance
    rw [hnth2, if_pos rfl]
    rfl
  refine ⟨Frame.node_list (Frame.refl b) _, ⟨0, ⟨?_, ?_, fun i hi => ?_⟩, fun j => ?_, ?_,
    fun j hj => ?_, le_refl _⟩, hstart, ?_, fun j hj hjt => ?_, fun i j hi hj hit => ?_⟩
  · simp [NodeList.init_open_set, NodeList.put, hn]
  · simp [NodeList.init_open_set, NodeList.put, hl]
  · rw [hnth2]
    split
    · rename_i hh
      simp only [Node.reset]
      rw [hh]
      exact hwf.idx start hstart
    · rw [hnth i hi]
      exact hwf.idx i hi
  · show j ∈ ((b.node_list.reset_node_list).init_open_set start).open_set ↔ _
    rw [hopen, List.mem_singleton]
    constructor
    · intro e
      rw [e]
      exact ⟨hstart, by rw [htag start hstart, if_pos rfl]⟩
    · rintro ⟨hj, hjt⟩
      by_contra hne
      rw [htag j hj, if_neg hne] at hjt
      exact absurd hjt (by decide)
  · show (((b.node_list.reset_node_list).init_open_set start).open_set).Pairwise _
    rw [hopen]
    exact List.pairwise_singleton _ _
  · have hj' : j ∈ ((b.node_list.reset_node_list).init_open_set start).open_set := hj
    rw [hopen, List.mem_singleton] at hj'
    show 0 ≤ ((b.node_list.reset_node_list).init_open_set start).get_distance j ∧
      ((b.node_list.reset_node_list).init_open_set start).get_distance j ≤ 0 + 1
    rw [hj', hdist]
    decide
  · show ((b.node_list.reset_node_list).init_open_set start).set_type start ≠ _
    rw [htag start hstart, if_pos rfl]
    decide
  · have hjt' : ((b.node_list.reset_node_list).init_open_set start).set_type j ≠ set_t.NONE := hjt
    rw [htag j hj] at hjt'
    by_cases hjs : j = start
    · rw [hjs]
    · rw [if_neg hjs] at hjt'
      exact absurd rfl hjt'
  · have hit' : ((b.node_list.reset_node_list).init_open_set start).set_type i = set_t.CLOSED := hit
    rw [htag i hi] at hit'
    split at hit' <;> exact absurd hit' (by decide)

theorem PInv.done {b b' : Board} {start : Nat} (h : PInv b start b')
    (he : b'.node_list.open_set = []) : PassDone b start b' := by
  obtain ⟨D, hs⟩ := h.sinv
  have hno : ∀ j, j < b.board_size * b.board_size → b'.node_list.set_type j ≠ set_t.OPEN := by
    intro j hj ht
    have := (hs.mem j).2 ⟨hj, ht⟩
    rw [he] at this
    exact absurd this (List.not_mem_nil j)
  have hcl : ∀ j, j < b.board_size * b.board_size → b'.node_list.set_type j ≠ set_t.NONE →
      b'.node_list.set_type j = set_t.CLOSED := by
    intro j hj hne
    have := hno j hj
    cases ht : b'.node_list.set_type j
    · exact absurd ht hne
    · exact absurd ht this
    · rfl
  refine ⟨h.frame, hs.wf, he, hno, fun j hj => ⟨fun ht => ?_, fun hr => ?_⟩⟩
  · exact h.rinv.sound j hj (by rw [ht]; decide)
  · induction hr with
    | refl => exact hcl start h.rinv.start_lt h.rinv.start_tag
    | tail hxy hstep ih =>
      rename_i x y
      have hx : x < b.board_size * b.board_size := by
        cases hxy with
        | refl => exact h.rinv.start_lt
        | tail _ hs' => exact hs'.1
      exact hcl _ hstep.1 (h.rinv.closed x _ hx hstep.1 (ih hx) hstep.2 (fun _ => hstep.1))

theorem Board.find_all_paths_from_spec {b : Board} {start fuel : Nat}
    (hwf : NLwf (b.board_size * b.board_size) b.node_list)
    (hstart : start < b.board_size * b.board_size) (hfuel : b.board_size * b.board_size < fuel) :
    ∃ b', b.find_all_paths_from fuel start = Except.ok b' ∧ PassDone b start b' := by
  have h0 := PInv.init hwf hstart
  have key := for_loop_inv
    (fun i (s : Board) => if s.node_list.set_type i ≠ set_t.CLOSED then Board.find_path_to fuel s i
      else Except.ok s)
    (fun I s => PInv b start s
      ∧ ∀ i, i < I → s.node_list.set_type i = set_t.CLOSED ∨ s.node_list.open_set = [])
    (b.board_size * b.board_size)
    { b with node_list := (b.node_list.reset_node_list).init_open_set start }
    ⟨h0, fun i hi => absurd hi (Nat.not_lt_zero i)⟩ ?_
  · obtain ⟨b', hrun, hP, hall⟩ := key
    refine ⟨b', hrun, hP.done ?_⟩
    by_contra hne
    obtain ⟨D, hs⟩ := hP.sinv
    obtain ⟨m, hm⟩ := List.exists_mem_of_ne_nil _ hne
    have hm' := (hs.mem m).1 hm
    rcases hall m hm'.1 with hc | he
    · rw [hm'.2] at hc
      exact absurd hc (by decide)
    · exact hne he
  · intro I s hI hinv
    obtain ⟨hP, hall⟩ := hinv
    by_cases hc : s.node_list.set_type I = set_t.CLOSED
    · refine ⟨s, by show (if _ then _ else _) = _; rw [if_neg (by simp [hc])], hP,
        fun i hi => ?_⟩
      by_cases hiI : i = I
      · rw [hiI]
        exact Or.inl hc
      · exact hall i (by omega)
    · have hlt : open_measure (b.board_size * b.board_size) s.node_list < fuel :=
        lt_of_le_of_lt (open_measure_le _ _) hfuel
      obtain ⟨s', hrun, hP', hend, hmono, hemp⟩ := hP.find_path_to I fuel s hlt
      refine ⟨s', by show (if _ then _ else _) = _; rw [if_pos hc]; exact hrun, hP',
        fun i hi => ?_⟩
      by_cases hiI : i = I
      · rw [hiI]
        exact hend.symm
      · rcases hall i (by omega) with h1 | h2
        · exact Or.inl (hmono i h1)
        · exact Or.inr (hemp h2)

theorem Board.wf.step_iff {N : Nat} {b : Board} (h : b.wf N) {x : Nat} (hx : x < N * N)
    (y : Nat) :
    b.step x y ↔ (lattice_adjacent N x y ∧ b.colour_of y = b.current_player.color) := by
  have hN : 0 < N := by
    rcases Nat.eq_zero_or_pos N with h0 | h0
    · rw [h0] at hx
      omega
    · exact h0
  have hl := Lattice.gen N
  unfold Board.step Board.nbr lattice_adjacent Board.colour_of
  rw [h.size, h.graph]
  constructor
  · rintro ⟨hy, he, hc⟩
    refine ⟨⟨hx, hy, ?_⟩, hc⟩
    exact (hl.edge_cells (Nat.div_lt_of_lt_mul hx) (Nat.mod_lt _ hN) (Nat.div_lt_of_lt_mul hy)
      (Nat.mod_lt _ hN)).1 he
  · rintro ⟨⟨_, hy, ho⟩, hc⟩
    refine ⟨hy, ?_, hc⟩
    exact (hl.edge_cells (Nat.div_lt_of_lt_mul hx) (Nat.mod_lt _ hN) (Nat.div_lt_of_lt_mul hy)
      (Nat.mod_lt _ hN)).2 ho

theorem Board.wf.reach_iff {N : Nat} {b : Board} (h : b.wf N) {start : Nat}
    (hs : start < N * N) (hown : b.colour_of start = b.current_player.color) (j : Nat) :
    Relation.ReflTransGen b.step start j
      ↔ colour_reachable N b.colour_of b.current_player.color start j := by
  constructor
  · intro hr
    induction hr with
    | refl => exact colour_reachable.start hown
    | tail hxy hstep ih =>
      rename_i x y
      have hx : x < N * N := by
        cases hxy with
        | refl => exact hs
        | tail _ hs' =>
          have := hs'.1
          rw [h.size] at this
          exact this
      have := (h.step_iff hx y).1 hstep
      exact colour_reachable.step ih this.1 this.2
  · intro hr
    induction hr with
    | start _ => exact Relation.ReflTransGen.refl
    | step _ hadj hc ih =>
      exact ih.tail ((h.step_iff hadj.1 _).2 ⟨hadj, hc⟩)

theorem Board.wf.pass {N : Nat} {b : Board} (h : b.wf N) {start fuel : Nat}
    (hs : start < N * N) (hown : b.colour_of start = b.current_player.color)
    (hfuel : N * N < fuel) :
    ∃ b', b.find_all_paths_from fuel start = Except.ok b' ∧ PassDone b start b'
      ∧ ∀ j, j < N * N → (b'.node_list.set_type j = set_t.CLOSED
          ↔ colour_reachable N b.colour_of b.current_player.color start j) := by
  have hwf : NLwf (b.board_size * b.board_size) b.node_list := by rw [h.size]; exact h.nodes
  obtain ⟨b', hrun, hd⟩ := Board.find_all_paths_from_spec hwf (by rw [h.size]; exact hs)
    (by rw [h.size]; exact hfuel)
  refine ⟨b', hrun, hd, fun j hj => ?_⟩
  rw [hd.closed_iff j (by rw [h.size]; exact hj), h.reach_iff hs hown]

theorem search_loop_iff (hit : Nat → Bool) (n i : Nat) :
    search_loop hit n i = true ↔ ∃ x, i ≤ x ∧ x < i + n ∧ hit x = true := by
  induction n generalizing i with
  | zero =>
    simp only [search_loop, Nat.add_zero]
    constructor
    · intro h
      exact absurd h (by decide)
    · rintro ⟨x, h1, h2, _⟩
      omega
  | succ n ih =>
    unfold search_loop
    by_cases h : hit i = true
    · rw [if_pos h]
      exact ⟨fun _ => ⟨i, le_refl _, by omega, h⟩, fun _ => rfl⟩
    · rw [if_neg h, ih]
      constructor
      · rintro ⟨x, h1, h2, h3⟩
        exact ⟨x, by omega, by omega, h3⟩
      · rintro ⟨x, h1, h2, h3⟩
        have : x ≠ i := fun e => h (e ▸ h3)
        exact ⟨x, by omega, by omega, h3⟩

theorem Board.horizontal_path_iff (b : Board) :
    b.horizontal_path = true
      ↔ (∃ row, row < b.board_size
            ∧ b.node_list.set_type (row * b.board_size + 0) = set_t.CLOSED)
        ∧ (∃ row, row < b.board_size
            ∧ b.node_list.set_type (row * b.board_size + (b.board_size - 1)) = set_t.CLOSED) := by
  unfold Board.horizontal_path
  simp only [Bool.not_eq_true]
  split
  · rename_i h
    have h' : ¬ (search_loop
        (fun row => decide (b.node_list.set_type (row * b.board_size + 0) = set_t.CLOSED))
        b.board_size 0 = true) := by rw [h]; decide
    rw [search_loop_iff] at h'
    constructor
    · intro hf
      exact absurd hf (by decide)
    · rintro ⟨⟨x, hx, hc⟩, _⟩
      exact absurd ⟨x, Nat.zero_le _, by omega, by simpa using hc⟩ h'
  · rename_i h
    have h' : search_loop
        (fun row => decide (b.node_list.set_type (row * b.board_size + 0) = set_t.CLOSED))
        b.board_size 0 = true := by simpa using h
    rw [search_loop_iff] at h' ⊢
    obtain ⟨x, _, hx, hc⟩ := h'
    constructor
    · rintro ⟨y, _, hy, hd⟩
      exact ⟨⟨x, by omega, by simpa using hc⟩, ⟨y, by omega, by simpa using hd⟩⟩
    · rintro ⟨_, ⟨y, hy, hd⟩⟩
      exact ⟨y, Nat.zero_le _, by omega, by simpa using hd⟩

theorem Board.vertical_path_iff (b : Board) :
    b.vertical_path = true
      ↔ (∃ col, col < b.board_size
            ∧ b.node_list.set_type (0 * b.board_size + col) = set_t.CLOSED)
        ∧ (∃ col, col < b.board_size
            ∧ b.node_list.set_type ((b.board_size - 1) * b.board_size + col) = set_t.CLOSED) := by
  unfold Board.vertical_path
  simp only [Bool.not_eq_true]
  split
  · rename_i h
    have h' : ¬ (search_loop
        (fun col => decide (b.node_list.set_type (0 * b.board_size + col) = set_t.CLOSED))
        b.board_size 0 = true) := by rw [h]; decide
    rw [search_loop_iff] at h'
    constructor
    · intro hf
      exact absurd hf (by decide)
    · rintro ⟨⟨x, hx, hc⟩, _⟩
      exact absurd ⟨x, Nat.zero_le _, by omega, by simpa using hc⟩ h'
  · rename_i h
    have h' : search_loop
        (fun col => decide (b.node_list.set_type (0 * b.board_size + col) = set_t.CLOSED))
        b.board_size 0 = true := by simpa using h
    rw [search_loop_iff] at h' ⊢
    obtain ⟨x, _, hx, hc⟩ := h'
    constructor
    · rintro ⟨y, _, hy, hd⟩
      exact ⟨⟨x, by omega, by simpa using hc⟩, ⟨y, by omega, by simpa using hd⟩⟩
    · rintro ⟨_, ⟨y, hy, hd⟩⟩
      exact ⟨y, Nat.zero_le _, by omega, by simpa using hd⟩

theorem Board.winning_move_eq {b b' : Board} {fuel row col : Nat} (player_num : Nat)
    (h : b.find_all_paths_from fuel (row * b.board_size + col) = Except.ok b') :
    b.winning_move fuel row col player_num
      = Except.ok (if player_num = 0 then b'.horizontal_path else b'.vertical_path, b') := by
  unfold Board.winning_move
  simp only [h]
  split <;> rfl

theorem NLwf.of_new (k : Nat) (g : Nat → Int) : NLwf k (NodeList.new k g) := by
  have key := foldl_range_inv (fun (l : List Node) i => l ++ [Node.new i (g i)])
    (fun J l => l.length = J ∧ ∀ i, i < J → (l.getD i (Node.new 0 0)).node_index = i)
    k [] ⟨rfl, fun i hi => absurd hi (Nat.not_lt_zero i)⟩ ?_
  · exact ⟨rfl, key.1, key.2⟩
  · intro J l _ hI
    refine ⟨by simp [hI.1], fun i hi => ?_⟩
    by_cases hiJ : i < J
    · have := hI.2 i hiJ
      rw [List.getD_eq_getElem?_getD, List.getElem?_append_left (by rw [hI.1]; exact hiJ)]
      rw [List.getD_eq_getElem?_getD] at this
      exact this
    · have e : i = J := by omega
      rw [List.getD_eq_getElem?_getD, List.getElem?_append_right (by rw [hI.1]; omega), hI.1, e]
      simp [Node.new]

theorem Board.new_wf (N : Nat) (g : Nat → Int) (p : Player) : (Board.new N g p).wf N := by
  refine ⟨rfl, rfl, NLwf.of_new _ g, by simp [Board.new], fun r hr => ?_⟩
  simp [Board.new, List.getD_eq_getElem?_getD, List.getElem?_replicate, hr]

theorem Board.wf.set_cell {N : Nat} {b : Board} (h : b.wf N) (row col : Nat) (c : cell) :
    (b.set_cell row col c).wf N := by
  refine ⟨h.size, h.graph, h.nodes, by simp [Board.set_cell, h.rows], fun r hr => ?_⟩
  simp only [Board.set_cell, getD_set_eq]
  split
  · rename_i hh
    rw [List.length_set, ← hh.1]
    exact h.cols r hr
  · exact h.cols r hr

theorem Board.wf.turn_of {N : Nat} {b : Board} (h : b.wf N) (p : Player) : (b.turn_of p).wf N :=
  ⟨h.size, h.graph, h.nodes, h.rows, h.cols⟩

theorem Board.wf.place {N : Nat} {b : Board} (h : b.wf N) (c : cell) (stones : List (Nat × Nat)) :
    (b.place c stones).wf N := by
  unfold Board.place
  induction stones generalizing b with
  | nil => exact h
  | cons s rest ih => exact ih (h.set_cell s.1 s.2 c)

theorem row_board_wf : row_board.wf 3 :=
  (((Board.new_wf 3 _ _).turn_of _).place _ _)

theorem idx_div {n r c : Nat} (hc : c < n) : (r * n + c) / n = r := by
  have hn : 0 < n := by omega
  rw [Nat.add_comm, Nat.add_mul_div_right _ _ hn, Nat.div_eq_of_lt hc, Nat.zero_add]

theorem idx_mod {n r c : Nat} (hc : c < n) : (r * n + c) % n = c := by
  rw [Nat.add_comm, Nat.add_mul_mod_self_right, Nat.mod_eq_of_lt hc]

theorem Board.colour_of_idx {N : Nat} {b : Board} (h : b.wf N) (row : Nat) {col : Nat}
    (hc : col < N) : b.colour_of (row * N + col) = b.cell_at row col := by
  unfold Board.colour_of
  rw [h.size, idx_div hc, idx_mod hc]

theorem colour_reachable.owned {n : Nat} {owner : Nat → cell} {c : cell} {start j : Nat}
    (h : colour_reachable n owner c start j) : owner j = c := by
  cases h with
  | start h0 => exact h0
  | step _ _ hc => exact hc

theorem colour_reachable.isolated {n : Nat} {owner : Nat → cell} {c : cell} {start j : Nat}
    (hiso : ∀ y, lattice_adjacent n start y → owner y ≠ c)
    (h : colour_reachable n owner c start j) : j = start := by
  induction h with
  | start _ => rfl
  | step _ hadj hc ih =>
    rw [ih] at hadj
    exact absurd hc (hiso _ hadj)

theorem lattice_adjacent_right {n r c : Nat} (hr : r < n) (hc : c + 1 < n) :
    lattice_adjacent n (r * n + c) (r * n + (c + 1)) := by
  refine ⟨idx_lt hr (by omega), idx_lt hr hc, ?_⟩
  rw [idx_div (by omega : c < n), idx_mod (by omega : c < n), idx_div hc, idx_mod hc]
  unfold hex_offset
  omega

theorem lattice_adjacent_left {n r c : Nat} (hr : r < n) (hc : c + 1 < n) :
    lattice_adjacent n (r * n + (c + 1)) (r * n + c) := by
  refine ⟨idx_lt hr hc, idx_lt hr (by omega), ?_⟩
  rw [idx_div (by omega : c < n), idx_mod (by omega : c < n), idx_div hc, idx_mod hc]
  unfold hex_offset
  omega

theorem colour_reachable_row {n : Nat} {owner : Nat → cell} {c : cell} {r col : Nat}
    (hr : r < n) (hcol : col < n) (hown : ∀ y, y < n → owner (r * n + y) = c) (y : Nat)
    (hy : y < n) : colour_reachable n owner c (r * n + col) (r * n + y) := by
  have up : ∀ d, col + d < n → colour_reachable n owner c (r * n + col) (r * n + (col + d)) := by
    intro d
    induction d with
    | zero => intro _; exact colour_reachable.start (hown col hcol)
    | succ d ih =>
      intro hd
      have := ih (by omega)
      exact colour_reachable.step this (lattice_adjacent_right hr (by omega)) (hown _ hd)
  have down : ∀ d, d ≤ col → colour_reachable n owner c (r * n + col) (r * n + (col - d)) := by
    intro d
    induction d with
    | zero => intro _; exact colour_reachable.start (hown col hcol)
    | succ d ih =>
      intro hd
      have h1 := ih (by omega)
      have e : col - d = (col - (d + 1)) + 1 := by omega
      rw [e] at h1
      exact colour_reachable.step h1 (lattice_adjacent_left hr (by omega)) (hown _ (by omega))
  by_cases h : col ≤ y
  · have := up (y - col) (by omega)
    rwa [show col + (y - col) = y by omega] at this
  · have := down (col - y) (by omega)
    rwa [show col - (col - y) = y by omega] at this

theorem Board.wf.winning_move_spec {N : Nat} {b : Board} (h : b.wf N) {row col fuel : Nat}
    (hrow : row < N) (hcol : col < N)
    (hown : b.cell_at row col = b.current_player.color) (hfuel : N * N < fuel)
    (player_num : Nat) :
    ∃ b', b.winning_move fuel row col player_num
        = Except.ok (if player_num = 0 then b'.horizontal_path else b'.vertical_path, b')
      ∧ PassDone b (row * N + col) b'
      ∧ b'.board_size = N
      ∧ ∀ j, j < N * N → (b'.node_list.set_type j = set_t.CLOSED
          ↔ colour_reachable N b.colour_of b.current_player.color (row * N + col) j) := by
  obtain ⟨b', hrun, hd, hiff⟩ := h.pass (idx_lt hrow hcol)
    (by rw [Board.colour_of_idx h row hcol]; exact hown) hfuel
  have hrun' : b.find_all_paths_from fuel (row * b.board_size + col) = Except.ok b' := by
    rw [h.size]; exact hrun
  exact ⟨b', Board.winning_move_eq player_num hrun', hd, by rw [hd.frame.size, h.size], hiff⟩

theorem isolated_board_wf : isolated_board.wf 3 :=
  ((((Board.new_wf 3 _ _).turn_of _).place _ _).place _ _)

theorem Board.cell_at_set_cell {N : Nat} {b : Board} (h : b.wf N) {row col : Nat}
    (hr : row < N) (hc : col < N) (v : cell) (r c : Nat) :
    (b.set_cell row col v).cell_at r c
      = if r = row ∧ c = col then v else b.cell_at r c := by
  unfold Board.cell_at Board.set_cell
  simp only [getD_set_eq, h.rows, hr, and_true]
  by_cases h1 : r = row
  · subst h1
    rw [if_pos rfl, getD_set_eq, h.cols r hr]
    simp only [hc, and_true, true_and]
  · rw [if_neg h1, if_neg (fun hh => h1 hh.1)]

theorem Board.grid_ext {N : Nat} {b1 b2 : Board} (h1 : b1.wf N) (h2 : b2.wf N)
    (h : ∀ r, r < N → ∀ c, c < N → b1.cell_at r c = b2.cell_at r c) : b1.board = b2.board := by
  apply List.ext_getElem
  · rw [h1.rows, h2.rows]
  · intro r hr1 hr2
    have hr : r < N := by rw [← h1.rows]; exact hr1
    have c1 := h1.cols r hr
    have c2 := h2.cols r hr
    have e1 : b1.board.getD r [] = b1.board[r] := by
      rw [List.getD_eq_getElem?_getD, List.getElem?_eq_getElem hr1]; rfl
    have e2 : b2.board.getD r [] = b2.board[r] := by
      rw [List.getD_eq_getElem?_getD, List.getElem?_eq_getElem hr2]; rfl
    rw [e1] at c1
    rw [e2] at c2
    apply List.ext_getElem
    · rw [c1, c2]
    · intro c hc1 hc2
      have hc : c < N := by rw [← c1]; exact hc1
      have := h r hr c hc
      unfold Board.cell_at at this
      rw [e1, e2, List.getD_eq_getElem?_getD, List.getD_eq_getElem?_getD,
        List.getElem?_eq_getElem hc1, List.getElem?_eq_getElem hc2] at this
      simpa using this

theorem Board.mem_possible_moves {N : Nat} {b : Board} (h : b.wf N) (j : Nat) :
    j ∈ b.possible_moves ↔ (j < N * N ∧ b.colour_of j = cell.EMPTY) := by
  have key := foldl_range_inv
    (fun (l : List Nat) row =>
      (List.range b.board_size).foldl
        (fun l2 col =>
          if b.cell_at row col = cell.EMPTY then l2 ++ [row * b.board_size + col] else l2)
        l)
    (fun R l => ∀ j, j ∈ l ↔ ∃ row, row < R ∧ ∃ col, col < N ∧ j = row * N + col
      ∧ b.cell_at row col = cell.EMPTY)
    b.board_size [] (fun j => by simp) ?_
  · unfold Board.possible_moves
    rw [key j, h.size]
    constructor
    · rintro ⟨row, hrow, col, hcol, e, he⟩
      rw [e]
      exact ⟨idx_lt hrow hcol, by rw [Board.colour_of_idx h row hcol]; exact he⟩
    · rintro ⟨hj, he⟩
      have hN : 0 < N := by
        rcases Nat.eq_zero_or_pos N with h0 | h0
        · rw [h0] at hj; omega
        · exact h0
      refine ⟨j / N, Nat.div_lt_of_lt_mul hj, j % N, Nat.mod_lt _ hN, ?_, ?_⟩
      · rw [Nat.mul_comm]
        exact (Nat.div_add_mod j N).symm
      · unfold Board.colour_of at he
        rw [h.size] at he
        exact he
  · intro R l hR hI
    have inner := foldl_range_inv
      (fun (l2 : List Nat) col =>
        if b.cell_at R col = cell.EMPTY then l2 ++ [R * b.board_size + col] else l2)
      (fun C l2 => ∀ j, j ∈ l2 ↔ (∃ row, row < R ∧ ∃ col, col < N ∧ j = row * N + col
          ∧ b.cell_at row col = cell.EMPTY)
        ∨ ∃ col, col < C ∧ j = R * N + col ∧ b.cell_at R col = cell.EMPTY)
      b.board_size l (fun j => by rw [hI j]; simp) ?_
    · intro j
      rw [inner j, h.size]
      constructor
      · rintro (⟨row, hrow, rest⟩ | ⟨col, hcol, e, he⟩)
        · exact ⟨row, by omega, rest⟩
        · exact ⟨R, by omega, col, hcol, e, he⟩
      · rintro ⟨row, hrow, col, hcol, e, he⟩
        by_cases hr : row = R
        · subst hr
          exact Or.inr ⟨col, hcol, e, he⟩
        · exact Or.inl ⟨row, by omega, col, hcol, e, he⟩
    · intro C l2 hC hJ j
      show j ∈ (if b.cell_at R C = cell.EMPTY then l2 ++ [R * b.board_size + C] else l2) ↔ _
      by_cases he : b.cell_at R C = cell.EMPTY
      · rw [if_pos he, List.mem_append, List.mem_singleton, hJ j, h.size]
        constructor
        · rintro ((h1 | ⟨col, hcol, e, he'⟩) | e)
          · exact Or.inl h1
          · exact Or.inr ⟨col, by omega, e, he'⟩
          · exact Or.inr ⟨C, by omega, e, he⟩
        · rintro (h1 | ⟨col, hcol, e, he'⟩)
          · exact Or.inl (Or.inl h1)
          · by_cases hcC : col = C
            · subst hcC
              exact Or.inr e
            · exact Or.inl (Or.inr ⟨col, by omega, e, he'⟩)
      · rw [if_neg he, hJ j]
        constructor
        · rintro (h1 | ⟨col, hcol, e, he'⟩)
          · exact Or.inl h1
          · exact Or.inr ⟨col, by omega, e, he'⟩
        · rintro (h1 | ⟨col, hcol, e, he'⟩)
          · exact Or.inl h1
          · by_cases hcC : col = C
            · subst hcC
              exact absurd he' he
            · exact Or.inr ⟨col, by omega, e, he'⟩

theorem div_mod_iff {N m r c : Nat} (hc : c < N) : (r = m / N ∧ c = m % N) ↔ m = r * N + c := by
  constructor
  · rintro ⟨h1, h2⟩
    rw [h1, h2, Nat.mul_comm]
    exact (Nat.div_add_mod m N).symm
  · intro h
    rw [h, idx_div hc, idx_mod hc]
    exact ⟨rfl, rfl⟩

theorem Placed.none_placed {N : Nat} {b : Board} (h : b.wf N) (moves : List Nat) (v : cell) :
    Placed N b moves 0 v b :=
  ⟨h, rfl, fun r _ c _ => by simp⟩

theorem Placed.place_next {N : Nat} {b0 b : Board} {moves : List Nat} {k : Nat} {v : cell}
    (h : Placed N b0 moves k v b) (hm : moves.getD k 0 < N * N) :
    Placed N b0 moves (k + 1) v
      (b.set_cell (moves.getD k 0 / N) (moves.getD k 0 % N) v) := by
  have hN : 0 < N := by
    rcases Nat.eq_zero_or_pos N with h0 | h0
    · rw [h0] at hm; omega
    · exact h0
  refine ⟨h.wf.set_cell _ _ _, h.current, fun r hr c hc => ?_⟩
  rw [Board.cell_at_set_cell h.wf (Nat.div_lt_of_lt_mul hm) (Nat.mod_lt _ hN), h.cells r hr c hc]
  by_cases h1 : moves.getD k 0 = r * N + c
  · rw [if_pos ((div_mod_iff hc).2 h1), if_pos ⟨k, Nat.lt_succ_self k, h1⟩]
  · rw [if_neg (fun hh => h1 ((div_mod_iff hc).1 hh))]
    by_cases h2 : ∃ j, j < k ∧ moves.getD j 0 = r * N + c
    · obtain ⟨j, hj, e⟩ := h2
      rw [if_pos ⟨j, hj, e⟩, if_pos ⟨j, by omega, e⟩]
    · rw [if_neg h2, if_neg]
      rintro ⟨j, hj, e⟩
      by_cases hjk : j = k
      · exact h1 (hjk ▸ e)
      · exact h2 ⟨j, by omega, e⟩

theorem Placed.frame {N : Nat} {b0 b b' : Board} {moves : List Nat} {k : Nat} {v : cell}
    (h : Placed N b0 moves k v b) (hf : Frame b b')
    (hn : NLwf (N * N) b'.node_list) : Placed N b0 moves k v b' := by
  refine ⟨⟨by rw [hf.size, h.wf.size], by rw [hf.graph, h.wf.graph], hn,
    by rw [hf.board, h.wf.rows], fun r hr => by rw [hf.board]; exact h.wf.cols r hr⟩,
    by rw [hf.current, h.current], fun r hr c hc => ?_⟩
  have := h.cells r hr c hc
  unfold Board.cell_at at this ⊢
  rw [hf.board]
  exact this

theorem Placed.undo {N : Nat} {b0 b : Board} {moves : List Nat} {k : Nat} {v : cell}
    (h0 : b0.wf N) (h : Placed N b0 moves k v b)
    (hm : ∀ j, j < k → moves.getD j 0 < N * N ∧ b0.colour_of (moves.getD j 0) = cell.EMPTY) :
    (b.undo_moves moves k).wf N ∧ (b.undo_moves moves k).board = b0.board
      ∧ (b.undo_moves moves k).current_player = b0.current_player := by
  have key := foldl_range_inv
    (fun (s : Board) j => s.set_cell (moves.getD j 0 / s.board_size)
      (moves.getD j 0 % s.board_size) cell.EMPTY)
    (fun J s => s.wf N ∧ s.current_player = b0.current_player
      ∧ ∀ r, r < N → ∀ c, c < N → s.cell_at r c
          = if ∃ j, j < J ∧ moves.getD j 0 = r * N + c then cell.EMPTY else b.cell_at r c)
    k b ⟨h.wf, h.current, fun r _ c _ => by simp⟩ ?_
  · obtain ⟨hwf, hcur, hcells⟩ := key
    refine ⟨hwf, Board.grid_ext hwf h0 (fun r hr c hc => ?_), hcur⟩
    have e := hcells r hr c hc
    unfold Board.undo_moves
    rw [e, h.cells r hr c hc]
    by_cases h2 : ∃ j, j < k ∧ moves.getD j 0 = r * N + c
    · rw [if_pos h2]
      obtain ⟨j, hj, e2⟩ := h2
      have := (hm j hj).2
      rw [e2, Board.colour_of_idx h0 r hc] at this
      exact this.symm
    · rw [if_neg h2, if_neg h2]
  · intro J s hJ hI
    obtain ⟨hwf, hcur, hcells⟩ := hI
    have hmJ := (hm J hJ).1
    have hN : 0 < N := by
      rcases Nat.eq_zero_or_pos N with h0' | h0'
      · rw [h0'] at hmJ; omega
      · exact h0'
    refine ⟨hwf.set_cell _ _ _, hcur, fun r hr c hc => ?_⟩
    show (s.set_cell (moves.getD J 0 / s.board_size) (moves.getD J 0 % s.board_size)
      cell.EMPTY).cell_at r c = _
    rw [hwf.size, Board.cell_at_set_cell hwf (Nat.div_lt_of_lt_mul hmJ) (Nat.mod_lt _ hN),
      hcells r hr c hc]
    by_cases h1 : moves.getD J 0 = r * N + c
    · rw [if_pos ((div_mod_iff hc).2 h1), if_pos ⟨J, Nat.lt_succ_self J, h1⟩]
    · rw [if_neg (fun hh => h1 ((div_mod_iff hc).1 hh))]
      by_cases h2 : ∃ j, j < J ∧ moves.getD j 0 = r * N + c
      · obtain ⟨j, hj, e⟩ := h2
        rw [if_pos ⟨j, hj, e⟩, if_pos ⟨j, by omega, e⟩]
      · rw [if_neg h2, if_neg]
        rintro ⟨j, hj, e⟩
        by_cases hjk : j = J
        · exact h1 (hjk ▸ e)
        · exact h2 ⟨j, by omega, e⟩

theorem PassDone.nodes_wf {N : Nat} {b b' : Board} {start : Nat} (h : b.wf N)
    (hd : PassDone b start b') : NLwf (N * N) b'.node_list := by
  have := hd.wf
  rw [h.size] at this
  exact this

theorem Board.ai_place_spec {N : Nat} {b0 : Board} (h0 : b0.wf N) {fuel : Nat}
    (hfuel : N * N < fuel) (player_num : Nat) (moves : List Nat) (first : Nat) :
    ∀ (cnt k : Nat) (b : Board) (num_wins : List Nat),
      Placed N b0 moves k b0.current_player.color b →
      (∀ j, j < k + cnt → moves.getD j 0 < N * N
        ∧ b0.colour_of (moves.getD j 0) = cell.EMPTY) →
      ∃ win b' nw', Board.ai_place fuel player_num moves first cnt k b num_wins
          = Except.ok (win, b', nw')
        ∧ (win = true → b'.wf N ∧ b'.board = b0.board
            ∧ b'.current_player = b0.current_player
            ∧ nw' = num_wins.set first (num_wins.getD first 0 + 1))
        ∧ (win = false → Placed N b0 moves (k + cnt) b0.current_player.color b'
            ∧ nw' = num_wins) := by
  intro cnt
  induction cnt with
  | zero =>
    intro k b nw hP _
    exact ⟨false, b, nw, rfl, fun h => absurd h (by decide), fun _ => ⟨hP, rfl⟩⟩
  | succ cnt ih =>
    intro k b nw hP hm
    have hmk := (hm k (by omega)).1
    have hN : 0 < N := by
      rcases Nat.eq_zero_or_pos N with h0' | h0'
      · rw [h0'] at hmk; omega
      · exact h0'
    have hrow : moves.getD k 0 / N < N := Nat.div_lt_of_lt_mul hmk
    have hcol : moves.getD k 0 % N < N := Nat.mod_lt _ hN
    have hP1 := hP.place_next hmk
    have hown : (b.set_cell (moves.getD k 0 / N) (moves.getD k 0 % N)
        b0.current_player.color).cell_at (moves.getD k 0 / N) (moves.getD k 0 % N)
        = (b.set_cell (moves.getD k 0 / N) (moves.getD k 0 % N)
            b0.current_player.color).current_player.color := by
      rw [Board.cell_at_set_cell hP.wf hrow hcol, if_pos ⟨rfl, rfl⟩]
      show _ = b.current_player.color
      rw [hP.current]
    obtain ⟨b2, hw, hd, _, _⟩ := hP1.wf.winning_move_spec hrow hcol hown hfuel player_num
    have hP2 := hP1.frame hd.frame (hd.nodes_wf hP1.wf)
    rw [Board.ai_place]
    simp only [hP.wf.size, hP.current, hw]
    by_cases hwin : (if player_num = 0 then b2.horizontal_path else b2.vertical_path) = true
    · rw [if_pos hwin]
      have hu := hP2.undo h0 (fun j hj => hm j (by omega))
      exact ⟨true, _, _, rfl, fun _ => ⟨hu.1, hu.2.1, hu.2.2, rfl⟩, fun h => absurd h (by decide)⟩
    · rw [if_neg hwin]
      obtain ⟨win, b', nw', hrun, ht, hf⟩ := ih (k + 1) b2 nw hP2
        (fun j hj => hm j (by omega))
      refine ⟨win, b', nw', hrun, ht, fun hfalse => ?_⟩
      have := hf hfalse
      rw [show k + 1 + cnt = k + (cnt + 1) by omega] at this
      exact this

theorem Board.ai_trial_spec {N : Nat} {b : Board} (h : b.wf N) {fuel : Nat}
    (hfuel : N * N < fuel) (shuffle : Nat → List Nat → List Nat) (player_num : Nat)
    (orig : List Nat) (i : Nat) (num_wins : List Nat)
    (horig : ∀ m, m ∈ orig → m < N * N ∧ b.colour_of m = cell.EMPTY)
    (hperm : (shuffle i orig).Perm orig) :
    ∃ b' nw', Board.ai_trial fuel shuffle player_num orig i (b, num_wins) = Except.ok (b', nw')
      ∧ b'.wf N ∧ b'.board = b.board ∧ b'.current_player = b.current_player
      ∧ (nw' = num_wins
        ∨ nw' = num_wins.set ((shuffle i orig).getD 0 0)
            (num_wins.getD ((shuffle i orig).getD 0 0) 0 + 1)) := by
  have hm : ∀ j, j < 0 + ((shuffle i orig).length + 1) / 2 →
      (shuffle i orig).getD j 0 < N * N
        ∧ b.colour_of ((shuffle i orig).getD j 0) = cell.EMPTY := by
    intro j hj
    have hjl : j < (shuffle i orig).length := by omega
    apply horig
    apply hperm.subset
    rw [List.getD_eq_getElem?_getD, List.getElem?_eq_getElem hjl]
    exact List.getElem_mem _
  obtain ⟨win, b1, nw1, hrun, ht, hf⟩ := Board.ai_place_spec h hfuel player_num
    (shuffle i orig) ((shuffle i orig).getD 0 0) (((shuffle i orig).length + 1) / 2) 0 b
    num_wins (Placed.none_placed h _ _) hm
  unfold Board.ai_trial
  simp only [hrun]
  cases win with
  | true =>
    obtain ⟨h1, h2, h3, h4⟩ := ht rfl
    exact ⟨b1, nw1, by simp, h1, h2, h3, Or.inr h4⟩
  | false =>
    obtain ⟨hP, h4⟩ := hf rfl
    rw [Nat.zero_add] at hP
    have hu := hP.undo h (fun j hj => hm j (by omega))
    exact ⟨_, nw1, by simp, hu.1, hu.2.1, hu.2.2, Or.inl h4⟩

theorem getD_append_singleton (pre : List Nat) (y i : Nat) :
    (pre ++ [y]).getD i 0 = if i < pre.length then pre.getD i 0 else if i = pre.length then y
      else 0 := by
  simp only [List.getD_eq_getElem?_getD]
  by_cases h1 : i < pre.length
  · rw [if_pos h1, List.getElem?_append_left h1]
  · rw [if_neg h1, List.getElem?_append_right (by omega)]
    by_cases h2 : i = pre.length
    · rw [if_pos h2, h2]
      simp
    · rw [if_neg h2, List.getElem?_eq_none (by simp; omega)]
      rfl

theorem max_element_fold (rest : List Nat) :
    ∀ (pre : List Nat) (st : Nat × Nat × Nat),
      (st.2.2 = pre.length ∧ st.1 < st.2.2 ∧ pre.getD st.1 0 = st.2.1
        ∧ (∀ i, i < st.2.2 → pre.getD i 0 ≤ st.2.1) ∧ (∀ i, i < st.1 → pre.getD i 0 < st.2.1)) →
      let res := rest.foldl
        (fun (st : Nat × Nat × Nat) y =>
          if st.2.1 < y then (st.2.2, y, st.2.2 + 1) else (st.1, st.2.1, st.2.2 + 1))
        st
      (res.1 < (pre ++ rest).length
        ∧ (∀ i, i < (pre ++ rest).length → (pre ++ rest).getD i 0 ≤ (pre ++ rest).getD res.1 0)
        ∧ (∀ i, i < res.1 → (pre ++ rest).getD i 0 < (pre ++ rest).getD res.1 0)) := by
  induction rest with
  | nil =>
    intro pre st h
    obtain ⟨h1, h2, h3, h4, h5⟩ := h
    simp only [List.foldl_nil, List.append_nil]
    rw [h3, ← h1]
    exact ⟨h2, h4, h5⟩
  | cons y ys ih =>
    intro pre st h
    obtain ⟨h1, h2, h3, h4, h5⟩ := h
    simp only [List.foldl_cons]
    have e : pre ++ y :: ys = (pre ++ [y]) ++ ys := by simp
    rw [e]
    apply ih (pre ++ [y])
    by_cases hy : st.2.1 < y
    · rw [if_pos hy]
      refine ⟨by simp [h1], by simp, ?_, fun i hi => ?_, fun i hi => ?_⟩
      · show (pre ++ [y]).getD st.2.2 0 = y
        rw [getD_append_singleton, h1]
        simp
      · show (pre ++ [y]).getD i 0 ≤ y
        have hi' : i < st.2.2 + 1 := hi
        rw [getD_append_singleton]
        by_cases hip : i < pre.length
        · rw [if_pos hip]
          have := h4 i (by omega)
          omega
        · rw [if_neg hip, if_pos (by omega)]
      · show (pre ++ [y]).getD i 0 < y
        have hi' : i < st.2.2 := hi
        rw [getD_append_singleton, if_pos (by omega)]
        have := h4 i hi'
        omega
    · rw [if_neg hy]
      refine ⟨by simp [h1], by show st.1 < st.2.2 + 1; omega, ?_, fun i hi => ?_,
        fun i hi => ?_⟩
      · show (pre ++ [y]).getD st.1 0 = st.2.1
        rw [getD_append_singleton, if_pos (by omega)]
        exact h3
      · show (pre ++ [y]).getD i 0 ≤ st.2.1
        have hi' : i < st.2.2 + 1 := hi
        rw [getD_append_singleton]
        by_cases hip : i < pre.length
        · rw [if_pos hip]
          exact h4 i (by omega)
        · rw [if_neg hip, if_pos (by omega)]
          omega
      · show (pre ++ [y]).getD i 0 < st.2.1
        have hi' : i < st.1 := hi
        rw [getD_append_singleton, if_pos (by omega)]
        exact h5 i hi'

theorem max_element_spec {l : List Nat} (hl : l ≠ []) :
    max_element l < l.length
      ∧ (∀ i, i < l.length → l.getD i 0 ≤ l.getD (max_element l) 0)
      ∧ (∀ i, i < max_element l → l.getD i 0 < l.getD (max_element l) 0) := by
  cases l with
  | nil => exact absurd rfl hl
  | cons x rest =>
    have := max_element_fold rest [x] (0, x, 1)
      ⟨rfl, Nat.zero_lt_one, rfl, fun i hi => by
        have hi' : i < 1 := hi
        have : i = 0 := by omega
        rw [this]
        exact le_refl _, fun i hi => absurd hi (Nat.not_lt_zero i)⟩
    exact this

theorem Board.ai_trials_spec {N : Nat} {b : Board} (h : b.wf N) {fuel : Nat}
    (hfuel : N * N < fuel) (shuffle : Nat → List Nat → List Nat) (player_num : Nat)
    (hperm : ∀ i, (shuffle i b.possible_moves).Perm b.possible_moves) :
    ∃ s, b.ai_trials fuel shuffle player_num = Except.ok s ∧ TInv N b s := by
  unfold Board.ai_trials
  refine for_loop_inv _ (fun _ s => TInv N b s) _ _ ?_ ?_
  · refine ⟨h, rfl, rfl, by simp [h.size], fun i hi => ?_⟩
    exfalso
    apply hi
    simp only [List.getD_eq_getElem?_getD, List.getElem?_replicate]
    split <;> rfl
  · intro k s hk hI
    have hlen : 0 < b.possible_moves.length := by
      rcases Nat.eq_zero_or_pos b.possible_moves.length with h0 | h0
      · rw [h0] at hk; omega
      · exact h0
    have hcol : ∀ m, s.1.colour_of m = b.colour_of m := by
      intro m
      unfold Board.colour_of Board.cell_at
      rw [hI.board, hI.wf.size, h.size]
    obtain ⟨b', nw', hrun, h1, h2, h3, h4⟩ := Board.ai_trial_spec hI.wf hfuel shuffle player_num
      b.possible_moves k s.2
      (fun m hm => by rw [hcol]; exact (Board.mem_possible_moves h m).1 hm) (hperm k)
    refine ⟨(b', nw'), hrun, h1, by rw [h2, hI.board], by rw [h3, hI.current], ?_, ?_⟩
    · rcases h4 with e | e
      · rw [e]; exact hI.len
      · rw [e, List.length_set]; exact hI.len
    · intro i hi
      rcases h4 with e | e
      · rw [e] at hi; exact hI.wins i hi
      · have hi' : nw'.getD i 0 ≠ 0 := hi
        rw [e, getD_set_eq] at hi'
        by_cases hif : i = (shuffle k b.possible_moves).getD 0 0
        · rw [hif]
          apply (hperm k).subset
          have hl : 0 < (shuffle k b.possible_moves).length := by
            rw [(hperm k).length_eq]; exact hlen
          rw [List.getD_eq_getElem?_getD, List.getElem?_eq_getElem hl]
          exact List.getElem_mem _
        · rw [if_neg (fun hh => hif hh.1)] at hi'
          exact hI.wins i hi'

theorem taken_board_wf : taken_board.wf 2 :=
  ((((Board.new_wf 2 _ _).turn_of _).place _ _).place _ _)

theorem for_loop_stable {σ : Type} (body : Nat → σ → Except Err σ) (n : Nat) (s0 s1 : σ)
    (h0 : body 0 s0 = Except.ok s1) (h1 : ∀ i, body i s1 = Except.ok s1) (hn : 0 < n) :
    for_loop n body s0 = Except.ok s1 := by
  obtain ⟨t, hrun, hI⟩ := for_loop_inv body
    (fun k s => (k = 0 ∧ s = s0) ∨ (0 < k ∧ s = s1)) n s0 (Or.inl ⟨rfl, rfl⟩)
    (fun k t _ hI => by
      rcases hI with ⟨hk, ht⟩ | ⟨_, ht⟩
      · rw [hk, ht]
        exact ⟨s1, h0, Or.inr ⟨Nat.zero_lt_one, rfl⟩⟩
      · rw [ht]
        exact ⟨s1, h1 k, Or.inr ⟨Nat.succ_pos k, rfl⟩⟩)
  rcases hI with ⟨hk, _⟩ | ⟨_, ht⟩
  · omega
  · rw [hrun, ht]

theorem toOption_eq_some {α : Type} {x : Except Err α} {a : α} (h : x.toOption = some a) :
    x = Except.ok a := by
  cases x with
  | error e => simp [Except.toOption] at h
  | ok v =>
    simp only [Except.toOption, Option.some.injEq] at h
    rw [h]

set_option maxRecDepth 1000000

theorem taken_board_first_trial :
    (Board.ai_trial 5 (fun _ l => l) 0 taken_board.possible_moves 0
      (taken_board, List.replicate 4 0)).toOption = some taken_board_after := by
  decide

theorem taken_board_next_trial :
    (Board.ai_trial 5 (fun _ l => l) 0 taken_board.possible_moves 0
      taken_board_after).toOption = some taken_board_after := by
  decide

theorem Board.ai_trial_fixed_shuffle (fuel player_num : Nat) (orig : List Nat) (i : Nat)
    (s : Board × List Nat) :
    Board.ai_trial fuel (fun _ l => l) player_num orig i s
      = Board.ai_trial fuel (fun _ l => l) player_num orig 0 s := rfl

theorem taken_board_ai_trials :
    taken_board.ai_trials 5 (fun _ l => l) 0 = Except.ok taken_board_after := by
  unfold Board.ai_trials
  exact for_loop_stable _ _ _ _ (toOption_eq_some taken_board_first_trial)
    (fun i => by
      rw [Board.ai_trial_fixed_shuffle]
      exact toOption_eq_some taken_board_next_trial)
    (by decide)

theorem Board.ai_move_of_trials {b : Board} {fuel player_num : Nat}
    {shuffle : Nat → List Nat → List Nat} {s : Board × List Nat}
    (h : b.ai_trials fuel shuffle player_num = Except.ok s) :
    b.ai_move fuel shuffle player_num = Except.ok (max_element s.2, s.1) := by
  unfold Board.ai_move
  rw [h]

theorem chosen_ok (mv : Nat) (b : Board) : chosen (Except.ok (mv, b)) = some mv := rfl

theorem taken_board_after_max : max_element taken_board_after.2 = 0 := by
  decide

theorem column_board_connects_vertically :
    verdict (column_board.winning_move 17 2 1 1) = some true
      ∧ verdict (column_board.winning_move 17 2 1 0) = some false := by
  decide

theorem empty_board_wf : empty_board.wf 2 :=
  (Board.new_wf 2 _ _).turn_of _

theorem Board.wf.ai_move_lt {N : Nat} {b : Board} (h : b.wf N) (hN : 1 ≤ N) {fuel : Nat}
    (hfuel : N * N < fuel) (shuffle : Nat → List Nat → List Nat) (player_num : Nat)
    (hperm : ∀ i, (shuffle i b.possible_moves).Perm b.possible_moves) :
    ∃ mv b', b.ai_move fuel shuffle player_num = Except.ok (mv, b') ∧ mv < N * N := by
  obtain ⟨s, hrun, hI⟩ := Board.ai_trials_spec h hfuel shuffle player_num hperm
  have hpos : 0 < N * N := Nat.mul_pos hN hN
  have hne : s.2 ≠ [] := by
    intro e
    have := hI.len
    rw [e] at this
    simp only [List.length_nil] at this
    omega
  have hlt := (max_element_spec hne).1
  rw [hI.len] at hlt
  exact ⟨max_element s.2, s.1, Board.ai_move_of_trials hrun, hlt⟩

theorem NodeList.get_min_of_nonneg {nl : NodeList} {m : Nat} {rest : List Nat}
    (ho : nl.open_set = m :: rest) (hd : 0 ≤ (nl.nth m).distance) :
    nl.get_min_from_open_set = Except.ok (m, nl.after_min m rest) := by
  have hlt : Node.lt (nl.nth m) (Node.new2 0 0 0) = false := by
    unfold Node.lt Node.new2
    simp only
    split
    · simp
    · simp only [decide_eq_false_iff_not, not_lt]
      omega
  unfold NodeList.get_min_from_open_set
  simp only [ho, set_lower_bound, hlt]
  simp [NodeList.after_min, NodeList.put, ho]

theorem Node.lt_iff (a b : Node) :
    Node.lt a b = true
      ↔ (a.distance < b.distance ∨ (a.distance = b.distance ∧ a.node_index < b.node_index)) := by
  unfold Node.lt
  split
  · rename_i h
    simp only [decide_eq_true_eq]
    constructor
    · intro h1
      exact Or.inr ⟨h, h1⟩
    · rintro (h1 | h1)
      · omega
      · exact h1.2
  · rename_i h
    simp only [decide_eq_true_eq]
    constructor
    · intro h1
      exact Or.inl h1
    · rintro (h1 | h1)
      · exact h1
      · exact absurd h1.1 h


theorem Board.place_moves_succ (b : Board) (moves : List Nat) (k : Nat) :
    b.place_moves moves (k + 1)
      = (b.place_moves moves k).set_cell
          (moves.getD k 0 / (b.place_moves moves k).board_size)
          (moves.getD k 0 % (b.place_moves moves k).board_size)
          (b.place_moves moves k).current_player.color := by
  unfold Board.place_moves
  rw [List.range_succ, List.foldl_append]
  rfl

theorem Placed.place_moves {N : Nat} {b : Board} (h : b.wf N) (moves : List Nat) :
    ∀ k, (∀ j, j < k → moves.getD j 0 < N * N) →
      Placed N b moves k b.current_player.color (b.place_moves moves k) := by
  intro k
  induction k with
  | zero => intro _; exact Placed.none_placed h _ _
  | succ k ih =>
    intro hm
    have hP := ih (fun j hj => hm j (by omega))
    rw [Board.place_moves_succ, hP.wf.size, hP.current]
    exact hP.place_next (hm k (by omega))

theorem Board.verdict_congr {N : Nat} {b1 b2 : Board} (h1 : b1.wf N) (h2 : b2.wf N)
    (hboard : b1.board = b2.board) (hcur : b1.current_player = b2.current_player)
    {row col fuel : Nat} (hrow : row < N) (hcol : col < N)
    (hown : b1.cell_at row col = b1.current_player.color) (hfuel : N * N < fuel)
    (player_num : Nat) :
    ∃ win b1' b2', b1.winning_move fuel row col player_num = Except.ok (win, b1')
      ∧ b2.winning_move fuel row col player_num = Except.ok (win, b2') := by
  have hown2 : b2.cell_at row col = b2.current_player.color := by
    unfold Board.cell_at at hown ⊢
    rw [← hboard, ← hcur]
    exact hown
  have hcol_of : ∀ j, b1.colour_of j = b2.colour_of j := by
    intro j
    unfold Board.colour_of Board.cell_at
    rw [hboard, h1.size, h2.size]
  obtain ⟨b1', hw1, _, hs1, hi1⟩ := h1.winning_move_spec hrow hcol hown hfuel player_num
  obtain ⟨b2', hw2, _, hs2, hi2⟩ := h2.winning_move_spec hrow hcol hown2 hfuel player_num
  have hcl : ∀ j, j < N * N →
      (b1'.node_list.set_type j = set_t.CLOSED ↔ b2'.node_list.set_type j = set_t.CLOSED) := by
    intro j hj
    rw [hi1 j hj, hi2 j hj, hcur]
    have e : b1.colour_of = b2.colour_of := funext hcol_of
    rw [e]
  have hN : 0 < N := by omega
  have hh : b1'.horizontal_path = b2'.horizontal_path := by
    apply Bool.eq_iff_iff.2
    rw [Board.horizontal_path_iff, Board.horizontal_path_iff, hs1, hs2]
    constructor
    · rintro ⟨⟨r1, hr1, ht1⟩, ⟨r2, hr2, ht2⟩⟩
      exact ⟨⟨r1, hr1, (hcl _ (idx_lt hr1 hN)).1 ht1⟩,
        ⟨r2, hr2, (hcl _ (idx_lt hr2 (by omega))).1 ht2⟩⟩
    · rintro ⟨⟨r1, hr1, ht1⟩, ⟨r2, hr2, ht2⟩⟩
      exact ⟨⟨r1, hr1, (hcl _ (idx_lt hr1 hN)).2 ht1⟩,
        ⟨r2, hr2, (hcl _ (idx_lt hr2 (by omega))).2 ht2⟩⟩
  have hv : b1'.vertical_path = b2'.vertical_path := by
    apply Bool.eq_iff_iff.2
    rw [Board.vertical_path_iff, Board.vertical_path_iff, hs1, hs2]
    constructor
    · rintro ⟨⟨c1, hc1, ht1⟩, ⟨c2, hc2, ht2⟩⟩
      exact ⟨⟨c1, hc1, (hcl _ (idx_lt hN hc1)).1 ht1⟩,
        ⟨c2, hc2, (hcl _ (idx_lt (by omega) hc2)).1 ht2⟩⟩
    · rintro ⟨⟨c1, hc1, ht1⟩, ⟨c2, hc2, ht2⟩⟩
      exact ⟨⟨c1, hc1, (hcl _ (idx_lt hN hc1)).2 ht1⟩,
        ⟨c2, hc2, (hcl _ (idx_lt (by omega) hc2)).2 ht2⟩⟩
  refine ⟨_, b1', b2', hw1, ?_⟩
  rw [hw2, hh, hv]

theorem verdict_ok (win : Bool) (b : Board) : verdict (Except.ok (win, b)) = some win := rfl

theorem Board.ai_place_wins {N : Nat} {b0 : Board} (h0 : b0.wf N) {fuel : Nat}
    (hfuel : N * N < fuel) (player_num : Nat) (moves : List Nat) (first : Nat) :
    ∀ (cnt k : Nat) (b : Board) (num_wins : List Nat),
      Placed N b0 moves k b0.current_player.color b →
      (∀ j, j < k + cnt → moves.getD j 0 < N * N
        ∧ b0.colour_of (moves.getD j 0) = cell.EMPTY) →
      ∃ win b' nw', Board.ai_place fuel player_num moves first cnt k b num_wins
          = Except.ok (win, b', nw')
        ∧ (win = true
            ↔ ∃ j, k ≤ j ∧ j < k + cnt ∧ b0.placement_wins fuel player_num moves j) := by
  intro cnt
  induction cnt with
  | zero =>
    intro k b nw _ _
    refine ⟨false, b, nw, rfl, ?_⟩
    constructor
    · intro h
      exact absurd h (by decide)
    · rintro ⟨j, h1, h2, _⟩
      omega
  | succ cnt ih =>
    intro k b nw hP hm
    have hmk := (hm k (by omega)).1
    have hN : 0 < N := by
      rcases Nat.eq_zero_or_pos N with h0' | h0'
      · rw [h0'] at hmk; omega
      · exact h0'
    have hrow : moves.getD k 0 / N < N := Nat.div_lt_of_lt_mul hmk
    have hcol : moves.getD k 0 % N < N := Nat.mod_lt _ hN
    have hP1 := hP.place_next hmk
    have hPr := Placed.place_moves h0 moves (k + 1) (fun j hj => (hm j (by omega)).1)
    have hown : (b.set_cell (moves.getD k 0 / N) (moves.getD k 0 % N)
        b0.current_player.color).cell_at (moves.getD k 0 / N) (moves.getD k 0 % N)
        = (b.set_cell (moves.getD k 0 / N) (moves.getD k 0 % N)
            b0.current_player.color).current_player.color := by
      rw [Board.cell_at_set_cell hP.wf hrow hcol, if_pos ⟨rfl, rfl⟩]
      show _ = b.current_player.color
      rw [hP.current]
    obtain ⟨b2, hw, hd, _, _⟩ := hP1.wf.winning_move_spec hrow hcol hown hfuel player_num
    have hP2 := hP1.frame hd.frame (hd.nodes_wf hP1.wf)
    have hgrid : (b.set_cell (moves.getD k 0 / N) (moves.getD k 0 % N)
        b0.current_player.color).board = (b0.place_moves moves (k + 1)).board :=
      Board.grid_ext hP1.wf hPr.wf (fun r hr c hc => by
        rw [hP1.cells r hr c hc, hPr.cells r hr c hc])
    obtain ⟨win, x, y, hx, hy⟩ := Board.verdict_congr hP1.wf hPr.wf hgrid
      (by rw [hP1.current, hPr.current]) hrow hcol hown hfuel player_num
    have hwin : (if player_num = 0 then b2.horizontal_path else b2.vertical_path) = win := by
      have := hw.symm.trans hx
      simp only [Except.ok.injEq, Prod.mk.injEq] at this
      exact this.1
    have hWk : b0.placement_wins fuel player_num moves k ↔ win = true := by
      unfold Board.placement_wins
      rw [h0.size, hy, verdict_ok]
      simp
    rw [Board.ai_place]
    simp only [hP.wf.size, hP.current, hw, hwin]
    by_cases hwt : win = true
    · rw [if_pos hwt]
      exact ⟨true, _, _, rfl, fun _ => ⟨k, le_refl _, by omega, hWk.2 hwt⟩, fun _ => rfl⟩
    · rw [if_neg hwt]
      obtain ⟨win', b', nw', hrun, hiff⟩ := ih (k + 1) b2 nw hP2 (fun j hj => hm j (by omega))
      refine ⟨win', b', nw', hrun, hiff.trans ?_⟩
      constructor
      · rintro ⟨j, h1, h2, h3⟩
        exact ⟨j, by omega, by omega, h3⟩
      · rintro ⟨j, h1, h2, h3⟩
        have hjk : j ≠ k := fun e => hwt (hWk.1 (e ▸ h3))
        exact ⟨j, by omega, by omega, h3⟩


theorem lattice_adjacent_symm {n a b : Nat} (h : lattice_adjacent n a b) :
    lattice_adjacent n b a := by
  obtain ⟨ha, hb, ho⟩ := h
  refine ⟨hb, ha, ?_⟩
  unfold hex_offset at *
  omega

theorem colour_reachable.trans {n : Nat} {owner : Nat → cell} {c : cell} {s x y : Nat}
    (h1 : colour_reachable n owner c s x) (h2 : colour_reachable n owner c x y) :
    colour_reachable n owner c s y := by
  induction h2 with
  | start _ => exact h1
  | step _ hadj hc ih => exact colour_reachable.step ih hadj hc

theorem colour_reachable.symm {n : Nat} {owner : Nat → cell} {c : cell} {s x : Nat}
    (h : colour_reachable n owner c s x) : colour_reachable n owner c x s := by
  induction h with
  | start h0 => exact colour_reachable.start h0
  | step hsx hadj hc ih =>
    exact (colour_reachable.step (colour_reachable.start hc) (lattice_adjacent_symm hadj)
      hsx.owned).trans ih

theorem colour_reachable.split {n : Nat} {own0 own1 : Nat → cell} {c : cell} {x a j : Nat}
    (hown : ∀ y, y ≠ x → own1 y = own0 y) (h : colour_reachable n own1 c a j) :
    colour_reachable n own0 c a j ∨ colour_reachable n own1 c a x := by
  induction h with
  | start h0 =>
    by_cases hax : a = x
    · right
      rw [← hax]
      exact colour_reachable.start h0
    · left
      exact colour_reachable.start (by rw [← hown a hax]; exact h0)
  | step hprev hadj hc ih =>
    rename_i y z
    rcases ih with h0 | h1
    · by_cases hzx : z = x
      · right
        rw [← hzx]
        exact colour_reachable.step hprev hadj hc
      · left
        exact colour_reachable.step h0 hadj (by rw [← hown z hzx]; exact hc)
    · exact Or.inr h1

theorem Board.colour_of_set_cell {N : Nat} {b : Board} (h : b.wf N) {row col : Nat}
    (hr : row < N) (hc : col < N) (v : cell) (j : Nat) :
    (b.set_cell row col v).colour_of j = if j = row * N + col then v else b.colour_of j := by
  unfold Board.colour_of
  rw [Board.cell_at_set_cell h hr hc]
  have hs : (b.set_cell row col v).board_size = N := h.size
  rw [hs, h.size]
  by_cases hj : j = row * N + col
  · rw [if_pos hj, if_pos]
    have := (div_mod_iff hc).2 hj
    exact ⟨this.1.symm, this.2.symm⟩
  · rw [if_neg hj, if_neg]
    rintro ⟨h1, h2⟩
    exact hj ((div_mod_iff hc).1 ⟨h1.symm, h2.symm⟩)

theorem not_sides_connected_of_unowned {N : Nat} {owner : Nat → cell} {c : cell}
    {player_num : Nat} (h : ∀ v, v < N → owner (second_edge N player_num v) ≠ c) :
    ¬ sides_connected N owner c player_num := by
  rintro ⟨u, v, _, hv, hr⟩
  exact h v hv hr.owned

theorem frontier_example_wf : NLwf 3 frontier_example :=
  ⟨rfl, rfl, by decide⟩

theorem for_loop_succ {σ : Type} (n : Nat) (body : Nat → σ → Except Err σ) (s : σ) :
    for_loop (n + 1) body s
      = match for_loop n body s with
        | Except.ok t => body n t
        | Except.error e => Except.error e := by
  unfold for_loop
  rw [List.range_succ, List.foldlM_append]
  cases h : List.foldlM (fun s i => body i s) s (List.range n) with
  | error e => rfl
  | ok t =>
    show (Except.ok t >>= fun s' => List.foldlM (fun s i => body i s) s' [n]) = body n t
    simp only [List.foldlM_cons, List.foldlM_nil]
    show (body n t >>= fun s' => pure s') = body n t
    cases body n t <;> rfl

theorem for_loop_map {σ τ : Type} (f : σ → τ) (body1 : Nat → σ → Except Err σ)
    (body2 : Nat → τ → Except Err τ)
    (h : ∀ i s, (body1 i s).map f = body2 i (f s)) (n : Nat) (s : σ) :
    (for_loop n body1 s).map f = for_loop n body2 (f s) := by
  induction n with
  | zero => rfl
  | succ n ih =>
    rw [for_loop_succ, for_loop_succ, ← ih]
    cases for_loop n body1 s with
    | error e => rfl
    | ok t => exact h n t

theorem Board.add_neighbour_log_fst (i j : Nat) (s : Board × List Event) :
    (Board.add_neighbour_log i j s).map Prod.fst = Board.add_neighbour i j s.1 := by
  unfold Board.add_neighbour_log Board.add_neighbour
  simp only
  split
  · cases s.1.node_list.add_node_to_open_set j i (s.1.node_list.get_distance i + 1) <;> rfl
  · rfl

theorem Board.add_neighbours_log_fst (s : Board × List Event) (i : Nat) :
    (Board.add_neighbours_log s i).map Prod.fst = s.1.add_neighbours_to_open_set i :=
  for_loop_map Prod.fst _ _ (Board.add_neighbour_log_fst i) _ s

theorem Board.find_path_to_log_fst (final : Nat) :
    ∀ (fuel : Nat) (s : Board × List Event),
      (Board.find_path_to_log fuel s final).map Prod.fst = Board.find_path_to fuel s.1 final := by
  intro fuel
  induction fuel with
  | zero => intro s; rfl
  | succ fuel ih =>
    intro s
    rw [Board.find_path_to_log, Board.find_path_to]
    split
    · rfl
    · cases hmin : s.1.node_list.get_min_from_open_set with
      | error e => rfl
      | ok r =>
        obtain ⟨next_node, nl⟩ := r
        simp only
        have := Board.add_neighbours_log_fst
          ({ s.1 with node_list := nl }, s.2 ++ [Event.extract (nl.nth next_node).node_index])
          (nl.nth next_node).node_index
        simp only at this
        rw [← this]
        cases Board.add_neighbours_log
            ({ s.1 with node_list := nl }, s.2 ++ [Event.extract (nl.nth next_node).node_index])
            (nl.nth next_node).node_index with
        | error e => rfl
        | ok s2 =>
          by_cases hidx : (nl.nth next_node).node_index = final
          · simp only [hidx, if_true]
            rfl
          · simp only [hidx, if_false]
            exact ih s2

theorem Board.find_all_paths_from_log_fst (fuel : Nat) (b : Board) (initial : Nat) :
    (b.find_all_paths_from_log fuel initial).map Prod.fst = b.find_all_paths_from fuel initial := by
  unfold Board.find_all_paths_from_log Board.find_all_paths_from
  refine for_loop_map Prod.fst _ _ (fun i s => ?_) _ _
  by_cases hc : s.1.node_list.set_type i ≠ set_t.CLOSED
  · simp only [if_pos hc]
    exact Board.find_path_to_log_fst i fuel s
  · simp only [if_neg hc]
    rfl

theorem extracted_append (l1 l2 : List Event) :
    extracted (l1 ++ l2) = extracted l1 ++ extracted l2 := by
  induction l1 with
  | nil => rfl
  | cons e rest ih =>
    cases e <;> simp [extracted, ih]

theorem inserted_append (l1 l2 : List Event) :
    inserted (l1 ++ l2) = inserted l1 ++ inserted l2 := by
  induction l1 with
  | nil => rfl
  | cons e rest ih =>
    cases e <;> simp [inserted, ih]

theorem Board.walk_lt {b : Board} {start x n : Nat} (hs : start < b.board_size * b.board_size)
    (h : b.walk start x n) : x < b.board_size * b.board_size := by
  cases h with
  | zero => exact hs
  | succ _ hstep => exact hstep.1

theorem Board.walk_pred {b : Board} {start y n : Nat} (h : b.walk start y (n + 1)) :
    ∃ x, b.walk start x n ∧ b.step x y := by
  cases h with
  | succ hw hstep => exact ⟨_, hw, hstep⟩

theorem Board.walk_zero {b : Board} {start y : Nat} (h : b.walk start y 0) : y = start := by
  cases h with
  | zero => rfl

theorem mem_inserted_of_insert {j i : Nat} {d : Int} {log : List Event}
    (h : Event.insert j i d ∈ log) : j ∈ inserted log := by
  induction log with
  | nil => exact absurd h (List.not_mem_nil _)
  | cons e rest ih =>
    rcases List.mem_cons.1 h with he | he
    · rw [← he]
      simp [inserted]
    · cases e <;> simp [inserted, ih he]

theorem mem_extracted_of_extract {m : Nat} {log : List Event}
    (h : Event.extract m ∈ log) : m ∈ extracted log := by
  induction log with
  | nil => exact absurd h (List.not_mem_nil _)
  | cons e rest ih =>
    rcases List.mem_cons.1 h with he | he
    · rw [← he]
      simp [extracted]
    · cases e <;> simp [extracted, ih he]

theorem ok_fst_eq {s : Board × List Event} {b : Board} {r : Except Err (Board × List Event)}
    (hr : r = Except.ok s) (h : r.map Prod.fst = Except.ok b) : s.1 = b := by
  rw [hr] at h
  simp only [Except.map, Except.ok.injEq] at h
  exact h

theorem LInv.append_revisit {k start : Nat} {ref nl : NodeList} {log : List Event}
    (h : LInv k start ref nl log) {j i : Nat} {d r : Int} (hrd : r ≤ d) :
    LInv k start ref nl (log ++ [Event.revisit j i d r]) := by
  refine ⟨?_, ?_, ?_, ?_, ?_, ?_, ?_, ?_, ?_⟩
  · rw [extracted_append]
    simpa [extracted] using h.ext_nodup
  · intro m
    rw [extracted_append]
    simpa [extracted] using h.ext_mem m
  · rw [inserted_append]
    simpa [inserted] using h.ins_nodup
  · intro x
    rw [inserted_append]
    simpa [inserted] using h.ins_mem x
  · intro x y z hm
    rw [List.mem_append, List.mem_singleton] at hm
    rcases hm with hm | hm
    · exact h.ins x y z hm
    · exact absurd hm (by simp)
  · intro x y z w hm
    rw [List.mem_append, List.mem_singleton] at hm
    rcases hm with hm | hm
    · exact h.rev x y z w hm
    · simp only [Event.revisit.injEq] at hm
      rw [hm.2.2.1, hm.2.2.2]
      exact hrd
  · intro x hx hxt
    rw [inserted_append]
    simpa [inserted] using h.ins_all x hx hxt
  · rw [inserted_append]
    simpa [inserted] using h.ins_start
  · intro x hx hxi
    rw [inserted_append] at hxi
    simp only [inserted, List.append_nil] at hxi
    exact h.keep x hx hxi

theorem AInv.neighbour_step_log {b0 : Board} {start i : Nat} {D : Int} {ref : NodeList}
    {J : Nat} {b : Board} {log : List Event} (h : AInv b0 start i D ref J b)
    (hd : DInv b0 start D b.node_list)
    (hl : LInv (b0.board_size * b0.board_size) start b0.node_list b.node_list log)
    (hi : i < b0.board_size * b0.board_size) (hJ : J < b0.board_size * b0.board_size) :
    ∃ s', Board.add_neighbour_log i J (b, log) = Except.ok s'
      ∧ AInv b0 start i D ref (J + 1) s'.1 ∧ DInv b0 start D s'.1.node_list
      ∧ LInv (b0.board_size * b0.board_size) start b0.node_list s'.1.node_list s'.2 := by
  obtain ⟨b'', hrun, hA⟩ := h.neighbour_step hi hJ
  have hfst := Board.add_neighbour_log_fst i J (b, log)
  rw [hrun] at hfst
  have hnbr := h.frame.nbr i J
  by_cases hc : b.nbr i J ∧ b.node_list.set_type J ≠ set_t.CLOSED
  · have hif : b.graph.edge_between_cells (i / b.board_size) (i % b.board_size)
        (J / b.board_size) (J % b.board_size) = true
        ∧ b.node_list.set_type J ≠ set_t.CLOSED
        ∧ b.cell_at (J / b.board_size) (J % b.board_size) = b.current_player.color :=
      ⟨hc.1.1, hc.2, hc.1.2⟩
    cases ht : b.node_list.set_type J with
    | CLOSED => exact absurd ht hc.2
    | OPEN =>
      have hadd := NodeList.add_node_open h.sinv hJ ht i
      have hev : b.node_list.add_event J i (D + 1)
          = Event.revisit J i (D + 1) (b.node_list.nth J).distance := by
        unfold NodeList.add_event
        rw [if_neg (by rw [ht]; simp)]
      have hlog : Board.add_neighbour_log i J (b, log)
          = Except.ok ({ b with node_list := b.node_list },
              log ++ [Event.revisit J i (D + 1) (b.node_list.nth J).distance]) := by
        unfold Board.add_neighbour_log
        simp only [if_pos hif, h.idist, hadd, hev]
      have hband := (h.sinv.band J ((h.sinv.mem J).2 ⟨hJ, ht⟩)).2
      refine ⟨_, hlog, ?_, hd, hl.append_revisit hband⟩
      rw [ok_fst_eq hlog hfst]
      exact hA
    | NONE =>
      obtain ⟨nl', hadd, _, hnJ, hnx⟩ := NodeList.add_node_new h.sinv hJ ht i
      have hev : b.node_list.add_event J i (D + 1) = Event.insert J i (D + 1) := by
        unfold NodeList.add_event
        rw [if_pos (by rw [ht]; simp)]
      have hlog : Board.add_neighbour_log i J (b, log)
          = Except.ok ({ b with node_list := nl' }, log ++ [Event.insert J i (D + 1)]) := by
        unfold Board.add_neighbour_log
        simp only [if_pos hif, h.idist, hadd, hev]
      have htag : ∀ x, x ≠ J → nl'.set_type x = b.node_list.set_type x := by
        intro x hx
        unfold NodeList.set_type
        rw [hnx x hx]
      have htJ : nl'.set_type J = set_t.OPEN := by
        unfold NodeList.set_type
        rw [hnJ]
      have hmono : ∀ x, b.node_list.set_type x ≠ set_t.NONE → nl'.set_type x ≠ set_t.NONE := by
        intro x hx
        by_cases hxJ : x = J
        · rw [hxJ, htJ]
          decide
        · rw [htag x hxJ]
          exact hx
      obtain ⟨ni, hni, hwi⟩ := hd.walk i hi (by rw [h.itag]; decide)
      have hDi : D = (ni : Int) := by
        rw [← h.idist]
        exact hni
      refine ⟨_, hlog, ?_, ⟨fun j hj hjt => ?_, fun j hj hjt n hw => ?_, fun x n hw hn => ?_⟩,
        ⟨?_, fun m => ?_, ?_, fun j hj => ?_, fun j i' d hm => ?_, fun j i' d r hm => ?_,
          fun j hj hjt => ?_, ?_, fun x hx hxi => ?_⟩⟩
      · rw [ok_fst_eq hlog hfst]
        exact hA
      · show ∃ n : Nat, (nl'.nth j).distance = (n : Int) ∧ b0.walk start j n
        by_cases hjJ : j = J
        · refine ⟨ni + 1, ?_, ?_⟩
          · rw [hjJ, hnJ, hDi]
            simp
          · rw [hjJ]
            exact Board.walk.succ hwi ⟨hJ, hnbr.1 hc.1⟩
        · rw [hnx j hjJ]
          have : nl'.set_type j ≠ set_t.NONE := hjt
          rw [htag j hjJ] at this
          exact hd.walk j hj this
      · show (nl'.nth j).distance ≤ (n : Int)
        by_cases hjJ : j = J
        · rw [hjJ, hnJ]
          show D + 1 ≤ (n : Int)
          by_contra hlt
          rw [hjJ] at hw
          cases n with
          | zero =>
            have := Board.walk_zero hw
            exact h.rinv.start_tag (by rw [← this]; exact ht)
          | succ n' =>
            obtain ⟨p, hwp, hstep⟩ := Board.walk_pred hw
            have hpc := hd.near p n' hwp (by push_cast at hlt; omega)
            have hp := Board.walk_lt h.rinv.start_lt hwp
            have hpi : p ≠ i := by
              intro e
              rw [e] at hwp
              have := hd.least i hi (by rw [h.itag]; decide) n' hwp
              have hidist := h.idist
              unfold NodeList.get_distance at hidist
              push_cast at hlt
              omega
            exact h.rinv.closed p J hp hJ hpc hstep.2 (fun e => absurd e hpi) ht
        · rw [hnx j hjJ]
          have : nl'.set_type j ≠ set_t.NONE := hjt
          rw [htag j hjJ] at this
          exact hd.least j hj this n hw
      · show nl'.set_type x = set_t.CLOSED
        have hx := hd.near x n hw hn
        have hxJ : x ≠ J := fun e => by rw [e, ht] at hx; exact absurd hx (by decide)
        rw [htag x hxJ]
        exact hx
      · show (extracted (log ++ [Event.insert J i (D + 1)])).Nodup
        rw [extracted_append]
        simpa [extracted] using hl.ext_nodup
      · show m ∈ extracted (log ++ [Event.insert J i (D + 1)]) ↔ _
        rw [extracted_append]
        simp only [extracted, List.append_nil]
        rw [hl.ext_mem m]
        by_cases hmJ : m = J
        · rw [hmJ]
          show _ ↔ J < _ ∧ nl'.set_type J = set_t.CLOSED
          rw [htJ, ht]
          simp
        · show _ ↔ m < _ ∧ nl'.set_type m = set_t.CLOSED
          rw [htag m hmJ]
      · show (inserted (log ++ [Event.insert J i (D + 1)])).Nodup
        rw [inserted_append]
        simp only [inserted]
        rw [List.nodup_append]
        refine ⟨hl.ins_nodup, List.nodup_singleton J, ?_⟩
        intro x hx1 hx2
        rw [List.mem_singleton] at hx2
        rw [hx2] at hx1
        exact hl.ins_mem J hx1 ht
      · show nl'.set_type j ≠ set_t.NONE
        have hj' : j ∈ inserted (log ++ [Event.insert J i (D + 1)]) := hj
        rw [inserted_append] at hj'
        simp only [inserted, List.mem_append, List.mem_singleton] at hj'
        rcases hj' with hj' | hj'
        · exact hmono j (hl.ins_mem j hj')
        · rw [hj', htJ]
          decide
      · show j < _ ∧ (nl'.nth j).distance = d ∧ (nl'.nth j).previous_node = (i' : Int)
        have hm' : Event.insert j i' d ∈ log ++ [Event.insert J i (D + 1)] := hm
        rw [List.mem_append, List.mem_singleton] at hm'
        rcases hm' with hm' | hm'
        · have hjJ : j ≠ J := by
            intro e
            have := hl.ins_mem j (mem_inserted_of_insert hm')
            rw [e] at this
            exact this ht
          rw [hnx j hjJ]
          exact hl.ins j i' d hm'
        · simp only [Event.insert.injEq] at hm'
          rw [hm'.1, hm'.2.1, hm'.2.2, hnJ]
          exact ⟨hJ, rfl, rfl⟩
      · have hm' : Event.revisit j i' d r ∈ log ++ [Event.insert J i (D + 1)] := hm
        rw [List.mem_append, List.mem_singleton] at hm'
        rcases hm' with hm' | hm'
        · exact hl.rev j i' d r hm'
        · exact absurd hm' (by simp)
      · show j = start ∨ j ∈ inserted (log ++ [Event.insert J i (D + 1)])
        rw [inserted_append]
        simp only [inserted, List.mem_append, List.mem_singleton]
        by_cases hjJ : j = J
        · exact Or.inr (Or.inr hjJ)
        · have : nl'.set_type j ≠ set_t.NONE := hjt
          rw [htag j hjJ] at this
          rcases hl.ins_all j hj this with e | e
          · exact Or.inl e
          · exact Or.inr (Or.inl e)
      · show start ∉ inserted (log ++ [Event.insert J i (D + 1)])
        rw [inserted_append]
        simp only [inserted, List.mem_append, List.mem_singleton, not_or]
        refine ⟨hl.ins_start, fun e => ?_⟩
        exact h.rinv.start_tag (by rw [e]; exact ht)
      · show (nl'.nth x).previous_node = (b0.node_list.nth x).previous_node
        have hxi' : x ∉ inserted (log ++ [Event.insert J i (D + 1)]) := hxi
        rw [inserted_append] at hxi'
        simp only [inserted, List.mem_append, List.mem_singleton, not_or] at hxi'
        rw [hnx x hxi'.2]
        exact hl.keep x hx hxi'.1
  · have hlog : Board.add_neighbour_log i J (b, log) = Except.ok (b, log) := by
      unfold Board.add_neighbour_log
      rw [if_neg]
      rintro ⟨h1, h2, h3⟩
      exact hc ⟨⟨h1, h3⟩, h2⟩
    refine ⟨_, hlog, ?_, hd, hl⟩
    rw [ok_fst_eq hlog hfst]
    exact hA

theorem AInv.add_neighbours_log {b0 : Board} {start i : Nat} {D : Int} {ref : NodeList}
    {s : Board × List Event} (h : AInv b0 start i D ref 0 s.1)
    (hd : DInv b0 start D s.1.node_list)
    (hl : LInv (b0.board_size * b0.board_size) start b0.node_list s.1.node_list s.2)
    (hi : i < b0.board_size * b0.board_size) :
    ∃ s', Board.add_neighbours_log s i = Except.ok s'
      ∧ AInv b0 start i D ref (b0.board_size * b0.board_size) s'.1
      ∧ DInv b0 start D s'.1.node_list
      ∧ LInv (b0.board_size * b0.board_size) start b0.node_list s'.1.node_list s'.2 := by
  unfold Board.add_neighbours_log
  rw [h.frame.size]
  exact for_loop_inv (Board.add_neighbour_log i)
    (fun J t => AInv b0 start i D ref J t.1 ∧ DInv b0 start D t.1.node_list
      ∧ LInv (b0.board_size * b0.board_size) start b0.node_list t.1.node_list t.2)
    _ s ⟨h, hd, hl⟩
    (fun J t hJ hI => hI.1.neighbour_step_log hI.2.1 hI.2.2 hi hJ)

theorem DInv.after_extract {b0 : Board} {start : Nat} {b : Board} (hP : PInv b0 start b) {D : Int}
    (hs : SInv (b0.board_size * b0.board_size) D b.node_list)
    (hd : DInv b0 start D b.node_list) {m : Nat} {rest : List Nat}
    (ho : b.node_list.open_set = m :: rest) :
    DInv b0 start (b.node_list.get_distance m) (b.node_list.after_min m rest) := by
  have hm : m ∈ b.node_list.open_set := by rw [ho]; exact List.mem_cons_self _ _
  have hmk := ((hs.mem m).1 hm).1
  have hmt := ((hs.mem m).1 hm).2
  have htag := NodeList.set_type_after_min hs.wf hmk rest
  have hdist : ∀ x, ((b.node_list.after_min m rest).nth x).distance
      = (b.node_list.nth x).distance := by
    intro x
    rw [NodeList.nth_after_min]
    split
    · rename_i hh
      rw [hh.1]
    · rfl
  have hold : ∀ x, (b.node_list.after_min m rest).set_type x ≠ set_t.NONE →
      b.node_list.set_type x ≠ set_t.NONE := by
    intro x hx
    rw [htag] at hx
    by_cases hxm : x = m
    · rw [hxm, hmt]
      decide
    · rw [if_neg hxm] at hx
      exact hx
  have hsorted := hs.sorted
  rw [ho, List.pairwise_cons] at hsorted
  refine ⟨fun j hj hjt => ?_, fun j hj hjt n hw => ?_, fun x n hw hn => ?_⟩
  · rw [hdist]
    exact hd.walk j hj (hold j hjt)
  · rw [hdist]
    exact hd.least j hj (hold j hjt) n hw
  · rw [htag]
    by_cases hxm : x = m
    · rw [if_pos hxm]
    · rw [if_neg hxm]
      have hx := Board.walk_lt hP.rinv.start_lt hw
      by_cases hnD : (n : Int) < D
      · exact hd.near x n hw hnD
      · -- the node is within `D` steps, so it is tagged, and it is not in the open set
        have hxt : b.node_list.set_type x ≠ set_t.NONE := by
          cases n with
          | zero =>
            rw [Board.walk_zero hw]
            exact hP.rinv.start_tag
          | succ n' =>
            obtain ⟨p, hwp, hstep⟩ := Board.walk_pred hw
            have hband := (hs.band m hm).2
            have hpc := hd.near p n' hwp (by
              unfold NodeList.get_distance at hn hband
              push_cast at hn
              omega)
            exact hP.rinv.closed p x (Board.walk_lt hP.rinv.start_lt hwp) hx hpc hstep.2
              (fun _ => hx)
        have hle := hd.least x hx hxt n hw
        cases hxs : b.node_list.set_type x with
        | NONE => exact absurd hxs hxt
        | CLOSED => rfl
        | OPEN =>
          exfalso
          have hxo := (hs.mem x).2 ⟨hx, hxs⟩
          rw [ho] at hxo
          have hxr : x ∈ rest := (List.mem_cons.1 hxo).resolve_left hxm
          have := Node.lt_distance_le (hsorted.1 x hxr)
          unfold NodeList.get_distance at hn
          omega

theorem LInv.log_extract {k start : Nat} {ref nl : NodeList} {D : Int} {log : List Event}
    (hs : SInv k D nl) (hl : LInv k start ref nl log) {m : Nat} {rest : List Nat}
    (ho : nl.open_set = m :: rest) :
    LInv k start ref (nl.after_min m rest) (log ++ [Event.extract m]) := by
  have hm : m ∈ nl.open_set := by rw [ho]; exact List.mem_cons_self _ _
  have hmk := ((hs.mem m).1 hm).1
  have hmt := ((hs.mem m).1 hm).2
  have htag := NodeList.set_type_after_min hs.wf hmk rest
  have hml : m < nl.node_list.length := by rw [hs.wf.len]; exact hmk
  have hnth : ∀ x, ((nl.after_min m rest).nth x).distance = (nl.nth x).distance
      ∧ ((nl.after_min m rest).nth x).previous_node = (nl.nth x).previous_node := by
    intro x
    rw [NodeList.nth_after_min]
    split
    · rename_i hh
      rw [hh.1]
      exact ⟨rfl, rfl⟩
    · exact ⟨rfl, rfl⟩
  have hmono : ∀ x, nl.set_type x ≠ set_t.NONE →
      (nl.after_min m rest).set_type x ≠ set_t.NONE := by
    intro x hx
    rw [htag]
    split
    · decide
    · exact hx
  have hnot : m ∉ extracted log := by
    intro hmem
    have := ((hl.ext_mem m).1 hmem).2
    rw [hmt] at this
    exact absurd this (by decide)
  refine ⟨?_, fun x => ?_, ?_, fun j hj => ?_, fun j i d hmem => ?_, fun j i d r hmem => ?_,
    fun j hj hjt => ?_, ?_, fun x hx hxi => ?_⟩
  · rw [extracted_append]
    simp only [extracted]
    rw [List.nodup_append]
    refine ⟨hl.ext_nodup, List.nodup_singleton m, ?_⟩
    intro x hx1 hx2
    rw [List.mem_singleton] at hx2
    rw [hx2] at hx1
    exact hnot hx1
  · rw [extracted_append]
    simp only [extracted, List.mem_append, List.mem_singleton]
    rw [hl.ext_mem x, htag]
    by_cases hxm : x = m
    · rw [if_pos hxm, hxm]
      simp [hmk]
    · rw [if_neg hxm]
      simp [hxm]
  · rw [inserted_append]
    simpa [inserted] using hl.ins_nodup
  · rw [inserted_append] at hj
    simp only [inserted, List.append_nil] at hj
    exact hmono j (hl.ins_mem j hj)
  · rw [List.mem_append, List.mem_singleton] at hmem
    rcases hmem with hmem | hmem
    · rw [(hnth j).1, (hnth j).2]
      exact hl.ins j i d hmem
    · exact absurd hmem (by simp)
  · rw [List.mem_append, List.mem_singleton] at hmem
    rcases hmem with hmem | hmem
    · exact hl.rev j i d r hmem
    · exact absurd hmem (by simp)
  · rw [inserted_append]
    simp only [inserted, List.append_nil]
    refine hl.ins_all j hj ?_
    intro hn
    rw [htag] at hjt
    by_cases hjm : j = m
    · rw [hjm, hmt] at hn
      exact absurd hn (by decide)
    · rw [if_neg hjm] at hjt
      exact hjt hn
  · rw [inserted_append]
    simpa [inserted] using hl.ins_start
  · rw [inserted_append] at hxi
    simp only [inserted, List.append_nil] at hxi
    rw [(hnth x).2]
    exact hl.keep x hx hxi

theorem QInv.find_path_to_log {b0 : Board} {start : Nat} (final : Nat) :
    ∀ (fuel : Nat) (s : Board × List Event), QInv b0 start s →
      open_measure (b0.board_size * b0.board_size) s.1.node_list < fuel →
      ∃ s', Board.find_path_to_log fuel s final = Except.ok s' ∧ QInv b0 start s' := by
  intro fuel
  induction fuel with
  | zero => intro s _ hlt; omega
  | succ fuel ih =>
    intro s hQ hlt
    obtain ⟨D, hs, hd⟩ := hQ.dist
    cases ho : s.1.node_list.open_set with
    | nil =>
      refine ⟨s, ?_, hQ⟩
      rw [Board.find_path_to_log, if_pos (by simp [NodeList.open_set_size, ho])]
    | cons m rest =>
      have hm : m ∈ s.1.node_list.open_set := by rw [ho]; exact List.mem_cons_self _ _
      have hmk := ((hs.mem m).1 hm).1
      have hmt := ((hs.mem m).1 hm).2
      have hA := hQ.pinv.extract hs ho
      have hD := DInv.after_extract hQ.pinv hs hd ho
      have hL := LInv.log_extract hs hQ.log ho
      obtain ⟨s2, hadd, hA2, hD2, hL2⟩ := @AInv.add_neighbours_log b0 start m
        (s.1.node_list.get_distance m) (s.1.node_list.after_min m rest)
        ({ s.1 with node_list := s.1.node_list.after_min m rest }, s.2 ++ [Event.extract m])
        hA hD hL hmk
      have hidx : ((s.1.node_list.after_min m rest).nth m).node_index = m :=
        (hs.after_min_inv ho).wf.idx m hmk
      have hmono : ∀ x, s.1.node_list.set_type x = set_t.CLOSED →
          s2.1.node_list.set_type x = set_t.CLOSED := by
        intro x hx
        rw [hA2.same, NodeList.set_type_after_min hs.wf hmk]
        split
        · rfl
        · exact hx
      have hQ2 : QInv b0 start s2 := ⟨hA2.toPInv, ⟨_, hA2.sinv, hD2⟩, hL2⟩
      have hstep : Board.find_path_to_log (fuel + 1) s final
          = if m = final then Except.ok s2 else Board.find_path_to_log fuel s2 final := by
        rw [Board.find_path_to_log]
        rw [if_neg (by simp [NodeList.open_set_size, ho]), NodeList.get_min_eq hs ho]
        simp only [hidx, hadd]
      by_cases hmf : m = final
      · exact ⟨s2, by rw [hstep, if_pos hmf], hQ2⟩
      · have hlt2 : open_measure (b0.board_size * b0.board_size) s2.1.node_list < fuel := by
          have := @open_measure_after _ s.1.node_list s2.1.node_list m hmk
            (by rw [hmt]; decide) hA2.itag hmono
          omega
        obtain ⟨s3, hf, hQ3⟩ := ih s2 hQ2 hlt2
        exact ⟨s3, by rw [hstep, if_neg hmf]; exact hf, hQ3⟩

theorem NodeList.init_state {k : Nat} {nl : NodeList} (hwf : NLwf k nl) {start : Nat}
    (hstart : start < k) (x : Nat) (hx : x < k) :
    ((nl.reset_node_list).init_open_set start).set_type x
        = (if x = start then set_t.OPEN else set_t.NONE)
      ∧ ((nl.reset_node_list).init_open_set start).get_distance x = 0
      ∧ (((nl.reset_node_list).init_open_set start).nth x).previous_node
          = (nl.nth x).previous_node := by
  obtain ⟨_, _, hl, hnth⟩ := NodeList.reset_node_list_spec hwf
  have hsl : start < nl.reset_node_list.node_list.length := by rw [hl]; exact hstart
  have hnth2 : ((nl.reset_node_list).init_open_set start).nth x
      = if x = start then { (nl.nth start).reset with set_type := set_t.OPEN }
        else nl.reset_node_list.nth x := by
    unfold NodeList.init_open_set
    simp only [NodeList.nth_put]
    by_cases hxs : x = start
    · rw [if_pos hxs]
      simp only [NodeList.nth, hxs, true_and, hsl, if_true]
      have := hnth start hstart
      simp only [NodeList.nth] at this
      rw [this]
    · rw [if_neg hxs, if_neg (fun hh => hxs hh.1)]
      rfl
  unfold NodeList.set_type NodeList.get_distance
  rw [hnth2]
  by_cases hxs : x = start
  · rw [if_pos hxs, if_pos hxs, hxs]
    exact ⟨rfl, rfl, rfl⟩
  · rw [if_neg hxs, if_neg hxs, hnth x hx]
    exact ⟨rfl, rfl, rfl⟩

theorem QInv.at_start {b : Board} {start : Nat}
    (hwf : NLwf (b.board_size * b.board_size) b.node_list)
    (hstart : start < b.board_size * b.board_size) :
    QInv b start
      ({ b with node_list := (b.node_list.reset_node_list).init_open_set start }, []) := by
  have hP := PInv.init hwf hstart
  obtain ⟨D, hs⟩ := hP.sinv
  have hst := NodeList.init_state hwf hstart
  have hso : start ∈ ((b.node_list.reset_node_list).init_open_set start).open_set :=
    (hs.mem start).2 ⟨hstart, by rw [(hst start hstart).1, if_pos rfl]⟩
  have hD0 : D = 0 := by
    have h1 := (hs.band start hso).1
    have h2 := hs.nonneg
    rw [(hst start hstart).2.1] at h1
    omega
  rw [hD0] at hs
  refine ⟨hP, ⟨0, hs, ⟨fun j hj hjt => ?_, fun j hj hjt n _ => ?_, fun x n _ hn => ?_⟩⟩,
    ⟨List.nodup_nil, fun m => ?_, List.nodup_nil, fun j hj => ?_, fun j i d hm => ?_,
      fun j i d r hm => ?_, fun j hj hjt => ?_, List.not_mem_nil _,
      fun x hx _ => (hst x hx).2.2⟩⟩
  · have hjt' : ((b.node_list.reset_node_list).init_open_set start).set_type j ≠ set_t.NONE :=
      hjt
    rw [(hst j hj).1] at hjt'
    by_cases hjs : j = start
    · refine ⟨0, ?_, ?_⟩
      · have := (hst j hj).2.1
        unfold NodeList.get_distance at this
        rw [this]
        rfl
      · rw [hjs]
        exact Board.walk.zero
    · rw [if_neg hjs] at hjt'
      exact absurd rfl hjt'
  · have := (hst j hj).2.1
    unfold NodeList.get_distance at this
    show (((b.node_list.reset_node_list).init_open_set start).nth j).distance ≤ (n : Int)
    rw [this]
    exact Int.natCast_nonneg n
  · have : (0 : Int) ≤ (n : Int) := Int.natCast_nonneg n
    omega
  · show m ∈ extracted [] ↔ _
    simp only [extracted, List.not_mem_nil, false_iff, not_and]
    intro hm
    show ((b.node_list.reset_node_list).init_open_set start).set_type m ≠ set_t.CLOSED
    rw [(hst m hm).1]
    split <;> decide
  · exact absurd hj (List.not_mem_nil _)
  · exact absurd hm (List.not_mem_nil _)
  · exact absurd hm (List.not_mem_nil _)
  · have hjt' : ((b.node_list.reset_node_list).init_open_set start).set_type j ≠ set_t.NONE :=
      hjt
    rw [(hst j hj).1] at hjt'
    by_cases hjs : j = start
    · exact Or.inl hjs
    · rw [if_neg hjs] at hjt'
      exact absurd rfl hjt'

theorem Board.find_all_paths_from_log_spec {b : Board} {start fuel : Nat}
    (hwf : NLwf (b.board_size * b.board_size) b.node_list)
    (hstart : start < b.board_size * b.board_size) (hfuel : b.board_size * b.board_size < fuel) :
    ∃ s', b.find_all_paths_from_log fuel start = Except.ok s' ∧ QInv b start s'
      ∧ b.find_all_paths_from fuel start = Except.ok s'.1 ∧ PassDone b start s'.1 := by
  have key := for_loop_inv
    (fun i (s : Board × List Event) =>
      if s.1.node_list.set_type i ≠ set_t.CLOSED then Board.find_path_to_log fuel s i
      else Except.ok s)
    (fun _ s => QInv b start s)
    (b.board_size * b.board_size)
    ({ b with node_list := (b.node_list.reset_node_list).init_open_set start }, [])
    (QInv.at_start hwf hstart) ?_
  · obtain ⟨s', hrun, hQ⟩ := key
    obtain ⟨b', hrun', hd⟩ := Board.find_all_paths_from_spec hwf hstart hfuel
    have hrun2 : b.find_all_paths_from_log fuel start = Except.ok s' := hrun
    have hfst := Board.find_all_paths_from_log_fst fuel b start
    rw [hrun'] at hfst
    have e := ok_fst_eq hrun2 hfst
    rw [← e] at hrun' hd
    exact ⟨s', hrun2, hQ, hrun', hd⟩
  · intro I s _ hQ
    by_cases hc : s.1.node_list.set_type I = set_t.CLOSED
    · exact ⟨s, by show (if _ then _ else _) = _; rw [if_neg (by simp [hc])], hQ⟩
    · have hlt : open_measure (b.board_size * b.board_size) s.1.node_list < fuel :=
        lt_of_le_of_lt (open_measure_le _ _) hfuel
      obtain ⟨s', hrun, hQ'⟩ := hQ.find_path_to_log I fuel s hlt
      exact ⟨s', by show (if _ then _ else _) = _; rw [if_pos hc]; exact hrun, hQ'⟩

theorem Board.wf.walk_iff {N : Nat} {b : Board} (h : b.wf N) {start : Nat}
    (hs : start < N * N) (hown : b.colour_of start = b.current_player.color) (j n : Nat) :
    b.walk start j n ↔ colour_path N b.colour_of b.current_player.color start j n := by
  constructor
  · intro hw
    induction hw with
    | zero => exact colour_path.start hown
    | succ hxy hstep ih =>
      rename_i x y m
      have hx : x < N * N := by
        have := Board.walk_lt (by rw [h.size]; exact hs) hxy
        rw [h.size] at this
        exact this
      have := (h.step_iff hx y).1 hstep
      exact colour_path.step ih this.1 this.2
  · intro hp
    induction hp with
    | start _ => exact Board.walk.zero
    | step _ hadj hc ih =>
      exact Board.walk.succ ih ((h.step_iff hadj.1 _).2 ⟨hadj, hc⟩)

theorem Board.wf.pass_log {N : Nat} {b : Board} (h : b.wf N) {start fuel : Nat}
    (hs : start < N * N) (hfuel : N * N < fuel) :
    ∃ s', b.find_all_paths_from_log fuel start = Except.ok s' ∧ QInv b start s'
      ∧ b.find_all_paths_from fuel start = Except.ok s'.1 ∧ PassDone b start s'.1 :=
  Board.find_all_paths_from_log_spec (by rw [h.size]; exact h.nodes) (by rw [h.size]; exact hs)
    (by rw [h.size]; exact hfuel)

theorem length_le_of_nodup_lt {l : List Nat} {k : Nat} (hn : l.Nodup) (hl : ∀ x, x ∈ l → x < k) :
    l.length ≤ k := by
  have hsub : l ⊆ List.range k := fun x hx => List.mem_range.2 (hl x hx)
  have := (List.subperm_of_subset hn hsub).length_le
  rwa [List.length_range] at this

theorem Board.add_neighbour_obs_fst (i j : Nat) (s : Board × List Obs) :
    (Board.add_neighbour_obs i j s).map Prod.fst = Board.add_neighbour i j s.1 := by
  unfold Board.add_neighbour_obs Board.add_neighbour
  simp only
  split
  · cases s.1.node_list.add_node_to_open_set j i (s.1.node_list.get_distance i + 1) <;> rfl
  · rfl

theorem Board.add_neighbours_obs_fst (s : Board × List Obs) (i : Nat) :
    (Board.add_neighbours_obs s i).map Prod.fst = s.1.add_neighbours_to_open_set i :=
  for_loop_map Prod.fst _ _ (Board.add_neighbour_obs_fst i) _ s

theorem Board.find_path_to_obs_fst (final : Nat) :
    ∀ (fuel : Nat) (s : Board × List Obs),
      (Board.find_path_to_obs fuel s final).map Prod.fst = Board.find_path_to fuel s.1 final := by
  intro fuel
  induction fuel with
  | zero => intro s; rfl
  | succ fuel ih =>
    intro s
    rw [Board.find_path_to_obs, Board.find_path_to]
    split
    · rfl
    · cases hmin : s.1.node_list.get_min_from_open_set with
      | error e => rfl
      | ok r =>
        obtain ⟨next_node, nl⟩ := r
        simp only
        have := Board.add_neighbours_obs_fst
          ({ s.1 with node_list := nl }, s.2 ++ [Obs.state nl])
          (nl.nth next_node).node_index
        simp only at this
        rw [← this]
        cases Board.add_neighbours_obs
            ({ s.1 with node_list := nl }, s.2 ++ [Obs.state nl])
            (nl.nth next_node).node_index with
        | error e => rfl
        | ok s2 =>
          by_cases hidx : (nl.nth next_node).node_index = final
          · simp only [hidx, if_true]
            rfl
          · simp only [hidx, if_false]
            exact ih s2

theorem Board.find_all_paths_from_obs_fst (fuel : Nat) (b : Board) (initial : Nat) :
    (b.find_all_paths_from_obs fuel initial).map Prod.fst = b.find_all_paths_from fuel initial := by
  unfold Board.find_all_paths_from_obs Board.find_all_paths_from
  refine for_loop_map Prod.fst _ _ (fun i s => ?_) _ _
  by_cases hc : s.1.node_list.set_type i ≠ set_t.CLOSED
  · simp only [if_pos hc]
    exact Board.find_path_to_obs_fst i fuel s
  · simp only [if_neg hc]
    rfl

theorem map_fst_ok {α β : Type} {r : Except Err (α × β)} {s : α × β} {a : α}
    (hr : r = Except.ok s) (h : r.map Prod.fst = Except.ok a) : s.1 = a := by
  rw [hr] at h
  simp only [Except.map, Except.ok.injEq] at h
  exact h

theorem NLwf.lt_of_tagged {k : Nat} {nl : NodeList} (h : NLwf k nl) {j : Nat}
    (ht : nl.set_type j ≠ set_t.NONE) : j < k := by
  by_contra hj
  apply ht
  unfold NodeList.set_type NodeList.nth
  rw [List.getD_eq_default _ _ (by rw [h.len]; omega)]
  rfl

theorem SInv.open_set_exact {k : Nat} {D : Int} {nl : NodeList} (h : SInv k D nl) :
    nl.open_set_exact k := by
  refine ⟨fun j => ⟨fun hj => ((h.mem j).1 hj).2, fun hj => (h.mem j).2 ⟨?_, hj⟩⟩,
    fun j hj => ((h.mem j).1 hj).1, ?_⟩
  · exact h.wf.lt_of_tagged (by rw [hj]; decide)
  · refine h.sorted.imp ?_
    intro p q hpq e
    rw [e] at hpq
    unfold NodeList.compare_ptr at hpq
    rw [Node.lt_irrefl] at hpq
    exact absurd hpq (by decide)

theorem NodeList.open_set_insert_ok {nl nl' : NodeList} {j : Nat} {d : Int}
    (h : nl.open_set_insert j d = Except.ok nl') :
    nl.set_type j = set_t.OPEN ∧ (set_insert nl.compare_ptr j nl.open_set).2 = true := by
  unfold NodeList.open_set_insert at h
  by_cases ht : nl.set_type j ≠ set_t.OPEN
  · rw [if_pos ht] at h
    exact absurd h (by simp)
  · rw [if_neg ht] at h
    by_cases hi : (set_insert nl.compare_ptr j nl.open_set).2 = true
    · exact ⟨not_not.1 ht, hi⟩
    · rw [if_neg hi] at h
      exact absurd h (by simp)

theorem NodeList.insert_calls_hold (k : Nat) {nl nl' : NodeList} {j i : Nat} {d : Int}
    (h : nl.add_node_to_open_set j i d = Except.ok nl') :
    ∀ o, o ∈ nl.insert_calls j i d → o.holds k := by
  intro o ho
  unfold NodeList.add_node_to_open_set at h
  unfold NodeList.insert_calls at ho
  by_cases ht : nl.set_type j ≠ set_t.OPEN
  · rw [if_pos ht] at h ho
    simp only [List.mem_singleton] at ho
    rw [ho]
    exact NodeList.open_set_insert_ok h
  · rw [if_neg ht] at h ho
    by_cases hd : d < (nl.nth j).distance
    · rw [if_pos hd] at h ho
      cases hdel : nl.open_set_delete j with
      | error e =>
        rw [hdel] at ho
        exact absurd ho (List.not_mem_nil _)
      | ok s1 =>
        rw [hdel] at h ho
        simp only [List.mem_singleton] at ho
        rw [ho]
        exact NodeList.open_set_insert_ok h
    · rw [if_neg hd] at ho
      exact absurd ho (List.not_mem_nil _)

theorem AInv.neighbour_step_obs {b0 : Board} {start i : Nat} {D : Int} {ref : NodeList}
    {J : Nat} {s : Board × List Obs} (h : AInv b0 start i D ref J s.1)
    (hall : ∀ o, o ∈ s.2 → o.holds (b0.board_size * b0.board_size))
    (hcur : Obs.state s.1.node_list ∈ s.2)
    (hi : i < b0.board_size * b0.board_size) (hJ : J < b0.board_size * b0.board_size) :
    ∃ s', Board.add_neighbour_obs i J s = Except.ok s'
      ∧ AInv b0 start i D ref (J + 1) s'.1
      ∧ (∀ o, o ∈ s'.2 → o.holds (b0.board_size * b0.board_size))
      ∧ Obs.state s'.1.node_list ∈ s'.2
      ∧ s.2 ⊆ s'.2 := by
  obtain ⟨b', hrun, hA⟩ := h.neighbour_step hi hJ
  have hfst := Board.add_neighbour_obs_fst i J s
  rw [hrun] at hfst
  by_cases hif : s.1.graph.edge_between_cells (i / s.1.board_size) (i % s.1.board_size)
        (J / s.1.board_size) (J % s.1.board_size) = true
      ∧ s.1.node_list.set_type J ≠ set_t.CLOSED
      ∧ s.1.cell_at (J / s.1.board_size) (J % s.1.board_size) = s.1.current_player.color
  · cases hadd : s.1.node_list.add_node_to_open_set J i (s.1.node_list.get_distance i + 1) with
    | error e =>
      unfold Board.add_neighbour at hrun
      simp only [if_pos hif, hadd] at hrun
      exact absurd hrun (by simp)
    | ok nl =>
      have hobs : Board.add_neighbour_obs i J s
          = Except.ok ({ s.1 with node_list := nl },
              s.2 ++ s.1.node_list.insert_calls J i (s.1.node_list.get_distance i + 1)
                ++ [Obs.state nl]) := by
        unfold Board.add_neighbour_obs
        simp only [if_pos hif, hadd]
      have e := map_fst_ok hobs hfst
      refine ⟨_, hobs, ?_, fun o ho => ?_, ?_, ?_⟩
      · rw [e]
        exact hA
      · simp only [List.mem_append, List.mem_singleton] at ho
        rcases ho with (ho | ho) | ho
        · exact hall o ho
        · exact NodeList.insert_calls_hold _ hadd o ho
        · rw [ho]
          have hs := hA.sinv
          rw [← e] at hs
          exact hs.open_set_exact
      · simp
      · intro o ho
        simp only [List.mem_append, List.mem_singleton]
        exact Or.inl (Or.inl ho)
  · have hobs : Board.add_neighbour_obs i J s = Except.ok s := by
      unfold Board.add_neighbour_obs
      simp only [if_neg hif]
    refine ⟨_, hobs, ?_, hall, hcur, fun o ho => ho⟩
    rw [map_fst_ok hobs hfst]
    exact hA

theorem AInv.add_neighbours_obs {b0 : Board} {start i : Nat} {D : Int} {ref : NodeList}
    {s : Board × List Obs} (h : AInv b0 start i D ref 0 s.1)
    (hall : ∀ o, o ∈ s.2 → o.holds (b0.board_size * b0.board_size))
    (hcur : Obs.state s.1.node_list ∈ s.2)
    (hi : i < b0.board_size * b0.board_size) :
    ∃ s', Board.add_neighbours_obs s i = Except.ok s'
      ∧ AInv b0 start i D ref (b0.board_size * b0.board_size) s'.1
      ∧ (∀ o, o ∈ s'.2 → o.holds (b0.board_size * b0.board_size))
      ∧ Obs.state s'.1.node_list ∈ s'.2
      ∧ s.2 ⊆ s'.2 := by
  unfold Board.add_neighbours_obs
  rw [h.frame.size]
  refine for_loop_inv (Board.add_neighbour_obs i)
    (fun J t => AInv b0 start i D ref J t.1
      ∧ (∀ o, o ∈ t.2 → o.holds (b0.board_size * b0.board_size))
      ∧ Obs.state t.1.node_list ∈ t.2
      ∧ s.2 ⊆ t.2)
    _ s ⟨h, hall, hcur, fun o ho => ho⟩ ?_
  intro J t hJ hI
  obtain ⟨t', hrun, h1, h2, h3, h4⟩ := hI.1.neighbour_step_obs hI.2.1 hI.2.2.1 hi hJ
  exact ⟨t', hrun, h1, h2, h3, fun o ho => h4 (hI.2.2.2 ho)⟩

theorem OInv.find_path_to_obs {b0 : Board} {start : Nat} (final : Nat) :
    ∀ (fuel : Nat) (s : Board × List Obs), OInv b0 start s →
      open_measure (b0.board_size * b0.board_size) s.1.node_list < fuel →
      ∃ s', Board.find_path_to_obs fuel s final = Except.ok s' ∧ OInv b0 start s'
        ∧ s.2 ⊆ s'.2 := by
  intro fuel
  induction fuel with
  | zero => intro s _ hlt; omega
  | succ fuel ih =>
    intro s hO hlt
    obtain ⟨D, hs⟩ := hO.pinv.sinv
    cases ho : s.1.node_list.open_set with
    | nil =>
      refine ⟨s, ?_, hO, fun o ho => ho⟩
      rw [Board.find_path_to_obs, if_pos (by simp [NodeList.open_set_size, ho])]
    | cons m rest =>
      have hm : m ∈ s.1.node_list.open_set := by rw [ho]; exact List.mem_cons_self _ _
      have hmk := ((hs.mem m).1 hm).1
      have hmt := ((hs.mem m).1 hm).2
      have hA := hO.pinv.extract hs ho
      have hall : ∀ o, o ∈ s.2 ++ [Obs.state (s.1.node_list.after_min m rest)] →
          o.holds (b0.board_size * b0.board_size) := by
        intro o hmem
        rw [List.mem_append, List.mem_singleton] at hmem
        rcases hmem with hmem | hmem
        · exact hO.all o hmem
        · rw [hmem]
          exact (hs.after_min_inv ho).open_set_exact
      obtain ⟨s2, hadd, hA2, hall2, hcur2, hsub2⟩ := @AInv.add_neighbours_obs b0 start m
        (s.1.node_list.get_distance m) (s.1.node_list.after_min m rest)
        ({ s.1 with node_list := s.1.node_list.after_min m rest },
          s.2 ++ [Obs.state (s.1.node_list.after_min m rest)])
        hA hall (by simp) hmk
      have hidx : ((s.1.node_list.after_min m rest).nth m).node_index = m :=
        (hs.after_min_inv ho).wf.idx m hmk
      have hmono : ∀ x, s.1.node_list.set_type x = set_t.CLOSED →
          s2.1.node_list.set_type x = set_t.CLOSED := by
        intro x hx
        rw [hA2.same, NodeList.set_type_after_min hs.wf hmk]
        split
        · rfl
        · exact hx
      have hO2 : OInv b0 start s2 := ⟨hA2.toPInv, hall2, hcur2⟩
      have hstep : Board.find_path_to_obs (fuel + 1) s final
          = if m = final then Except.ok s2 else Board.find_path_to_obs fuel s2 final := by
        rw [Board.find_path_to_obs]
        rw [if_neg (by simp [NodeList.open_set_size, ho]), NodeList.get_min_eq hs ho]
        simp only [hidx, hadd]
      have hsub : s.2 ⊆ s2.2 := fun o ho => hsub2 (List.mem_append_left _ ho)
      by_cases hmf : m = final
      · exact ⟨s2, by rw [hstep, if_pos hmf], hO2, hsub⟩
      · have hlt2 : open_measure (b0.board_size * b0.board_size) s2.1.node_list < fuel := by
          have := @open_measure_after _ s.1.node_list s2.1.node_list m hmk
            (by rw [hmt]; decide) hA2.itag hmono
          omega
        obtain ⟨s3, hf, hO3, hsub3⟩ := ih s2 hO2 hlt2
        exact ⟨s3, by rw [hstep, if_neg hmf]; exact hf, hO3, fun o ho => hsub3 (hsub ho)⟩

theorem OInv.at_init {b : Board} {start : Nat}
    (hwf : NLwf (b.board_size * b.board_size) b.node_list)
    (hstart : start < b.board_size * b.board_size) :
    OInv b start
      ({ b with node_list := (b.node_list.reset_node_list).init_open_set start },
        [Obs.state ((b.node_list.reset_node_list).init_open_set start)]) := by
  have hP := PInv.init hwf hstart
  obtain ⟨D, hs⟩ := hP.sinv
  refine ⟨hP, fun o ho => ?_, by simp⟩
  rw [List.mem_singleton] at ho
  rw [ho]
  exact hs.open_set_exact

theorem Board.find_all_paths_from_obs_spec {b : Board} {start fuel : Nat}
    (hwf : NLwf (b.board_size * b.board_size) b.node_list)
    (hstart : start < b.board_size * b.board_size) (hfuel : b.board_size * b.board_size < fuel) :
    ∃ s', b.find_all_paths_from_obs fuel start = Except.ok s' ∧ OInv b start s'
      ∧ Obs.state ((b.node_list.reset_node_list).init_open_set start) ∈ s'.2
      ∧ b.find_all_paths_from fuel start = Except.ok s'.1 := by
  have key := for_loop_inv
    (fun i (s : Board × List Obs) =>
      if s.1.node_list.set_type i ≠ set_t.CLOSED then Board.find_path_to_obs fuel s i
      else Except.ok s)
    (fun _ s => OInv b start s
      ∧ Obs.state ((b.node_list.reset_node_list).init_open_set start) ∈ s.2)
    (b.board_size * b.board_size)
    ({ b with node_list := (b.node_list.reset_node_list).init_open_set start },
      [Obs.state ((b.node_list.reset_node_list).init_open_set start)])
    ⟨OInv.at_init hwf hstart, by simp⟩ ?_
  · obtain ⟨s', hrun, hO, hfirst⟩ := key
    obtain ⟨b', hrun', _⟩ := Board.find_all_paths_from_spec hwf hstart hfuel
    have hrun2 : b.find_all_paths_from_obs fuel start = Except.ok s' := hrun
    have hfst := Board.find_all_paths_from_obs_fst fuel b start
    rw [hrun'] at hfst
    have e := map_fst_ok hrun2 hfst
    rw [← e] at hrun'
    exact ⟨s', hrun2, hO, hfirst, hrun'⟩
  · intro I s _ hQ
    by_cases hc : s.1.node_list.set_type I = set_t.CLOSED
    · exact ⟨s, by show (if _ then _ else _) = _; rw [if_neg (by simp [hc])], hQ⟩
    · have hlt : open_measure (b.board_size * b.board_size) s.1.node_list < fuel :=
        lt_of_le_of_lt (open_measure_le _ _) hfuel
      obtain ⟨s', hrun, hO', hsub⟩ := hQ.1.find_path_to_obs I fuel s hlt
      exact ⟨s', by show (if _ then _ else _) = _; rw [if_pos hc]; exact hrun, hO', hsub hQ.2⟩

theorem NodeList.reset_not_open {k : Nat} {nl : NodeList} (h : NLwf k nl) (j : Nat) :
    nl.reset_node_list.set_type j ≠ set_t.OPEN := by
  obtain ⟨_, _, hl, hnth⟩ := NodeList.reset_node_list_spec h
  by_cases hj : j < k
  · unfold NodeList.set_type
    rw [hnth j hj]
    show set_t.NONE ≠ set_t.OPEN
    decide
  · unfold NodeList.set_type NodeList.nth
    rw [List.getD_eq_default _ _ (by rw [hl]; omega)]
    show set_t.NONE ≠ set_t.OPEN
    decide

theorem Board.wf.pass_obs {N : Nat} {b : Board} (h : b.wf N) {start fuel : Nat}
    (hs : start < N * N) (hfuel : N * N < fuel) :
    ∃ s', b.find_all_paths_from_obs fuel start = Except.ok s' ∧ OInv b start s'
      ∧ Obs.state ((b.node_list.reset_node_list).init_open_set start) ∈ s'.2
      ∧ b.find_all_paths_from fuel start = Except.ok s'.1 :=
  Board.find_all_paths_from_obs_spec (by rw [h.size]; exact h.nodes) (by rw [h.size]; exact hs)
    (by rw [h.size]; exact hfuel)

theorem corner_board_wf : corner_board.wf 3 :=
  (((Board.new_wf 3 _ _).turn_of _).place _ _)

/-- What `ai_move` returns on a board with an empty cell: the first index, among all the
`N*N` win counts, that has the largest count; this count is at least that of every
empty cell and some empty cell has it. -/
theorem Board.wf.ai_move_first_largest_count (N : Nat) (b : Board) (player_num fuel : Nat)
    (shuffle : Nat → List Nat → List Nat) (hb : b.wf N) (hfuel : N * N < fuel)
    (hperm : ∀ i, (shuffle i b.possible_moves).Perm b.possible_moves)
    (hempty : ∃ j, j < N * N ∧ b.colour_of j = cell.EMPTY) :
    ∃ b' num_wins, b.ai_trials fuel shuffle player_num = Except.ok (b', num_wins)
      ∧ b.ai_move fuel shuffle player_num = Except.ok (max_element num_wins, b')
      ∧ (∀ c, c < N * N → b.colour_of c = cell.EMPTY →
          num_wins.getD c 0 ≤ num_wins.getD (max_element num_wins) 0)
      ∧ (∃ c, c < N * N ∧ b.colour_of c = cell.EMPTY
          ∧ num_wins.getD c 0 = num_wins.getD (max_element num_wins) 0)
      ∧ (∀ i, i < max_element num_wins →
          num_wins.getD i 0 < num_wins.getD (max_element num_wins) 0) := by
  obtain ⟨s, hrun, hI⟩ := Board.ai_trials_spec hb hfuel shuffle player_num hperm
  obtain ⟨j, hj, hje⟩ := hempty
  have hne : s.2 ≠ [] := by
    intro e
    have := hI.len
    rw [e] at this
    simp only [List.length_nil] at this
    omega
  obtain ⟨_, hmax, hfirst⟩ := max_element_spec hne
  refine ⟨s.1, s.2, hrun, Board.ai_move_of_trials hrun,
    fun c hc _ => hmax c (by rw [hI.len]; exact hc), ?_, hfirst⟩
  · by_cases h0 : s.2.getD (max_element s.2) 0 = 0
    · refine ⟨j, hj, hje, ?_⟩
      have := hmax j (by rw [hI.len]; exact hj)
      omega
    · have := (Board.mem_possible_moves hb _).1 (hI.wins _ h0)
      exact ⟨_, this.1, this.2, rfl⟩

/-- C1: for every board size `N >= 1`, every board, every colour and every start node
owned by that colour, the reachability pass `find_all_paths_from(start)` finishes
(with fuel above `N * N`), and then the set of nodes tagged `CLOSED` is exactly the
set of nodes that can be reached from `start` by a path of lattice-adjacent cells all
owned by that colour. -/
theorem C1_closed_iff_colour_reachable (N : Nat) (b : Board) (start fuel : Nat) (_hN : 1 ≤ N)
    (hb : b.wf N) (hs : start < N * N)
    (hown : b.colour_of start = b.current_player.color) (hfuel : N * N < fuel) :
    ∃ b', b.find_all_paths_from fuel start = Except.ok b'
      ∧ ∀ j, j < N * N → (b'.node_list.set_type j = set_t.CLOSED
          ↔ colour_reachable N b.colour_of b.current_player.color start j) := by
  obtain ⟨b', hrun, _, hiff⟩ := hb.pass hs hown hfuel
  exact ⟨b', hrun, hiff⟩

/-- Witness of C1: the pass from node 2 on the 3 by 3 board whose row 0 is `BLUE`. -/
theorem C1_closed_iff_colour_reachable_witness :
    (1 ≤ 3 ∧ row_board.wf 3 ∧ 2 < 3 * 3
        ∧ row_board.colour_of 2 = row_board.current_player.color ∧ 3 * 3 < 10)
      ∧ ∃ b', row_board.find_all_paths_from 10 2 = Except.ok b'
        ∧ ∀ j, j < 3 * 3 → (b'.node_list.set_type j = set_t.CLOSED
            ↔ colour_reachable 3 row_board.colour_of row_board.current_player.color 2 j) :=
  ⟨⟨by decide, row_board_wf, by decide, by decide, by decide⟩,
    C1_closed_iff_colour_reachable 3 row_board 2 10 (by decide) row_board_wf (by decide)
      (by decide) (by decide)⟩

/-- C2: for every board and moved cell, `winning_move` decides by turn order, not by
colour: it returns, and for the first player (`player_num` 0) it returns true if and
only if the visited set of the search from the moved cell contains at least one node
in column 0 and at least one node in column `N-1`; for the second player it returns
true if and only if the visited set contains at least one node in row 0 and at least
one node in row `N-1`. -/
theorem C2_winning_move_by_turn_order (N : Nat) (b : Board) (row col player_num fuel : Nat)
    (hb : b.wf N) (hrow : row < N) (hcol : col < N) (hfuel : N * N < fuel) :
    ∃ b' win, b.find_all_paths_from fuel (row * N + col) = Except.ok b'
      ∧ b.winning_move fuel row col player_num = Except.ok (win, b')
      ∧ (player_num = 0 →
          (win = true ↔
            (∃ r, r < N ∧ b'.node_list.set_type (r * N + 0) = set_t.CLOSED)
            ∧ (∃ r, r < N ∧ b'.node_list.set_type (r * N + (N - 1)) = set_t.CLOSED)))
      ∧ (player_num ≠ 0 →
          (win = true ↔
            (∃ c, c < N ∧ b'.node_list.set_type (0 * N + c) = set_t.CLOSED)
            ∧ (∃ c, c < N ∧ b'.node_list.set_type ((N - 1) * N + c) = set_t.CLOSED))) := by
  have hwf : NLwf (b.board_size * b.board_size) b.node_list := by rw [hb.size]; exact hb.nodes
  have hs : row * N + col < N * N := idx_lt hrow hcol
  obtain ⟨b', hrun, hd⟩ := @Board.find_all_paths_from_spec b (row * N + col) fuel hwf
    (by rw [hb.size]; exact hs) (by rw [hb.size]; exact hfuel)
  have hsz : b'.board_size = N := by rw [hd.frame.size, hb.size]
  have hrun' : b.find_all_paths_from fuel (row * b.board_size + col) = Except.ok b' := by
    rw [hb.size]; exact hrun
  refine ⟨b', _, hrun, Board.winning_move_eq player_num hrun', fun h0 => ?_, fun h0 => ?_⟩
  · rw [if_pos h0, Board.horizontal_path_iff, hsz]
  · rw [if_neg h0, Board.vertical_path_iff, hsz]

/-- Witness of C2: the move to `(0, 2)` by the first player on the 3 by 3 board whose
row 0 is `BLUE`. -/
theorem C2_winning_move_by_turn_order_witness :
    (row_board.wf 3 ∧ 0 < 3 ∧ 2 < 3 ∧ 3 * 3 < 10)
      ∧ ∃ b' win, row_board.find_all_paths_from 10 (0 * 3 + 2) = Except.ok b'
        ∧ row_board.winning_move 10 0 2 0 = Except.ok (win, b')
        ∧ ((0 : Nat) = 0 →
            (win = true ↔
              (∃ r, r < 3 ∧ b'.node_list.set_type (r * 3 + 0) = set_t.CLOSED)
              ∧ (∃ r, r < 3 ∧ b'.node_list.set_type (r * 3 + (3 - 1)) = set_t.CLOSED)))
        ∧ ((0 : Nat) ≠ 0 →
            (win = true ↔
              (∃ c, c < 3 ∧ b'.node_list.set_type (0 * 3 + c) = set_t.CLOSED)
              ∧ (∃ c, c < 3 ∧ b'.node_list.set_type ((3 - 1) * 3 + c) = set_t.CLOSED))) :=
  ⟨⟨row_board_wf, by decide, by decide, by decide⟩,
    C2_winning_move_by_turn_order 3 row_board 0 2 0 10 row_board_wf (by decide) (by decide)
      (by decide)⟩

/-- C3: for every board, every player and every sequence of shuffle outcomes (each a
permutation of the candidates), `ai_move` returns and the board after it is equal cell
for cell to the board before the call. -/
theorem C3_ai_move_restores_board (N : Nat) (b : Board) (player_num fuel : Nat)
    (shuffle : Nat → List Nat → List Nat) (hb : b.wf N) (hfuel : N * N < fuel)
    (hperm : ∀ i, (shuffle i b.possible_moves).Perm b.possible_moves) :
    ∃ mv b', b.ai_move fuel shuffle player_num = Except.ok (mv, b') ∧ b'.board = b.board := by
  obtain ⟨s, hrun, hI⟩ := Board.ai_trials_spec hb hfuel shuffle player_num hperm
  exact ⟨max_element s.2, s.1, Board.ai_move_of_trials hrun, hI.board⟩

/-- Witness of C3: the 2 by 2 board with two stones, the shuffle leaving the moves in
place. -/
theorem C3_ai_move_restores_board_witness :
    (taken_board.wf 2 ∧ 2 * 2 < 5
        ∧ ∀ i : Nat, ((fun (_ : Nat) (l : List Nat) => l) i taken_board.possible_moves).Perm
            taken_board.possible_moves)
      ∧ ∃ mv b', taken_board.ai_move 5 (fun _ l => l) 0 = Except.ok (mv, b')
        ∧ b'.board = taken_board.board :=
  ⟨⟨taken_board_wf, by decide, fun _ => List.Perm.refl _⟩,
    C3_ai_move_restores_board 2 taken_board 0 5 (fun _ l => l) taken_board_wf (by decide)
      (fun _ => List.Perm.refl _)⟩

/-- C4 fails on the code: on the 2 by 2 board with `BLUE` on `(0,0)` and `RED` on
`(0,1)`, which has two empty cells, no trial of `BLUE` wins, every win count stays 0 and
`ai_move` returns the index 0 of the cell that `BLUE` already holds. -/
theorem C4_ai_move_returns_taken_cell :
    chosen (taken_board.ai_move 5 (fun _ l => l) 0) = some 0
      ∧ taken_board.colour_of 0 = cell.BLUE
      ∧ taken_board.possible_moves = [2, 3] := by
  refine ⟨?_, by decide, by decide⟩
  rw [Board.ai_move_of_trials taken_board_ai_trials, taken_board_after_max]
  exact chosen_ok 0 _

/-- C5 fails on the code: on the 2 by 2 board with `BLUE` on `(0,0)` and `RED` on
`(0,1)` the candidates are the cells 2 and 3 and every win count is 0 after the trials,
so the candidate with the largest count and the smallest index is 2; `ai_move` returns
0, the first of all the `N*N` counts, which is not a candidate. -/
theorem C5_ai_move_returns_non_candidate :
    ∃ b' num_wins, taken_board.ai_trials 5 (fun _ l => l) 0 = Except.ok (b', num_wins)
      ∧ taken_board.ai_move 5 (fun _ l => l) 0 = Except.ok (0, b')
      ∧ 0 ∉ taken_board.possible_moves
      ∧ 2 ∈ taken_board.possible_moves
      ∧ ∀ c, c ∈ taken_board.possible_moves →
          num_wins.getD c 0 ≤ num_wins.getD 2 0 ∧ 2 ≤ c := by
  refine ⟨taken_board_after.1, taken_board_after.2, taken_board_ai_trials, ?_, by decide,
    by decide, by decide⟩
  rw [Board.ai_move_of_trials taken_board_ai_trials, taken_board_after_max]

/-- C6: for every `n >= 1`, after `HexGraph(n,n).gen()`, and for all cells `(r1,c1)`
and `(r2,c2)` with coordinates in `[0,n)`, `edge_between_cells(r1,c1,r2,c2)` is true
if and only if `(r2-r1, c2-c1)` is one of `(0,1)`, `(0,-1)`, `(1,0)`, `(-1,0)`,
`(1,-1)`, `(-1,1)`.  In particular no cell is adjacent to itself, and a cell of the
last column is joined to a cell of the first column only on the 2 wide board, where
these two columns are next to each other. -/
theorem C6_edge_between_cells_iff_offset (n r1 c1 r2 c2 : Nat) (_hn : 1 ≤ n)
    (hr1 : r1 < n) (hc1 : c1 < n) (hr2 : r2 < n) (hc2 : c2 < n) :
    ((HexGraph.new n n).gen.edge_between_cells r1 c1 r2 c2 = true
        ↔ hex_offset ((r2 : Int) - r1) ((c2 : Int) - c1))
      ∧ (HexGraph.new n n).gen.edge_between_cells r1 c1 r1 c1 = false
      ∧ ((HexGraph.new n n).gen.edge_between_cells r1 (n - 1) r2 0 = true → n = 2) := by
  have hl := Lattice.gen n
  refine ⟨hl.edge_cells hr1 hc1 hr2 hc2, ?_, ?_⟩
  · cases hs : (HexGraph.new n n).gen.edge_between_cells r1 c1 r1 c1
    · rfl
    · have := (hl.edge_cells hr1 hc1 hr1 hc1).1 hs
      unfold hex_offset at this
      omega
  · intro hs
    have := (hl.edge_cells hr1 (by omega : n - 1 < n) hr2 (by omega : 0 < n)).1 hs
    unfold hex_offset at this
    omega

/-- Witness of C6 on the 3 by 3 board, for the cells `(0,1)` and `(1,0)`. -/
theorem C6_edge_between_cells_iff_offset_witness :
    (((HexGraph.new 3 3).gen.edge_between_cells 0 1 1 0 = true
        ↔ hex_offset (((1 : Nat) : Int) - (0 : Nat)) (((0 : Nat) : Int) - (1 : Nat)))
      ∧ (HexGraph.new 3 3).gen.edge_between_cells 0 1 0 1 = false
      ∧ ((HexGraph.new 3 3).gen.edge_between_cells 0 (3 - 1) 1 0 = true → 3 = 2)) :=
  C6_edge_between_cells_iff_offset 3 0 1 1 0 (by decide) (by decide) (by decide) (by decide)
    (by decide)

/-- C7: for every `N > 0` the lattice built by `gen()` is symmetric (there is an edge
from `a` to `b` exactly when there is an edge from `b` to `a`) and every node has at
most 6 neighbours, both in the adjacency matrix and in the neighbour list produced
by `collapse_matrix`. -/
theorem C7_lattice_symmetric_degree_le_six (n a b : Nat) (_hn : 0 < n) (ha : a < n * n)
    (hb : b < n * n) :
    (HexGraph.new n n).gen.base.edge_between_nodes a b
        = (HexGraph.new n n).gen.base.edge_between_nodes b a
      ∧ (b ∈ (HexGraph.new n n).gen.base.neighbours.getD a []
          ↔ a ∈ (HexGraph.new n n).gen.base.neighbours.getD b [])
      ∧ ((HexGraph.new n n).gen.base.graph.getD a []).count true ≤ 6
      ∧ ((HexGraph.new n n).gen.base.neighbours.getD a []).length ≤ 6 := by
  have hl := Lattice.gen n
  refine ⟨hl.edge_symm a b, ?_, ?_, ?_⟩
  · rw [hl.nb a ha, hl.nb b hb, List.mem_filter, List.mem_filter, List.mem_range,
      List.mem_range, hl.edge_symm a b]
    simp [ha, hb]
  · rw [count_true_eq, hl.sq.2 a ha]
    exact hl.degree a
  · rw [hl.nb a ha]
    exact hl.degree a

/-- Witness of C7 on the 3 by 3 board, for the centre node and its right neighbour. -/
theorem C7_lattice_symmetric_degree_le_six_witness :
    (HexGraph.new 3 3).gen.base.edge_between_nodes 4 5
        = (HexGraph.new 3 3).gen.base.edge_between_nodes 5 4
      ∧ (5 ∈ (HexGraph.new 3 3).gen.base.neighbours.getD 4 []
          ↔ 4 ∈ (HexGraph.new 3 3).gen.base.neighbours.getD 5 [])
      ∧ ((HexGraph.new 3 3).gen.base.graph.getD 4 []).count true ≤ 6
      ∧ ((HexGraph.new 3 3).gen.base.neighbours.getD 4 []).length ≤ 6 :=
  C7_lattice_symmetric_degree_le_six 3 4 5 (by decide) (by decide) (by decide)

/-- C8: for every `N >= 2` and every row `r`, on a board where the current player's
colour owns every cell of row `r` and no cell outside that row, `winning_move` called
for any cell of that row returns true with horizontal orientation (first player) and
false with vertical orientation (second player). -/
theorem C8_full_row_connects_horizontally (N : Nat) (b : Board) (r col fuel : Nat)
    (hN : 2 ≤ N) (hb : b.wf N) (hr : r < N) (hcol : col < N)
    (hrow : ∀ x, x < N → ∀ y, y < N → (b.cell_at x y = b.current_player.color ↔ x = r))
    (hfuel : N * N < fuel) :
    (∃ b', b.winning_move fuel r col 0 = Except.ok (true, b'))
      ∧ (∃ b', b.winning_move fuel r col 1 = Except.ok (false, b')) := by
  have hown : b.cell_at r col = b.current_player.color := (hrow r hr col hcol).2 rfl
  have hreach : ∀ y, y < N →
      colour_reachable N b.colour_of b.current_player.color (r * N + col) (r * N + y) :=
    colour_reachable_row hr hcol
      (fun y hy => by rw [Board.colour_of_idx hb r hy]; exact (hrow r hr y hy).2 rfl)
  constructor
  · obtain ⟨b', hw, _, hsz, hiff⟩ := hb.winning_move_spec hr hcol hown hfuel 0
    refine ⟨b', ?_⟩
    rw [hw, if_pos rfl]
    have : b'.horizontal_path = true := by
      rw [Board.horizontal_path_iff, hsz]
      exact ⟨⟨r, hr, (hiff _ (idx_lt hr (by omega))).2 (hreach 0 (by omega))⟩,
        ⟨r, hr, (hiff _ (idx_lt hr (by omega))).2 (hreach (N - 1) (by omega))⟩⟩
    rw [this]
  · obtain ⟨b', hw, _, hsz, hiff⟩ := hb.winning_move_spec hr hcol hown hfuel 1
    refine ⟨b', ?_⟩
    rw [hw, if_neg (by decide)]
    have : b'.vertical_path = false := by
      cases hv : b'.vertical_path
      · rfl
      · rw [Board.vertical_path_iff, hsz] at hv
        obtain ⟨⟨c1, hc1, ht1⟩, ⟨c2, hc2, ht2⟩⟩ := hv
        have h0 : 0 < N := by omega
        have hN1 : N - 1 < N := by omega
        have o1 := ((hiff _ (idx_lt h0 hc1)).1 ht1).owned
        have o2 := ((hiff _ (idx_lt hN1 hc2)).1 ht2).owned
        rw [Board.colour_of_idx hb 0 hc1] at o1
        rw [Board.colour_of_idx hb (N - 1) hc2] at o2
        have e1 := (hrow 0 h0 c1 hc1).1 o1
        have e2 := (hrow (N - 1) hN1 c2 hc2).1 o2
        omega
    rw [this]

/-- Witness of C8: the spec's 3 wide board with stones at `(0,0)`, `(0,1)`, `(0,2)` and
moved node `(0,2)`. -/
theorem C8_full_row_connects_horizontally_witness :
    (2 ≤ 3 ∧ row_board.wf 3 ∧ 0 < 3 ∧ 2 < 3
        ∧ (∀ x, x < 3 → ∀ y, y < 3 →
            (row_board.cell_at x y = row_board.current_player.color ↔ x = 0))
        ∧ 3 * 3 < 10)
      ∧ (∃ b', row_board.winning_move 10 0 2 0 = Except.ok (true, b'))
      ∧ (∃ b', row_board.winning_move 10 0 2 1 = Except.ok (false, b')) :=
  ⟨⟨by decide, row_board_wf, by decide, by decide, by decide, by decide⟩,
    C8_full_row_connects_horizontally 3 row_board 0 2 10 (by decide) row_board_wf (by decide)
      (by decide) (by decide) (by decide)⟩

/-- Counterexample to C9 as stated: on the 4 by 4 board whose top-left to bottom-right
diagonal is owned by the current player, `winning_move` for the stone `(0,0)` with
vertical orientation returns false, because `(r,c)` and `(r+1,c+1)` are not neighbours in
the lattice of `gen`. -/
theorem C9_diagonal_vertical_counterexample :
    verdict (diagonal_board.winning_move 17 0 0 1) = some false := by
  decide

/-- C9, amended: on the 4 by 4 board where one colour owns exactly the cells `(0,0)`,
`(1,1)`, `(2,2)`, `(3,3)`, `winning_move` called for a stone of that diagonal returns
false with vertical orientation and false with horizontal orientation. -/
theorem C9_diagonal_never_connects :
    verdict (diagonal_board.winning_move 17 0 0 1) = some false
      ∧ verdict (diagonal_board.winning_move 17 1 1 1) = some false
      ∧ verdict (diagonal_board.winning_move 17 2 2 1) = some false
      ∧ verdict (diagonal_board.winning_move 17 3 3 1) = some false
      ∧ verdict (diagonal_board.winning_move 17 0 0 0) = some false
      ∧ verdict (diagonal_board.winning_move 17 1 1 0) = some false
      ∧ verdict (diagonal_board.winning_move 17 2 2 0) = some false
      ∧ verdict (diagonal_board.winning_move 17 3 3 0) = some false := by
  decide

/-- C10: reachability never crosses into cells of another colour: for every board where
the moved stone of the current player's colour has no lattice neighbour of that colour,
the visited set is that single stone, so `winning_move` is false in both orientations
for every `N >= 2` and is true only on the 1 by 1 board, where the stone alone touches
both required edges. -/
theorem C10_isolated_stone_never_connects (N : Nat) (b : Board) (row col player_num fuel : Nat)
    (_hN : 1 ≤ N) (hb : b.wf N) (hrow : row < N) (hcol : col < N)
    (hown : b.cell_at row col = b.current_player.color)
    (hiso : ∀ j, j < N * N → lattice_adjacent N (row * N + col) j →
      b.colour_of j ≠ b.current_player.color)
    (hfuel : N * N < fuel) :
    ∃ b', b.winning_move fuel row col player_num = Except.ok (decide (N = 1), b')
      ∧ ∀ j, j < N * N → (b'.node_list.set_type j = set_t.CLOSED ↔ j = row * N + col) := by
  obtain ⟨b', hw, _, hsz, hiff⟩ := hb.winning_move_spec hrow hcol hown hfuel player_num
  have hcl : ∀ j, j < N * N → (b'.node_list.set_type j = set_t.CLOSED ↔ j = row * N + col) := by
    intro j hj
    rw [hiff j hj]
    constructor
    · exact fun h => h.isolated (fun y hy => hiso y hy.2.1 hy)
    · intro e
      rw [e]
      exact colour_reachable.start (by rw [Board.colour_of_idx hb row hcol]; exact hown)
  refine ⟨b', ?_, hcl⟩
  rw [hw]
  congr 1
  congr 1
  by_cases h1 : N = 1
  · subst h1
    have hr0 : row = 0 := by omega
    have hc0 : col = 0 := by omega
    subst hr0 hc0
    have ht : b'.node_list.set_type 0 = set_t.CLOSED := (hcl 0 (by decide)).2 (by simp)
    have hh : b'.horizontal_path = true := by
      rw [Board.horizontal_path_iff, hsz]
      exact ⟨⟨0, by decide, by simpa using ht⟩, ⟨0, by decide, by simpa using ht⟩⟩
    have hv : b'.vertical_path = true := by
      rw [Board.vertical_path_iff, hsz]
      exact ⟨⟨0, by decide, by simpa using ht⟩, ⟨0, by decide, by simpa using ht⟩⟩
    rw [hh, hv]
    simp
  · have hh : b'.horizontal_path = false := by
      cases hp : b'.horizontal_path
      · rfl
      · rw [Board.horizontal_path_iff, hsz] at hp
        obtain ⟨⟨r1, hr1, ht1⟩, ⟨r2, hr2, ht2⟩⟩ := hp
        have e1 := pair_inj (by omega) hcol ((hcl _ (idx_lt hr1 (by omega))).1 ht1)
        have e2 := pair_inj (by omega) hcol ((hcl _ (idx_lt hr2 (by omega))).1 ht2)
        omega
    have hv : b'.vertical_path = false := by
      cases hp : b'.vertical_path
      · rfl
      · rw [Board.vertical_path_iff, hsz] at hp
        obtain ⟨⟨c1, hc1, ht1⟩, ⟨c2, hc2, ht2⟩⟩ := hp
        have e1 := pair_inj hc1 hcol ((hcl _ (idx_lt (by omega) hc1)).1 ht1)
        have e2 := pair_inj hc2 hcol ((hcl _ (idx_lt (by omega) hc2)).1 ht2)
        omega
    rw [hh, hv]
    simp [h1]

/-- Witness of C10: the `BLUE` stone at the centre of the 3 by 3 board, every other
cell being `RED`. -/
theorem C10_isolated_stone_never_connects_witness :
    (1 ≤ 3 ∧ isolated_board.wf 3 ∧ 1 < 3 ∧ 1 < 3
        ∧ isolated_board.cell_at 1 1 = isolated_board.current_player.color
        ∧ (∀ j, j < 3 * 3 → lattice_adjacent 3 (1 * 3 + 1) j →
            isolated_board.colour_of j ≠ isolated_board.current_player.color)
        ∧ 3 * 3 < 10)
      ∧ ∃ b', isolated_board.winning_move 10 1 1 0 = Except.ok (decide (3 = 1), b')
        ∧ ∀ j, j < 3 * 3 → (b'.node_list.set_type j = set_t.CLOSED ↔ j = 1 * 3 + 1) :=
  ⟨⟨by decide, isolated_board_wf, by decide, by decide, by decide, by decide, by decide⟩,
    C10_isolated_stone_never_connects 3 isolated_board 1 1 0 10 (by decide) isolated_board_wf
      (by decide) (by decide) (by decide) (by decide) (by decide)⟩


/-- C11: for every `N >= 1`, every board with at least one empty cell and every sequence
of shuffle outcomes, `ai_move` terminates and returns a node index in the range
`[0, N*N)`. -/
theorem C11_ai_move_index_in_range (N : Nat) (b : Board) (player_num fuel : Nat)
    (shuffle : Nat → List Nat → List Nat) (hN : 1 ≤ N) (hb : b.wf N) (hfuel : N * N < fuel)
    (hperm : ∀ i, (shuffle i b.possible_moves).Perm b.possible_moves)
    (_hempty : ∃ j, j < N * N ∧ b.colour_of j = cell.EMPTY) :
    ∃ mv b', b.ai_move fuel shuffle player_num = Except.ok (mv, b') ∧ mv < N * N :=
  hb.ai_move_lt hN hfuel shuffle player_num hperm

/-- Witness of C11: the spec's 2 by 2 all-empty board with horizontal orientation; the
result is one of 0, 1, 2, 3. -/
theorem C11_ai_move_index_in_range_witness :
    (1 ≤ 2 ∧ empty_board.wf 2 ∧ 2 * 2 < 5
        ∧ (∀ i : Nat, ((fun (_ : Nat) (l : List Nat) => l) i empty_board.possible_moves).Perm
            empty_board.possible_moves)
        ∧ ∃ j, j < 2 * 2 ∧ empty_board.colour_of j = cell.EMPTY)
      ∧ ∃ mv b', empty_board.ai_move 5 (fun _ l => l) 0 = Except.ok (mv, b') ∧ mv < 2 * 2 :=
  ⟨⟨by decide, empty_board_wf, by decide, fun _ => List.Perm.refl _, ⟨0, by decide, by decide⟩⟩,
    C11_ai_move_index_in_range 2 empty_board 0 5 (fun _ l => l) (by decide) empty_board_wf
      (by decide) (fun _ => List.Perm.refl _) ⟨0, by decide, by decide⟩⟩

/-- C14: `update_board(row, col)` never overwrites a taken cell: for every in-range cell,
if the cell is non-empty it returns false and leaves the whole board unchanged; if the
cell is empty it returns true, sets exactly that cell to the current player's colour
and changes no other cell. -/
theorem C14_update_board_never_overwrites (N : Nat) (b : Board) (row col : Nat)
    (hb : b.wf N) (hrow : row < N) (hcol : col < N) :
    (b.cell_at row col ≠ cell.EMPTY → b.update_board row col = (false, b))
      ∧ (b.cell_at row col = cell.EMPTY →
          (b.update_board row col).1 = true
          ∧ (b.update_board row col).2.cell_at row col = b.current_player.color
          ∧ (∀ r c, ¬ (r = row ∧ c = col) →
              (b.update_board row col).2.cell_at r c = b.cell_at r c)
          ∧ (b.update_board row col).2.node_list = b.node_list
          ∧ (b.update_board row col).2.current_player = b.current_player
          ∧ (b.update_board row col).2.graph = b.graph
          ∧ (b.update_board row col).2.board_size = b.board_size) := by
  constructor
  · intro h
    unfold Board.update_board
    rw [if_pos h]
  · intro h
    have e : b.update_board row col = (true, b.set_cell row col b.current_player.color) := by
      unfold Board.update_board
      rw [if_neg (by simp [h])]
    rw [e]
    refine ⟨rfl, ?_, fun r c hne => ?_, rfl, rfl, rfl, rfl⟩
    · show (b.set_cell row col b.current_player.color).cell_at row col = _
      rw [Board.cell_at_set_cell hb hrow hcol, if_pos ⟨rfl, rfl⟩]
    · show (b.set_cell row col b.current_player.color).cell_at r c = _
      rw [Board.cell_at_set_cell hb hrow hcol, if_neg hne]

/-- Witness of C14: the empty cell `(1,1)` of the 3 by 3 board whose row 0 is `BLUE`. -/
theorem C14_update_board_never_overwrites_witness :
    (row_board.wf 3 ∧ 1 < 3 ∧ 1 < 3)
      ∧ (row_board.cell_at 1 1 ≠ cell.EMPTY → row_board.update_board 1 1 = (false, row_board))
      ∧ (row_board.cell_at 1 1 = cell.EMPTY →
          (row_board.update_board 1 1).1 = true
          ∧ (row_board.update_board 1 1).2.cell_at 1 1 = row_board.current_player.color
          ∧ (∀ r c, ¬ (r = 1 ∧ c = 1) →
              (row_board.update_board 1 1).2.cell_at r c = row_board.cell_at r c)
          ∧ (row_board.update_board 1 1).2.node_list = row_board.node_list
          ∧ (row_board.update_board 1 1).2.current_player = row_board.current_player
          ∧ (row_board.update_board 1 1).2.graph = row_board.graph
          ∧ (row_board.update_board 1 1).2.board_size = row_board.board_size) :=
  ⟨⟨row_board_wf, by decide, by decide⟩,
    C14_update_board_never_overwrites 3 row_board 1 1 row_board_wf (by decide) (by decide)⟩

/-- C15: the priority-frontier traversal behaves as breadth-first search: for every
board, colour and start node owned by that colour, when the pass finishes the distance
recorded for each visited node equals the length (number of edges) of a shortest path
from the start to that node through cells of that colour, and the start node has
distance 0. -/
theorem C15_distance_is_shortest_path (N : Nat) (b : Board) (start fuel : Nat) (hb : b.wf N)
    (hs : start < N * N) (hown : b.colour_of start = b.current_player.color)
    (hfuel : N * N < fuel) :
    ∃ b', b.find_all_paths_from fuel start = Except.ok b'
      ∧ b'.node_list.get_distance start = 0
      ∧ ∀ j, j < N * N → b'.node_list.set_type j = set_t.CLOSED →
          ∃ len : Nat, b'.node_list.get_distance j = (len : Int)
            ∧ colour_path N b.colour_of b.current_player.color start j len
            ∧ ∀ len', colour_path N b.colour_of b.current_player.color start j len' →
                len ≤ len' := by
  obtain ⟨s', _, hQ, hrun, hd⟩ := hb.pass_log hs hfuel
  obtain ⟨D, _, hD⟩ := hQ.dist
  have hs' : start < b.board_size * b.board_size := by rw [hb.size]; exact hs
  refine ⟨s'.1, hrun, ?_, fun j hj hjt => ?_⟩
  · have ht := hQ.pinv.rinv.start_tag
    obtain ⟨n, hn, _⟩ := hD.walk start hs' ht
    have hle := hD.least start hs' ht 0 Board.walk.zero
    unfold NodeList.get_distance
    rw [hn] at hle ⊢
    push_cast at hle
    omega
  · have hj' : j < b.board_size * b.board_size := by rw [hb.size]; exact hj
    have ht : s'.1.node_list.set_type j ≠ set_t.NONE := by rw [hjt]; decide
    obtain ⟨n, hn, hw⟩ := hD.walk j hj' ht
    refine ⟨n, hn, (hb.walk_iff hs hown j n).1 hw, fun len' hp => ?_⟩
    have := hD.least j hj' ht len' ((hb.walk_iff hs hown j len').2 hp)
    rw [hn] at this
    exact_mod_cast this

/-- Witness of C15: the pass from node 2 on the 3 by 3 board whose row 0 is `BLUE`. -/
theorem C15_distance_is_shortest_path_witness :
    (row_board.wf 3 ∧ 2 < 3 * 3 ∧ row_board.colour_of 2 = row_board.current_player.color
        ∧ 3 * 3 < 10)
      ∧ ∃ b', row_board.find_all_paths_from 10 2 = Except.ok b'
        ∧ b'.node_list.get_distance 2 = 0
        ∧ ∀ j, j < 3 * 3 → b'.node_list.set_type j = set_t.CLOSED →
            ∃ len : Nat, b'.node_list.get_distance j = (len : Int)
              ∧ colour_path 3 row_board.colour_of row_board.current_player.color 2 j len
              ∧ ∀ len', colour_path 3 row_board.colour_of row_board.current_player.color 2 j
                  len' → len ≤ len' :=
  ⟨⟨row_board_wf, by decide, by decide, by decide⟩,
    C15_distance_is_shortest_path 3 row_board 2 10 row_board_wf (by decide) (by decide)
      (by decide)⟩

/-- C16: the reachability pass always terminates and is not short-circuited: for every
board and start node, `find_all_paths_from` finishes after extracting each node at most
once (at most `N*N` extractions), and when it returns the frontier is empty (no node is
tagged `OPEN`), even though `find_path_to` returns early each time its target node is
extracted.  The extractions are those of the logged pass, which returns the same
board. -/
theorem C16_pass_terminates_with_empty_frontier (N : Nat) (b : Board) (start fuel : Nat)
    (hb : b.wf N) (hs : start < N * N) (hfuel : N * N < fuel) :
    ∃ b' log, b.find_all_paths_from_log fuel start = Except.ok (b', log)
      ∧ b.find_all_paths_from fuel start = Except.ok b'
      ∧ (extracted log).Nodup
      ∧ (extracted log).length ≤ N * N
      ∧ (∀ m, m ∈ extracted log ↔ (m < N * N ∧ b'.node_list.set_type m = set_t.CLOSED))
      ∧ b'.node_list.open_set = []
      ∧ b'.node_list.open_set_size = 0
      ∧ ∀ j, j < N * N → b'.node_list.set_type j ≠ set_t.OPEN := by
  obtain ⟨s', hlog, hQ, hrun, hd⟩ := hb.pass_log hs hfuel
  have hmem := hQ.log.ext_mem
  rw [hb.size] at hmem
  refine ⟨s'.1, s'.2, hlog, hrun, hQ.log.ext_nodup,
    length_le_of_nodup_lt hQ.log.ext_nodup (fun x hx => ((hmem x).1 hx).1), hmem, hd.empty, ?_,
    fun j hj => hd.no_open j (by rw [hb.size]; exact hj)⟩
  unfold NodeList.open_set_size
  rw [hd.empty]
  rfl

/-- Witness of C16: the pass from node 2 on the 3 by 3 board whose row 0 is `BLUE`. -/
theorem C16_pass_terminates_with_empty_frontier_witness :
    (row_board.wf 3 ∧ 2 < 3 * 3 ∧ 3 * 3 < 10)
      ∧ ∃ b' log, row_board.find_all_paths_from_log 10 2 = Except.ok (b', log)
        ∧ row_board.find_all_paths_from 10 2 = Except.ok b'
        ∧ (extracted log).Nodup
        ∧ (extracted log).length ≤ 3 * 3
        ∧ (∀ m, m ∈ extracted log ↔ (m < 3 * 3 ∧ b'.node_list.set_type m = set_t.CLOSED))
        ∧ b'.node_list.open_set = []
        ∧ b'.node_list.open_set_size = 0
        ∧ ∀ j, j < 3 * 3 → b'.node_list.set_type j ≠ set_t.OPEN :=
  ⟨⟨row_board_wf, by decide, by decide⟩,
    C16_pass_terminates_with_empty_frontier 3 row_board 2 10 row_board_wf (by decide)
      (by decide)⟩

/-- Counterexample to C17 as stated: the start node enters the frontier through
`init_open_set`, which sets neither its distance nor its predecessor.  In the pass from
node 1 on the 3 by 3 board whose row 0 is `BLUE`, run after a pass from node 2, node 1 is
taken from the frontier, but no call of `add_node_to_open_set` is made for it: its
distance is the 0 of `reset` and its predecessor is still the 2 that the earlier pass
wrote, while node 2 gets the predecessor 1. -/
theorem C17_start_node_never_set_counterexample :
    second_pass_log.map
        (fun s => (s.2, s.1.node_list.get_distance 1, (s.1.node_list.nth 1).previous_node,
          (s.1.node_list.nth 2).previous_node))
      = some ([Event.extract 1, Event.insert 0 1 1, Event.insert 2 1 1, Event.extract 0,
          Event.extract 2], 0, 2, 1) := by
  decide

/-- C17, amended: under unit edge weights the decrease-distance branch is dead code: in
every reachability pass, whenever `add_node_to_open_set(j, i, new_dist)` is called for a
node `j` that is already in the frontier, `new_dist` is not smaller than the recorded
distance of `j`, so the update branch is never taken.  Every visited node other than the
start has its distance and predecessor set exactly once, by the call that first puts it
in the frontier, and ends the pass with them.  The start node enters the frontier
through `init_open_set`: no call sets its distance or predecessor, its distance is the 0
of `reset_node_list` and its predecessor, like that of every node that is not inserted,
is the one it had before the pass. -/
theorem C17_update_branch_never_taken (N : Nat) (b : Board) (start fuel : Nat)
    (hb : b.wf N) (hs : start < N * N) (hfuel : N * N < fuel) :
    ∃ b' log, b.find_all_paths_from_log fuel start = Except.ok (b', log)
      ∧ b.find_all_paths_from fuel start = Except.ok b'
      ∧ (∀ j i new_dist recorded, Event.revisit j i new_dist recorded ∈ log →
          ¬ new_dist < recorded)
      ∧ (inserted log).Nodup
      ∧ start ∉ inserted log
      ∧ (∀ j, j < N * N → b'.node_list.set_type j = set_t.CLOSED → j ≠ start →
          j ∈ inserted log)
      ∧ (∀ j i new_dist, Event.insert j i new_dist ∈ log →
          b'.node_list.get_distance j = new_dist
            ∧ (b'.node_list.nth j).previous_node = (i : Int))
      ∧ b'.node_list.get_distance start = 0
      ∧ (b'.node_list.nth start).previous_node = (b.node_list.nth start).previous_node
      ∧ (∀ x, x < N * N → x ∉ inserted log →
          (b'.node_list.nth x).previous_node = (b.node_list.nth x).previous_node) := by
  obtain ⟨s', hlog, hQ, hrun, _⟩ := hb.pass_log hs hfuel
  have hs' : start < b.board_size * b.board_size := by rw [hb.size]; exact hs
  have hkeep := hQ.log.keep
  refine ⟨s'.1, s'.2, hlog, hrun, fun j i d r hm => ?_, hQ.log.ins_nodup, hQ.log.ins_start,
    fun j hj hjt hne => ?_, fun j i d hm => ?_, ?_, hkeep start hs' hQ.log.ins_start,
    fun x hx hxi => hkeep x (by rw [hb.size]; exact hx) hxi⟩
  · have := hQ.log.rev j i d r hm
    omega
  · have ht : s'.1.node_list.set_type j ≠ set_t.NONE := by rw [hjt]; decide
    rcases hQ.log.ins_all j (by rw [hb.size]; exact hj) ht with e | e
    · exact absurd e hne
    · exact e
  · exact (hQ.log.ins j i d hm).2
  · obtain ⟨D, _, hD⟩ := hQ.dist
    have ht := hQ.pinv.rinv.start_tag
    obtain ⟨n, hn, _⟩ := hD.walk start hs' ht
    have hle := hD.least start hs' ht 0 Board.walk.zero
    unfold NodeList.get_distance
    rw [hn] at hle ⊢
    push_cast at hle
    omega

/-- Witness of C17, amended: the pass from node 0 on the 3 by 3 board on which `BLUE`
owns `(0,0)`, `(0,1)` and `(1,0)`; node 3 is in the frontier at distance 1 when
`add_node_to_open_set(3, 1, 2)` is called for it. -/
theorem C17_update_branch_never_taken_witness :
    (corner_board.wf 3 ∧ 0 < 3 * 3 ∧ 3 * 3 < 10)
      ∧ (corner_board.find_all_paths_from_log 10 0).toOption.map Prod.snd
        = some [Event.extract 0, Event.insert 1 0 1, Event.insert 3 0 1, Event.extract 1,
            Event.revisit 3 1 2 1, Event.extract 3]
      ∧ ∃ b' log, corner_board.find_all_paths_from_log 10 0 = Except.ok (b', log)
        ∧ corner_board.find_all_paths_from 10 0 = Except.ok b'
        ∧ (∀ j i new_dist recorded, Event.revisit j i new_dist recorded ∈ log →
            ¬ new_dist < recorded)
        ∧ (inserted log).Nodup
        ∧ 0 ∉ inserted log
        ∧ (∀ j, j < 3 * 3 → b'.node_list.set_type j = set_t.CLOSED → j ≠ 0 →
            j ∈ inserted log)
        ∧ (∀ j i new_dist, Event.insert j i new_dist ∈ log →
            b'.node_list.get_distance j = new_dist
              ∧ (b'.node_list.nth j).previous_node = (i : Int))
        ∧ b'.node_list.get_distance 0 = 0
        ∧ (b'.node_list.nth 0).previous_node = (corner_board.node_list.nth 0).previous_node
        ∧ (∀ x, x < 3 * 3 → x ∉ inserted log →
            (b'.node_list.nth x).previous_node
              = (corner_board.node_list.nth x).previous_node) :=
  ⟨⟨corner_board_wf, by decide, by decide⟩, by decide,
    C17_update_branch_never_taken 3 corner_board 0 10 corner_board_wf (by decide) (by decide)⟩

/-- C18: one Monte Carlo trial, for a permutation `p` of the `m` candidates: the player's
colour is placed on `p[0]`, `p[1]`, ... in order, on at most `ceil(m/2)` cells, and
`winning_move` is asked after each placement.  The trial returns with the board as
before; it adds exactly 1 to the win count of `p[0]` if one of these placements wins and
changes no win count otherwise, and it never changes the win count of any index other
than `p[0]`. -/
theorem C18_trial_counts_first_move (N : Nat) (b : Board) (player_num fuel i : Nat)
    (shuffle : Nat → List Nat → List Nat) (num_wins : List Nat) (hb : b.wf N)
    (hfuel : N * N < fuel) (hlen : num_wins.length = N * N)
    (hperm : (shuffle i b.possible_moves).Perm b.possible_moves) :
    ∃ b' nw', Board.ai_trial fuel shuffle player_num b.possible_moves i (b, num_wins)
        = Except.ok (b', nw')
      ∧ b'.board = b.board
      ∧ ((∃ k, k < ((shuffle i b.possible_moves).length + 1) / 2
            ∧ b.placement_wins fuel player_num (shuffle i b.possible_moves) k) →
          nw'.getD ((shuffle i b.possible_moves).getD 0 0) 0
            = num_wins.getD ((shuffle i b.possible_moves).getD 0 0) 0 + 1)
      ∧ ((¬ ∃ k, k < ((shuffle i b.possible_moves).length + 1) / 2
            ∧ b.placement_wins fuel player_num (shuffle i b.possible_moves) k) →
          nw' = num_wins)
      ∧ (∀ x, x ≠ (shuffle i b.possible_moves).getD 0 0 → nw'.getD x 0 = num_wins.getD x 0)
      ∧ nw'.length = num_wins.length := by
  have horig : ∀ m, m ∈ b.possible_moves → m < N * N ∧ b.colour_of m = cell.EMPTY :=
    fun m hm => (Board.mem_possible_moves hb m).1 hm
  have hm : ∀ j, j < 0 + ((shuffle i b.possible_moves).length + 1) / 2 →
      (shuffle i b.possible_moves).getD j 0 < N * N
        ∧ b.colour_of ((shuffle i b.possible_moves).getD j 0) = cell.EMPTY := by
    intro j hj
    have hjl : j < (shuffle i b.possible_moves).length := by omega
    apply horig
    apply hperm.subset
    rw [List.getD_eq_getElem?_getD, List.getElem?_eq_getElem hjl]
    exact List.getElem_mem _
  obtain ⟨win, b1, nw1, hrun, hiff⟩ := Board.ai_place_wins hb hfuel player_num
    (shuffle i b.possible_moves) ((shuffle i b.possible_moves).getD 0 0)
    (((shuffle i b.possible_moves).length + 1) / 2) 0 b num_wins
    (Placed.none_placed hb _ _) hm
  obtain ⟨win', b1', nw1', hrun', ht, hf⟩ := Board.ai_place_spec hb hfuel player_num
    (shuffle i b.possible_moves) ((shuffle i b.possible_moves).getD 0 0)
    (((shuffle i b.possible_moves).length + 1) / 2) 0 b num_wins
    (Placed.none_placed hb _ _) hm
  have hsame := hrun.symm.trans hrun'
  simp only [Except.ok.injEq, Prod.mk.injEq] at hsame
  obtain ⟨e1, e2, e3⟩ := hsame
  subst e1 e2 e3
  have hiff' : win = true ↔ ∃ k, k < ((shuffle i b.possible_moves).length + 1) / 2
      ∧ b.placement_wins fuel player_num (shuffle i b.possible_moves) k := by
    rw [hiff]
    constructor
    · rintro ⟨j, _, h2, h3⟩
      exact ⟨j, by omega, h3⟩
    · rintro ⟨j, h2, h3⟩
      exact ⟨j, Nat.zero_le _, by omega, h3⟩
  unfold Board.ai_trial
  simp only [hrun]
  cases win with
  | true =>
    obtain ⟨_, h2, _, h4⟩ := ht rfl
    have hk : ∃ k, k < ((shuffle i b.possible_moves).length + 1) / 2
        ∧ b.placement_wins fuel player_num (shuffle i b.possible_moves) k := hiff'.1 rfl
    have hp0 : (shuffle i b.possible_moves).getD 0 0 < num_wins.length := by
      obtain ⟨k, hk1, _⟩ := hk
      rw [hlen]
      exact (hm 0 (by omega)).1
    refine ⟨b1, nw1, by simp, h2, fun _ => ?_, fun hn => absurd hk hn, fun x hx => ?_, ?_⟩
    · rw [h4, getD_set_eq, if_pos ⟨rfl, hp0⟩]
    · rw [h4, getD_set_eq, if_neg (fun hh => hx hh.1)]
    · rw [h4, List.length_set]
  | false =>
    obtain ⟨hP, h4⟩ := hf rfl
    rw [Nat.zero_add] at hP
    have hu := hP.undo hb (fun j hj => hm j (by omega))
    have hnk : ¬ ∃ k, k < ((shuffle i b.possible_moves).length + 1) / 2
        ∧ b.placement_wins fuel player_num (shuffle i b.possible_moves) k :=
      fun hk => absurd (hiff'.2 hk) (by decide)
    refine ⟨_, nw1, by simp, hu.2.1, fun hk => absurd hk hnk, fun _ => h4, fun x _ => ?_, ?_⟩
    · rw [h4]
    · rw [h4]

/-- Witness of C18: the first trial on the 2 by 2 board with two stones, the shuffle
leaving the moves in place. -/
theorem C18_trial_counts_first_move_witness :
    (taken_board.wf 2 ∧ 2 * 2 < 5 ∧ (List.replicate 4 0).length = 2 * 2
        ∧ ((fun (_ : Nat) (l : List Nat) => l) 0 taken_board.possible_moves).Perm
            taken_board.possible_moves)
      ∧ ∃ b' nw', Board.ai_trial 5 (fun _ l => l) 0 taken_board.possible_moves 0
          (taken_board, List.replicate 4 0) = Except.ok (b', nw')
        ∧ b'.board = taken_board.board
        ∧ ((∃ k, k < (((fun (_ : Nat) (l : List Nat) => l) 0
                taken_board.possible_moves).length + 1) / 2
              ∧ taken_board.placement_wins 5 0
                  ((fun (_ : Nat) (l : List Nat) => l) 0 taken_board.possible_moves) k) →
            nw'.getD (((fun (_ : Nat) (l : List Nat) => l) 0
                taken_board.possible_moves).getD 0 0) 0
              = (List.replicate 4 0).getD (((fun (_ : Nat) (l : List Nat) => l) 0
                  taken_board.possible_moves).getD 0 0) 0 + 1)
        ∧ ((¬ ∃ k, k < (((fun (_ : Nat) (l : List Nat) => l) 0
                taken_board.possible_moves).length + 1) / 2
              ∧ taken_board.placement_wins 5 0
                  ((fun (_ : Nat) (l : List Nat) => l) 0 taken_board.possible_moves) k) →
            nw' = List.replicate 4 0)
        ∧ (∀ x, x ≠ ((fun (_ : Nat) (l : List Nat) => l) 0
              taken_board.possible_moves).getD 0 0 →
            nw'.getD x 0 = (List.replicate 4 0).getD x 0)
        ∧ nw'.length = (List.replicate 4 0).length :=
  ⟨⟨taken_board_wf, by decide, by decide, List.Perm.refl _⟩,
    C18_trial_counts_first_move 2 taken_board 0 5 0 (fun _ l => l) (List.replicate 4 0)
      taken_board_wf (by decide) (by decide) (List.Perm.refl _)⟩

/-- C19: for every non-empty frontier whose members have non-negative distances,
`get_min_from_open_set` returns the member that is least in the order (distance, then
node index), tags it `CLOSED`, and removes exactly that member from the frontier, leaving
every other member and every other node's state unchanged.  The frontier is an ordered
set of nodes of the list: its sequence is in comparator order. -/
theorem C19_get_min_extracts_least (k : Nat) (nl : NodeList) (hwf : NLwf k nl)
    (hmem : ∀ q, q ∈ nl.open_set → q < k)
    (hsorted : nl.open_set.Pairwise (fun p q => nl.compare_ptr p q = true))
    (hne : nl.open_set ≠ [])
    (hnonneg : ∀ q, q ∈ nl.open_set → 0 ≤ nl.get_distance q) :
    ∃ m nl', nl.get_min_from_open_set = Except.ok (m, nl')
      ∧ m ∈ nl.open_set
      ∧ (∀ q, q ∈ nl.open_set → q ≠ m →
          nl.get_distance m < nl.get_distance q
            ∨ (nl.get_distance m = nl.get_distance q ∧ m < q))
      ∧ nl'.set_type m = set_t.CLOSED
      ∧ (∀ q, q ∈ nl'.open_set ↔ (q ∈ nl.open_set ∧ q ≠ m))
      ∧ nl'.open_set.length + 1 = nl.open_set.length
      ∧ (∀ x, x ≠ m → nl'.nth x = nl.nth x)
      ∧ (nl'.nth m).distance = (nl.nth m).distance
      ∧ (nl'.nth m).previous_node = (nl.nth m).previous_node
      ∧ (nl'.nth m).node_index = (nl.nth m).node_index
      ∧ nl'.num_nodes = nl.num_nodes := by
  cases ho : nl.open_set with
  | nil => exact absurd ho hne
  | cons m rest =>
    rw [ho] at hsorted hmem hnonneg
    rw [List.pairwise_cons] at hsorted
    have hmk : m < k := hmem m (List.mem_cons_self _ _)
    have hml : m < nl.node_list.length := by rw [hwf.len]; exact hmk
    have hnot : m ∉ rest := by
      intro hm
      have := hsorted.1 m hm
      unfold NodeList.compare_ptr at this
      rw [Node.lt_irrefl] at this
      exact absurd this (by decide)
    refine ⟨m, nl.after_min m rest,
      NodeList.get_min_of_nonneg ho (hnonneg m (List.mem_cons_self _ _)),
      List.mem_cons_self _ _, fun q hq hqm => ?_, ?_, fun q => ?_, rfl, fun x hx => ?_, ?_, ?_,
      ?_, rfl⟩
    · have hq' : q ∈ rest := (List.mem_cons.1 hq).resolve_left hqm
      have := (Node.lt_iff _ _).1 (hsorted.1 q hq')
      rw [hwf.idx m hmk, hwf.idx q (hmem q hq)] at this
      exact this
    · rw [NodeList.set_type_after_min hwf hmk, if_pos rfl]
    · show q ∈ rest ↔ _
      constructor
      · intro hq
        exact ⟨List.mem_cons_of_mem _ hq, fun e => hnot (e ▸ hq)⟩
      · rintro ⟨hq, hqm⟩
        exact (List.mem_cons.1 hq).resolve_left hqm
    · rw [NodeList.nth_after_min, if_neg (fun hh => hx hh.1)]
    · rw [NodeList.nth_after_min, if_pos ⟨rfl, hml⟩]
    · rw [NodeList.nth_after_min, if_pos ⟨rfl, hml⟩]
    · rw [NodeList.nth_after_min, if_pos ⟨rfl, hml⟩]

/-- Witness of C19: a frontier with the nodes 1 and 2, both at distance 1. -/
theorem C19_get_min_extracts_least_witness :
    (NLwf 3 frontier_example
        ∧ (∀ q, q ∈ frontier_example.open_set → q < 3)
        ∧ frontier_example.open_set.Pairwise (fun p q => frontier_example.compare_ptr p q = true)
        ∧ frontier_example.open_set ≠ []
        ∧ (∀ q, q ∈ frontier_example.open_set → 0 ≤ frontier_example.get_distance q))
      ∧ ∃ m nl', frontier_example.get_min_from_open_set = Except.ok (m, nl')
        ∧ m ∈ frontier_example.open_set
        ∧ (∀ q, q ∈ frontier_example.open_set → q ≠ m →
            frontier_example.get_distance m < frontier_example.get_distance q
              ∨ (frontier_example.get_distance m = frontier_example.get_distance q ∧ m < q))
        ∧ nl'.set_type m = set_t.CLOSED
        ∧ (∀ q, q ∈ nl'.open_set ↔ (q ∈ frontier_example.open_set ∧ q ≠ m))
        ∧ nl'.open_set.length + 1 = frontier_example.open_set.length
        ∧ (∀ x, x ≠ m → nl'.nth x = frontier_example.nth x)
        ∧ (nl'.nth m).distance = (frontier_example.nth m).distance
        ∧ (nl'.nth m).previous_node = (frontier_example.nth m).previous_node
        ∧ (nl'.nth m).node_index = (frontier_example.nth m).node_index
        ∧ nl'.num_nodes = frontier_example.num_nodes :=
  ⟨⟨frontier_example_wf, by decide, by decide, by decide, by decide⟩,
    C19_get_min_extracts_least 3 frontier_example frontier_example_wf (by decide) (by decide)
      (by decide) (by decide)⟩

/-- C20: checking only from the newly placed stone is enough: for every board, colour
`c` of the player to move, orientation and empty cell `x`, if before the placement no
connected group of `c`-coloured cells touches both edges required by the orientation,
then after placing `c` on `x`, `winning_move` called for `x` returns true if and only if
the new board contains some connected group of `c`-coloured cells that touches both
required edges. -/
theorem C20_check_from_new_stone_suffices (N : Nat) (b : Board) (row col player_num fuel : Nat)
    (hb : b.wf N) (hrow : row < N) (hcol : col < N) (_hx : b.cell_at row col = cell.EMPTY)
    (hbefore : ¬ sides_connected N b.colour_of b.current_player.color player_num)
    (hfuel : N * N < fuel) :
    ∃ win b', (b.set_cell row col b.current_player.color).winning_move fuel row col player_num
        = Except.ok (win, b')
      ∧ (win = true
          ↔ sides_connected N (b.set_cell row col b.current_player.color).colour_of
              b.current_player.color player_num) := by
  have hN : 0 < N := by omega
  have hb1 : (b.set_cell row col b.current_player.color).wf N := hb.set_cell _ _ _
  have hown : (b.set_cell row col b.current_player.color).cell_at row col
      = (b.set_cell row col b.current_player.color).current_player.color := by
    rw [Board.cell_at_set_cell hb hrow hcol, if_pos ⟨rfl, rfl⟩]
    rfl
  have hother : ∀ y, y ≠ row * N + col →
      (b.set_cell row col b.current_player.color).colour_of y = b.colour_of y := by
    intro y hy
    rw [Board.colour_of_set_cell hb hrow hcol, if_neg hy]
  obtain ⟨b', hw, _, hsz, hiff⟩ := hb1.winning_move_spec hrow hcol hown hfuel player_num
  have hcur : (b.set_cell row col b.current_player.color).current_player.color
      = b.current_player.color := rfl
  rw [hcur] at hiff
  have he1 : ∀ u, u < N → first_edge N player_num u < N * N := by
    intro u hu
    unfold first_edge
    split
    · exact idx_lt hu hN
    · exact idx_lt hN hu
  have he2 : ∀ v, v < N → second_edge N player_num v < N * N := by
    intro v hv
    unfold second_edge
    split
    · exact idx_lt hv (by omega)
    · exact idx_lt (by omega) hv
  have hwin : (if player_num = 0 then b'.horizontal_path else b'.vertical_path) = true
      ↔ ∃ u v, u < N ∧ v < N
        ∧ b'.node_list.set_type (first_edge N player_num u) = set_t.CLOSED
        ∧ b'.node_list.set_type (second_edge N player_num v) = set_t.CLOSED := by
    unfold first_edge second_edge
    by_cases hp : player_num = 0
    · simp only [hp, if_true]
      rw [Board.horizontal_path_iff, hsz]
      constructor
      · rintro ⟨⟨u, hu, h1⟩, ⟨v, hv, h2⟩⟩
        exact ⟨u, v, hu, hv, h1, h2⟩
      · rintro ⟨u, v, hu, hv, h1, h2⟩
        exact ⟨⟨u, hu, h1⟩, ⟨v, hv, h2⟩⟩
    · simp only [hp, if_false]
      rw [Board.vertical_path_iff, hsz]
      constructor
      · rintro ⟨⟨u, hu, h1⟩, ⟨v, hv, h2⟩⟩
        exact ⟨u, v, hu, hv, h1, h2⟩
      · rintro ⟨u, v, hu, hv, h1, h2⟩
        exact ⟨⟨u, hu, h1⟩, ⟨v, hv, h2⟩⟩
  refine ⟨_, b', hw, hwin.trans ?_⟩
  constructor
  · rintro ⟨u, v, hu, hv, h1, h2⟩
    have r1 := (hiff _ (he1 u hu)).1 h1
    have r2 := (hiff _ (he2 v hv)).1 h2
    exact ⟨u, v, hu, hv, r1.symm.trans r2⟩
  · rintro ⟨u, v, hu, hv, hr⟩
    rcases colour_reachable.split hother hr with h0 | h1
    · exact absurd ⟨u, v, hu, hv, h0⟩ hbefore
    · exact ⟨u, v, hu, hv, (hiff _ (he1 u hu)).2 h1.symm,
        (hiff _ (he2 v hv)).2 (h1.symm.trans hr)⟩

/-- Witness of C20: `BLUE` places a stone on the empty cell `(1,1)` of the 2 by 2 board
with `BLUE` on `(0,0)` and `RED` on `(0,1)`. -/
theorem C20_check_from_new_stone_suffices_witness :
    (taken_board.wf 2 ∧ 1 < 2 ∧ 1 < 2 ∧ taken_board.cell_at 1 1 = cell.EMPTY
        ∧ ¬ sides_connected 2 taken_board.colour_of taken_board.current_player.color 0
        ∧ 2 * 2 < 5)
      ∧ ∃ win b', (taken_board.set_cell 1 1 taken_board.current_player.color).winning_move 5 1 1 0
          = Except.ok (win, b')
        ∧ (win = true
            ↔ sides_connected 2
                (taken_board.set_cell 1 1 taken_board.current_player.color).colour_of
                taken_board.current_player.color 0) :=
  ⟨⟨taken_board_wf, by decide, by decide, by decide,
      not_sides_connected_of_unowned (by decide), by decide⟩,
    C20_check_from_new_stone_suffices 2 taken_board 1 1 0 5 taken_board_wf (by decide)
      (by decide) (by decide) (not_sides_connected_of_unowned (by decide)) (by decide)⟩


/-- C21: throughout every reachability pass started by `find_all_paths_from`, the open
set contains exactly the nodes whose tag is `OPEN`, each once; consequently the two
assertions in `open_set_insert` (the node is tagged `OPEN`, and the insertion adds an
element that was not already present) never fail.  The pass is run with a record of the
state of the node list after `init_open_set` and after every call of
`get_min_from_open_set` and `add_node_to_open_set`, and of every call of
`open_set_insert`; it returns, without error, the board that `find_all_paths_from`
returns.  After `reset_node_list`, before `init_open_set`, no node is tagged `OPEN` and
the open set is the one the board came with, which is empty after the constructor and
after every pass. -/
theorem C21_open_set_holds_open_nodes (N : Nat) (b : Board) (start fuel : Nat)
    (hb : b.wf N) (hs : start < N * N) (hfuel : N * N < fuel) :
    ∃ b' tr, b.find_all_paths_from_obs fuel start = Except.ok (b', tr)
      ∧ b.find_all_paths_from fuel start = Except.ok b'
      ∧ Obs.state ((b.node_list.reset_node_list).init_open_set start) ∈ tr
      ∧ Obs.state b'.node_list ∈ tr
      ∧ (∀ nl, Obs.state nl ∈ tr →
          (∀ j, j ∈ nl.open_set ↔ nl.set_type j = set_t.OPEN)
            ∧ (∀ j, j ∈ nl.open_set → j < N * N)
            ∧ nl.open_set.Nodup)
      ∧ (∀ nl j, Obs.insert_call nl j ∈ tr →
          nl.set_type j = set_t.OPEN
            ∧ (set_insert nl.compare_ptr j nl.open_set).2 = true)
      ∧ (∀ j, b.node_list.reset_node_list.set_type j ≠ set_t.OPEN)
      ∧ b.node_list.reset_node_list.open_set = b.node_list.open_set := by
  obtain ⟨s', hrun, hO, hfirst, hpass⟩ := hb.pass_obs hs hfuel
  have hall := hO.all
  rw [hb.size] at hall
  refine ⟨s'.1, s'.2, hrun, hpass, hfirst, hO.cur, fun nl hnl => hall _ hnl,
    fun nl j hnl => hall _ hnl, NodeList.reset_not_open hb.nodes, ?_⟩
  exact (NodeList.reset_node_list_spec hb.nodes).2.1

/-- Witness of C21: the pass from node 2 on the 3 by 3 board whose row 0 is `BLUE`. -/
theorem C21_open_set_holds_open_nodes_witness :
    (row_board.wf 3 ∧ 2 < 3 * 3 ∧ 3 * 3 < 10)
      ∧ ∃ b' tr, row_board.find_all_paths_from_obs 10 2 = Except.ok (b', tr)
        ∧ row_board.find_all_paths_from 10 2 = Except.ok b'
        ∧ Obs.state ((row_board.node_list.reset_node_list).init_open_set 2) ∈ tr
        ∧ Obs.state b'.node_list ∈ tr
        ∧ (∀ nl, Obs.state nl ∈ tr →
            (∀ j, j ∈ nl.open_set ↔ nl.set_type j = set_t.OPEN)
              ∧ (∀ j, j ∈ nl.open_set → j < 3 * 3)
              ∧ nl.open_set.Nodup)
        ∧ (∀ nl j, Obs.insert_call nl j ∈ tr →
            nl.set_type j = set_t.OPEN
              ∧ (set_insert nl.compare_ptr j nl.open_set).2 = true)
        ∧ (∀ j, row_board.node_list.reset_node_list.set_type j ≠ set_t.OPEN)
        ∧ row_board.node_list.reset_node_list.open_set = row_board.node_list.open_set :=
  ⟨⟨row_board_wf, by decide, by decide⟩,
    C21_open_set_holds_open_nodes 3 row_board 2 10 row_board_wf (by decide) (by decide)⟩

end Hex
